import Mathlib

/-!
Shallow embedding of the `valideer` schema-validation library
(`valideer/base.py`, `valideer/errors.py`, `valideer/validators.py`)
and proofs about the claims on its specification.

Python values handled by the validators are modelled by the inductive
`Value`; dictionaries are association lists with string keys in insertion
order (the json-like objects the `Object` validator targets).  Machine-level
aspects (hash tables, object identity) are modelled where a claim needs
them: hashability is a boolean predicate on `Value`, and a separate
store-based model (`namespace Heap`) makes mutation observable for the
frame claim.
-/

namespace Valideer

/-- Python values, as far as the embedded validators can see them. -/
inductive Value where
  | none
  | bool (b : Bool)
  | int (n : Int)
  | str (s : String)
  | list (xs : List Value)
  | dict (entries : List (String × Value))
deriving BEq, Repr

/-- `d[k]` lookup on a Python dict modelled as an association list. -/
def dlookup : List (String × Value) → String → Option Value
  | [], _ => Option.none
  | (k', v) :: t, k => if k' = k then some v else dlookup t k

/-- `d[k] = v` on a Python dict: replacing an existing key keeps its
position, a new key is appended (insertion order). -/
def dset : List (String × Value) → String → Value → List (String × Value)
  | [], k, v => [(k, v)]
  | (k', v') :: t, k, v =>
    if k' = k then (k, v) :: t else (k', v') :: dset t k v

/-- `del d[k]` on a Python dict. -/
def ddel (es : List (String × Value)) (k : String) : List (String × Value) :=
  es.filter (fun p => p.1 ≠ k)

/-- The keys of a dict, in iteration (= insertion) order. -/
def dkeys (es : List (String × Value)) : List String :=
  es.map Prod.fst

/-- `dict(pairs)`: building a dict from an iterable of pairs (later
occurrences of a key overwrite the earlier value in place). -/
def fromPairs (ps : List (String × Value)) : List (String × Value) :=
  ps.foldl (fun acc p => dset acc p.1 p.2) []

/-- Distinctness of dict keys (every real Python dict satisfies it). -/
def nodupKeys : List (String × Value) → Bool
  | [] => true
  | (k, _) :: t => !(t.any (fun p => p.1 == k)) && nodupKeys t

/-- Well-formedness of a value: every dict occurring in it has distinct
keys, as every value built from Python dicts does. -/
def wfV : Value → Bool
  | .none | .bool _ | .int _ | .str _ => true
  | .list xs => xs.attach.all (fun p => wfV p.1)
  | .dict es => nodupKeys es && es.attach.all (fun p => wfV p.1.2)
termination_by v => sizeOf v
decreasing_by
  · have := List.sizeOf_lt_of_mem p.2; simp_wf; omega
  · have := List.sizeOf_lt_of_mem p.2
    have h2 : sizeOf p.1 = 1 + sizeOf p.1.1 + sizeOf p.1.2 := by
      cases p.1; simp
    simp_wf; omega

/-- Hashability of a value (`list` and `dict` are unhashable in Python). -/
def hashable : Value → Bool
  | .list _ => false
  | .dict _ => false
  | _ => true

/-- The `default` argument of `Nullable`: either a plain value or a
zero-argument callable (`callable(self._default)` distinguishes the two). -/
inductive NDefault where
  | lit (v : Value)
  | call (f : Unit → Value)

/-- `Nullable.default`: invoke the default if it is callable, otherwise
use it literally. -/
def resolveDefault : NDefault → Value
  | .lit v => v
  | .call f => f ()

/-- Outcome of calling an `AdaptBy` adaptor on a value
(validators.py, lines 241-247): a returned value, an exception matching
the validator _traps (caught and re-raised as
`ValidationError(str(ex), value)`), or an exception left to propagate -
`traps` falsy, or the exception not an instance of it.  Whether a raised
exception matches the compiled validator's fixed `traps` tuple is a
function of the exception, so it is recorded in the outcome. -/
inductive AdaptorOutcome where
  | ok (r : Value)
  | trapped (m : String)
  | untrapped (m : String)

mutual
/-- The compiled validators of `validators.py` that the claims are about.
`vstr` is `String(min_length, max_length)`; `enum` records whether
`Enum.__init__` managed to store the values as a hash set; `adaptBy`
models `AdaptBy`, whose adaptor may return a value, raise a trapped
exception, or raise an exception that propagates uncaught. -/
inductive Validator where
  | integer
  | boolean
  | vstr (minLength maxLength : Option Nat)
  | enum (isSet : Bool) (values : List Value)
  | adaptBy (f : Value → AdaptorOutcome)
  | nullable (inner : Validator) (default : NDefault)
  | nonNullable (inner : Option Validator)
  | homoSeq (item : Option Validator) (minLength maxLength : Option Nat)
  | heteroSeq (items : List Validator)
  | mapping (keyV valueV : Option Validator)
  | object (named : List (String × Validator)) (required : List String)
      (additional : Additional)

/-- The `additional` policy of `Object`: `True`, `False`, the `REMOVE`
sentinel, or a parsed schema. -/
inductive Additional where
  | tru
  | fls
  | remove
  | schema (v : Validator)
end

/-- A step of an error's context path (`ValidationError.add_context`). -/
inductive Ctx where
  | key (k : String)
  | idx (i : Nat)
deriving BEq, Repr

/-- The message of a `ValidationError`, kept structured rather than
formatted: `mustBe v` stands for `"must be %s" % v.humanized_name`
(raised by `Validator.error`), and the list-carrying constructors stand
for the `%`-formatted messages embedding those lists. -/
inductive ErrMsg where
  | mustBe (v : Validator)
  | missingRequired (names : List String)
  | additionalProps (names : List String)
  | itemCount (expected got : Nat)
  | strMinLen (n : Nat)
  | strMaxLen (n : Nat)
  | seqMinLen (n : Nat)
  | seqMaxLen (n : Nat)
  | adaptFailed (s : String)

/-- A `ValidationError`: message, offending value (`Option.none` is the
`_UNDEFINED` marker) and the context path, innermost first. -/
structure VError where
  msg : ErrMsg
  value : Option Value
  context : List Ctx

/-- `ValidationError.add_context`: appends one outer context step. -/
def VError.addContext (e : VError) (c : Ctx) : VError :=
  { e with context := e.context ++ [c] }

/-- Outcome of running a piece of validator code: normal return,
a raised `ValidationError`, or a raised non-validation exception
(such as `TypeError`), which no validator code catches as a
`ValidationError`. -/
inductive ERes (α : Type) where
  | ok (a : α)
  | vErr (e : VError)
  | tyErr (m : String)

abbrev VResult := ERes Value

/-- The membership test `value in self.values`.  When the values are
stored as a hash set, probing with an unhashable candidate raises
`TypeError`; a list falls back to a linear `==` scan. -/
def pyContains (isSet : Bool) (vals : List Value) (x : Value) :
    Except String Bool :=
  if isSet && !hashable x then .error "unhashable type"
  else .ok (vals.any (fun v => v == x))

/-- `len(value) < min_length` when a lower bound is set. -/
def belowMin (minL : Option Nat) (len : Nat) : Bool :=
  match minL with
  | some n => len < n
  | _ => false

/-- `len(value) > max_length` when an upper bound is set. -/
def aboveMax (maxL : Option Nat) (len : Nat) : Bool :=
  match maxL with
  | some n => n < len
  | _ => false

/-- `Object.validate` returns its `result` variable: the adapted dict, or
Python `None` when `adapt` was false. -/
def objRet : Option (List (String × Value)) → Value
  | some r => .dict r
  | Option.none => .none

/-- Propagate a raised error, or build the sequence validators' return
value: with `adapt`, `value.__class__(validated_items)`; without, the
iterator is exhausted for effect and Python `None` is returned. -/
def seqFinish (adapt : Bool) : ERes (List Value) → VResult
  | .ok ys => if adapt then .ok (.list ys) else .ok .none
  | .vErr e => .vErr e
  | .tyErr m => .tyErr m

/-- Propagate a raised error, or build `Mapping.validate`'s return value:
with `adapt`, `dict(validated_items)`; without, Python `None`. -/
def mapFinish (adapt : Bool) : ERes (List (String × Value)) → VResult
  | .ok ps => if adapt then .ok (.dict (fromPairs ps)) else .ok .none
  | .vErr e => .vErr e
  | .tyErr m => .tyErr m

/-- Propagate a raised error, or `return result` ending `Object.validate`. -/
def objRetRes : ERes (Option (List (String × Value))) → VResult
  | .ok r => .ok (objRet r)
  | .vErr e => .vErr e
  | .tyErr m => .tyErr m

/-- `if result is not None: for name in additional_properties: del result[name]`. -/
def ddelOpt (r : Option (List (String × Value))) (ks : List String) :
    Option (List (String × Value)) :=
  match r with
  | some es => some (ks.foldl ddel es)
  | Option.none => Option.none

/-- `if result is not None: result[name] = adapted`. -/
def dsetOpt (r : Option (List (String × Value))) (k : String) (v : Value) :
    Option (List (String × Value)) :=
  match r with
  | some es => some (dset es k v)
  | Option.none => Option.none

/-- Prepend a validated mapping entry to the outcome for the remaining
entries. -/
def consPair (k : String) (v : Value) :
    ERes (List (String × Value)) → ERes (List (String × Value))
  | .ok ps => .ok ((k, v) :: ps)
  | .vErr e => .vErr e
  | .tyErr m => .tyErr m

/-- The adapted key of a mapping entry: an adapted key that is not a
string is kept as the original key (no key validator in the embedded
universe produces one). -/
def keyOf (k : String) : Value → String
  | .str s => s
  | _ => k

mutual
/-- `Validator.validate(value, adapt)` for each embedded validator,
translated case by case from `validators.py`.  Raised exceptions are the
`.vErr`/`.tyErr` outcomes. -/
def validate : Validator → Value → Bool → VResult
  | .integer, x, _ =>
    match x with
    | .int _ => .ok x
    | _ => .vErr ⟨.mustBe .integer, some x, []⟩
  | .boolean, x, _ =>
    match x with
    | .bool _ => .ok x
    | _ => .vErr ⟨.mustBe .boolean, some x, []⟩
  | .vstr minL maxL, x, _ =>
    match x with
    | .str s =>
      if belowMin minL s.length then .vErr ⟨.strMinLen (minL.getD 0), some x, []⟩
      else if aboveMax maxL s.length then .vErr ⟨.strMaxLen (maxL.getD 0), some x, []⟩
      else .ok x
    | _ => .vErr ⟨.mustBe (.vstr minL maxL), some x, []⟩
  | .enum isSet vals, x, _ =>
    -- a TypeError from the membership test is caught and turned into
    -- the ordinary `self.error(value)` validation error
    match pyContains isSet vals x with
    | .ok true => .ok x
    | _ => .vErr ⟨.mustBe (.enum isSet vals), some x, []⟩
  | .adaptBy f, x, _ =>
    match f x with
    | .ok r => .ok r
    | .trapped m => .vErr ⟨.adaptFailed m, some x, []⟩
    | .untrapped m => .tyErr m
  | .nullable inner d, x, adapt =>
    match x with
    | .none => .ok (resolveDefault d)
    | _ => validate inner x adapt
  | .nonNullable io, x, adapt =>
    match x with
    | .none => .vErr ⟨.mustBe (.nonNullable io), some x, []⟩
    | _ =>
      match io with
      | some i => validate i x adapt
      | Option.none => .ok x
  | .homoSeq item minL maxL, x, adapt =>
    match x with
    | .list xs =>
      if belowMin minL xs.length then .vErr ⟨.seqMinLen (minL.getD 0), some x, []⟩
      else if aboveMax maxL xs.length then .vErr ⟨.seqMaxLen (maxL.getD 0), some x, []⟩
      else
        match item with
        | Option.none => .ok x
        | some iv => seqFinish adapt (seqItems iv xs adapt 0)
    | _ => .vErr ⟨.mustBe (.homoSeq item minL maxL), some x, []⟩
  | .heteroSeq ivs, x, adapt =>
    match x with
    | .list xs =>
      if xs.length ≠ ivs.length then
        .vErr ⟨.itemCount ivs.length xs.length, some x, []⟩
      else seqFinish adapt (hetItems ivs xs adapt 0)
    | _ => .vErr ⟨.mustBe (.heteroSeq ivs), some x, []⟩
  | .mapping kv vv, x, adapt =>
    match x with
    | .dict es => mapFinish adapt (mapItems kv vv es adapt)
    | _ => .vErr ⟨.mustBe (.mapping kv vv), some x, []⟩
  | .object named req add, x, adapt =>
    match x with
    | .dict xs =>
      let missing := req.filter (fun k => !(dkeys xs).contains k)
      if missing ≠ [] then .vErr ⟨.missingRequired missing, some x, []⟩
      else
        objStep2 add named xs x adapt
          (objNamed named xs adapt (if adapt then some xs else Option.none))
    | _ => .vErr ⟨.mustBe (.object named req add), some x, []⟩
termination_by v _ _ => (sizeOf v, 0)

/-- The additional-properties step ending `Object.validate` (lines
655-676), applied to the outcome of the named-properties loop: `True`
passes everything through, `False` rejects listing every undeclared key,
`REMOVE` deletes them from the result, and a schema validates each
undeclared value.  The whole step is skipped when there is no undeclared
key. -/
def objStep2 (add : Additional) (named : List (String × Validator))
    (xs : List (String × Value)) (x : Value) (adapt : Bool)
    (r1 : ERes (Option (List (String × Value)))) : VResult :=
  match r1 with
  | .vErr e => .vErr e
  | .tyErr m => .tyErr m
  | .ok result =>
    match add with
    | .tru => .ok (objRet result)
    | .fls =>
      let extra := (dkeys xs).filter (fun k => !(named.map Prod.fst).contains k)
      if extra = [] then .ok (objRet result)
      else .vErr ⟨.additionalProps extra, some x, []⟩
    | .remove =>
      let extra := (dkeys xs).filter (fun k => !(named.map Prod.fst).contains k)
      if extra = [] then .ok (objRet result)
      else .ok (objRet (ddelOpt result extra))
    | .schema s =>
      let extra := (dkeys xs).filter (fun k => !(named.map Prod.fst).contains k)
      if extra = [] then .ok (objRet result)
      else objRetRes (objAdditional s extra xs adapt result)
termination_by (sizeOf add, 1)

/-- `HomogeneousSequence._iter_validated_items`: validate the items in
order, tagging a failure with the item's index. -/
def seqItems (iv : Validator) (xs : List Value) (adapt : Bool) (i : Nat) :
    ERes (List Value) :=
  match xs with
  | [] => .ok []
  | x :: rest =>
    match validate iv x adapt with
    | .ok y =>
      match seqItems iv rest adapt (i + 1) with
      | .ok ys => .ok (y :: ys)
      | .vErr e => .vErr e
      | .tyErr m => .tyErr m
    | .vErr e => .vErr (e.addContext (.idx i))
    | .tyErr m => .tyErr m
termination_by (sizeOf iv, xs.length + 1)

/-- `HeterogeneousSequence._iter_validated_items`: validate each item
against its positional validator (`izip` stops at the shorter list;
the lengths were checked equal beforehand). -/
def hetItems (ivs : List Validator) (xs : List Value) (adapt : Bool) (i : Nat) :
    ERes (List Value) :=
  match ivs, xs with
  | iv :: ivr, x :: xr =>
    match validate iv x adapt with
    | .ok y =>
      match hetItems ivr xr adapt (i + 1) with
      | .ok ys => .ok (y :: ys)
      | .vErr e => .vErr e
      | .tyErr m => .tyErr m
    | .vErr e => .vErr (e.addContext (.idx i))
    | .tyErr m => .tyErr m
  | _, _ => .ok []
termination_by (sizeOf ivs, xs.length + 1)

/-- `Mapping._iter_validated_items`: for each entry the value is
validated first (failure context = the key), then the key. -/
def mapItems (kv vv : Option Validator) (es : List (String × Value))
    (adapt : Bool) : ERes (List (String × Value)) :=
  match es with
  | [] => .ok []
  | (k, v) :: rest =>
    match vv with
    | Option.none => mapItemKey kv Option.none k v rest adapt
    | some vval =>
      match validate vval v adapt with
      | .ok v' => mapItemKey kv (some vval) k v' rest adapt
      | .vErr e => .vErr (e.addContext (.key k))
      | .tyErr m => .tyErr m
termination_by (sizeOf kv + sizeOf vv, 2 * es.length + 2)

/-- Key-validation half of a `Mapping._iter_validated_items` step, after
the entry's value was validated to `v'`. -/
def mapItemKey (kv vv : Option Validator) (k : String) (v' : Value)
    (rest : List (String × Value)) (adapt : Bool) :
    ERes (List (String × Value)) :=
  match kv with
  | Option.none => consPair k v' (mapItems Option.none vv rest adapt)
  | some kval =>
    match validate kval (.str k) adapt with
    | .ok kv' => consPair (keyOf k kv') v' (mapItems (some kval) vv rest adapt)
    | .vErr e => .vErr e
    | .tyErr m => .tyErr m
termination_by (sizeOf kv + sizeOf vv, 2 * rest.length + 3)

/-- The `for name, validator in self._named_validators` loop of
`Object.validate`: validate declared keys that are present (context =
the key), and inject the non-null resolved default of an absent
`Nullable` property into the result. -/
def objNamed (named : List (String × Validator)) (xs : List (String × Value))
    (adapt : Bool) (result : Option (List (String × Value))) :
    ERes (Option (List (String × Value))) :=
  match named with
  | [] => .ok result
  | (name, v) :: rest => objNamedStep name v rest xs adapt result (dlookup xs name)
termination_by (sizeOf named, 0)

/-- One iteration of the named-properties loop, given `value[name]` when
`name in value`. -/
def objNamedStep (name : String) (v : Validator) (rest : List (String × Validator))
    (xs : List (String × Value)) (adapt : Bool)
    (result : Option (List (String × Value))) (pres : Option Value) :
    ERes (Option (List (String × Value))) :=
  match pres with
  | some pv =>
    match validate v pv adapt with
    | .ok ad => objNamed rest xs adapt (dsetOpt result name ad)
    | .vErr e => .vErr (e.addContext (.key name))
    | .tyErr m => .tyErr m
  | Option.none =>
    match v with
    | .nullable _ d => objNamedDefault name rest xs adapt result (resolveDefault d)
    | _ => objNamed rest xs adapt result
termination_by (sizeOf v + sizeOf rest + 1, 0)

/-- The absent-`Nullable` half of a named-properties iteration:
`adapted = validator.default; if adapted is not None and result is not
None: result[name] = adapted`. -/
def objNamedDefault (name : String) (rest : List (String × Validator))
    (xs : List (String × Value)) (adapt : Bool)
    (result : Option (List (String × Value))) (ad : Value) :
    ERes (Option (List (String × Value))) :=
  match ad with
  | .none => objNamed rest xs adapt result
  | ad => objNamed rest xs adapt (dsetOpt result name ad)
termination_by (sizeOf rest, 1)

/-- The additional-properties-as-schema loop of `Object.validate`:
every undeclared key's value is validated against the policy schema
(context = the key) and written into the result. -/
def objAdditional (s : Validator) (ks : List String)
    (xs : List (String × Value)) (adapt : Bool)
    (result : Option (List (String × Value))) :
    ERes (Option (List (String × Value))) :=
  match ks with
  | [] => .ok result
  | k :: rest =>
    match validate s ((dlookup xs k).getD .none) adapt with
    | .ok ad => objAdditional s rest xs adapt (dsetOpt result k ad)
    | .vErr e => .vErr (e.addContext (.key k))
    | .tyErr m => .tyErr m
termination_by (sizeOf s, ks.length + 1)
end

/-- `Validator.is_valid` (base.py, lines 216-225): run
`validate(value, adapt=False)` inside `try/except ValidationError`;
any other exception propagates to the caller. -/
def is_valid (v : Validator) (x : Value) : Except String Bool :=
  match validate v x false with
  | .ok _ => .ok true
  | .vErr _ => .ok false
  | .tyErr m => .error m

/-- `Enum.__init__`: `set(values)` succeeds exactly when every value is
hashable; otherwise the `TypeError` is caught and a list is stored.  The
collection itself is kept as the given list, with the storage kind in the
boolean flag (deduplication by the set does not affect membership). -/
def enumInit (vals : List Value) : Validator :=
  .enum (vals.all hashable) vals

/-- A Python object passed as one of the `*errors` varargs of
`MultipleValidationError.__init__` / `add_errors`: a single
validation-error instance, a `MultipleValidationError`, or an iterable
(list / generator) of validation errors. -/
inductive ErrArg where
  | base (e : VError)
  | multi (es : List VError)
  | pylist (es : List VError)
  | pygen (es : List VError)

/-- `MultipleValidationError.add_errors(*errors)` (errors.py, lines
86-94), accumulating into `self.errors`: a `MultipleValidationError`
vararg is flattened, a `BaseValidationError` is appended, and anything
else - in particular a list or a generator of errors - raises
`TypeError`. -/
def addErrors (flat : List VError) : List ErrArg → Except String (List VError)
  | [] => .ok flat
  | .multi es :: rest => addErrors (flat ++ es) rest
  | .base e :: rest => addErrors (flat ++ [e]) rest
  | .pylist _ :: _ =>
    .error "error should be a BaseValidationError instance; list given"
  | .pygen _ :: _ =>
    .error "error should be a BaseValidationError instance; generator given"

/-- `MultipleValidationError(*errors)`: start from `self.errors = []`
and run `add_errors(*errors)`. -/
def mveInit (args : List ErrArg) : Except String (List VError) :=
  addErrors [] args

/-- Outcome of `full_validate`: normal return, a raised
`MultipleValidationError` carrying its flat `errors` list, or a raised
non-validation exception such as `TypeError`. -/
inductive FullResult where
  | ok (v : Value)
  | multiErr (es : List VError)
  | tyErr (m : String)

/-- `Validator.full_validate` (base.py, lines 195-214), the
implementation every embedded container validator inherits: call
`validate` and wrap a raised `ValidationError` via
`MultipleValidationError([ex])` - the error is passed wrapped in a
single Python list argument. -/
def fullValidate (v : Validator) (x : Value) (adapt : Bool) : FullResult :=
  match validate v x adapt with
  | .ok r => .ok r
  | .vErr e =>
    match mveInit [.pylist [e]] with
    | .ok es => .multiErr es
    | .error m => .tyErr m
  | .tyErr m => .tyErr m

/-- `ContainerValidator._validate` (base.py, lines 261-287) with
`full=True`: the tagged error-or-item stream produced by
`_iter_errors_and_items` is teed, and `MultipleValidationError(iter_errors)`
is constructed - with the error generator as its single argument - before
its `errors` attribute is inspected; with no errors and `adapt`, the items
are reduced via `_reduce_items` (abstracted here as `reduce`). -/
def containerFullValidate (reduce : List Value → Value)
    (stream : List (VError ⊕ Value)) (adapt : Bool) (value : Value) :
    FullResult :=
  let errs := stream.filterMap (fun t =>
    match t with | .inl e => some e | .inr _ => Option.none)
  match mveInit [.pygen errs] with
  | .error m => .tyErr m
  | .ok es =>
    if ¬ es.isEmpty then .multiErr es
    else if adapt then
      .ok (reduce (stream.filterMap (fun t =>
        match t with | .inr v => some v | .inl _ => Option.none)))
    else .ok value

/-- A schema descriptor, as handed to `parse`: an already-compiled
`Validator` instance or a name string (possibly `?`/`+`-prefixed).
The structural descriptor shapes (dicts, lists, tuples, types, ...) are
compiled through constructors modelled separately. -/
inductive Descriptor where
  | validator (v : Validator)
  | name (s : String)

/-- The `_NAMED_VALIDATORS` registry entries for the embedded leaf
validators (each `name` class attribute registers its class, instantiated
without arguments on first lookup). -/
def namedValidator : String → Option Validator
  | "integer" => some .integer
  | "boolean" => some .boolean
  | "string" => some (.vstr Option.none Option.none)
  | _ => Option.none

/-- The one-level unwrap performed by the `Nullable`/`NonNullable`
constructors after parsing: `if isinstance(validator, (Nullable,
NonNullable)): validator = validator._validator`.  A bare `NonNullable`
with no inner validator cannot result from `parse`, so it is kept
unchanged here. -/
def unwrapOne : Validator → Validator
  | .nullable i _ => i
  | .nonNullable (some i) => i
  | v => v

/-- `s.startswith(p)` for the one-character prefixes `"?"`/`"+"`, via
the character list underlying the string (definitionally evaluable,
unlike `String.startsWith`). -/
def startsWithChar (c : Char) (s : String) : Bool :=
  match s.data with
  | [] => false
  | c0 :: _ => c0 == c

/-- `obj[1:]`: the string with its one-character prefix removed. -/
def dropOne (s : String) : String :=
  ⟨s.data.drop 1⟩

mutual
/-- `parse(obj)` (base.py, lines 75-96) on the embedded descriptors: a
`Validator` instance is returned unchanged; a known name instantiates
the registered class; otherwise the factory chain is tried - for a name
string only `_NullableFactory` (`"?"` prefix) and `_NonNullableFactory`
(`"+"` prefix) can match, and their prefixes are disjoint, so the chain
order is immaterial.  The fuel only bounds the recursion through the
wrapper constructors; any concrete descriptor parses with enough of it. -/
def parse : Nat → Descriptor → Except String Validator
  | _, .validator v => .ok v
  | 0, _ => .error "out of fuel"
  | fuel + 1, .name s =>
    match namedValidator s with
    | some v => .ok v
    | Option.none =>
      if startsWithChar '?' s then nullableInit fuel (.name (dropOne s)) (.lit .none)
      else if startsWithChar '+' s then nonNullableInit fuel (some (.name (dropOne s)))
      else .error "cannot be parsed as a Validator"
termination_by fuel _ => (fuel, 0)

/-- `Nullable.__init__` (validators.py, lines 90-98): an already-compiled
`Validator` instance is stored exactly as given; any other descriptor is
parsed and the result unwrapped one level if it is a
`Nullable`/`NonNullable`. -/
def nullableInit (fuel : Nat) (schema : Descriptor) (default : NDefault) :
    Except String Validator :=
  match schema with
  | .validator v => .ok (.nullable v default)
  | d =>
    match parse fuel d with
    | .error m => .error m
    | .ok w => .ok (.nullable (unwrapOne w) default)
termination_by (fuel, 1)

/-- `NonNullable.__init__` (validators.py, lines 127-134): `None` or an
already-compiled `Validator` instance is stored exactly as given; any
other descriptor is parsed and the result unwrapped one level if it is a
`Nullable`/`NonNullable`. -/
def nonNullableInit (fuel : Nat) (schema : Option Descriptor) :
    Except String Validator :=
  match schema with
  | Option.none => .ok (.nonNullable Option.none)
  | some (.validator v) => .ok (.nonNullable (some v))
  | some d =>
    match parse fuel d with
    | .error m => .error m
    | .ok w => .ok (.nonNullable (some (unwrapOne w)))
termination_by (fuel, 1)
end

/-! ### Association-list (Python dict) lemmas -/

theorem dlookup_dset_self (es : List (String × Value)) (k : String) (v : Value) :
    dlookup (dset es k v) k = some v := by
  induction es with
  | nil => simp [dset, dlookup]
  | cons p t ih =>
    obtain ⟨k', v'⟩ := p
    by_cases h : k' = k <;> simp [dset, dlookup, h, ih]

theorem dlookup_dset_ne (es : List (String × Value)) (k k' : String) (v : Value)
    (h : k' ≠ k) : dlookup (dset es k v) k' = dlookup es k' := by
  induction es with
  | nil => simp [dset, dlookup, Ne.symm h]
  | cons p t ih =>
    obtain ⟨k₀, v₀⟩ := p
    by_cases h0 : k₀ = k
    · subst h0
      simp [dset, dlookup, Ne.symm h]
    · simp [dset, dlookup, h0, ih]

theorem dkeys_dset_mem (es : List (String × Value)) (k : String) (v : Value)
    (h : k ∈ dkeys es) : dkeys (dset es k v) = dkeys es := by
  simp only [dkeys] at *
  induction es with
  | nil => simp at h
  | cons p t ih =>
    obtain ⟨k₀, v₀⟩ := p
    by_cases h0 : k₀ = k
    · simp [dset, h0]
    · simp only [List.map_cons, List.mem_cons] at h
      rcases h with h | h
      · exact absurd h.symm h0
      · simp [dset, h0, ih h]

theorem dkeys_dset_not_mem (es : List (String × Value)) (k : String) (v : Value)
    (h : k ∉ dkeys es) : dkeys (dset es k v) = dkeys es ++ [k] := by
  simp only [dkeys] at *
  induction es with
  | nil => simp [dset]
  | cons p t ih =>
    obtain ⟨k₀, v₀⟩ := p
    simp only [List.map_cons, List.mem_cons] at h
    push_neg at h
    simp [dset, Ne.symm h.1, ih h.2]

theorem dset_self (es : List (String × Value)) (k : String) (v : Value)
    (h : dlookup es k = some v) : dset es k v = es := by
  induction es with
  | nil => simp [dlookup] at h
  | cons p t ih =>
    obtain ⟨k₀, v₀⟩ := p
    by_cases h0 : k₀ = k
    · subst h0
      simp [dlookup] at h
      simp [dset, h]
    · simp [dlookup, h0] at h
      simp [dset, h0, ih h]

theorem mem_dkeys_iff (es : List (String × Value)) (k : String) :
    k ∈ dkeys es ↔ ∃ v, dlookup es k = some v := by
  induction es with
  | nil => simp [dkeys, dlookup]
  | cons p t ih =>
    obtain ⟨k₀, v₀⟩ := p
    by_cases h0 : k₀ = k
    · subst h0
      simp [dkeys, dlookup]
    · have hk : dkeys ((k₀, v₀) :: t) = k₀ :: dkeys t := by simp [dkeys]
      rw [hk]
      simp only [List.mem_cons]
      constructor
      · intro hm
        rcases hm with h | h
        · exact absurd h.symm h0
        · rcases ih.1 h with ⟨v, hv⟩
          exact ⟨v, by simp [dlookup, h0, hv]⟩
      · rintro ⟨v, hv⟩
        simp only [dlookup, if_neg h0] at hv
        exact Or.inr (ih.2 ⟨v, hv⟩)

theorem dlookup_none_of_not_mem (es : List (String × Value)) (k : String)
    (h : k ∉ dkeys es) : dlookup es k = Option.none := by
  rcases h2 : dlookup es k with _ | v
  · rfl
  · exact absurd ((mem_dkeys_iff es k).2 ⟨v, h2⟩) h

theorem dlookup_ddel_self (es : List (String × Value)) (k : String) :
    dlookup (ddel es k) k = Option.none := by
  induction es with
  | nil => simp [ddel, dlookup]
  | cons p t ih =>
    obtain ⟨k₀, v₀⟩ := p
    by_cases h0 : k₀ = k
    · have hd : ddel ((k₀, v₀) :: t) k = ddel t k := by
        simp [ddel, List.filter_cons, h0]
      rw [hd, ih]
    · have hd : ddel ((k₀, v₀) :: t) k = (k₀, v₀) :: ddel t k := by
        simp [ddel, List.filter_cons, h0]
      rw [hd]
      simp [dlookup, h0, ih]

theorem dlookup_ddel_ne (es : List (String × Value)) (k k' : String) (h : k' ≠ k) :
    dlookup (ddel es k) k' = dlookup es k' := by
  induction es with
  | nil => simp [ddel]
  | cons p t ih =>
    obtain ⟨k₀, v₀⟩ := p
    by_cases h0 : k₀ = k
    · have hd : ddel ((k₀, v₀) :: t) k = ddel t k := by
        simp [ddel, List.filter_cons, h0]
      have hne : ¬ k₀ = k' := by rw [h0]; exact Ne.symm h
      rw [hd, ih]
      simp [dlookup, hne]
    · have hd : ddel ((k₀, v₀) :: t) k = (k₀, v₀) :: ddel t k := by
        simp [ddel, List.filter_cons, h0]
      rw [hd]
      by_cases h1 : k₀ = k'
      · simp [dlookup, h1]
      · simp [dlookup, h1, ih]

/-- Deleting a list of keys: lookups of other keys are unchanged. -/
theorem dlookup_foldl_ddel_not_mem (ks : List String) (k : String) :
    ∀ es, k ∉ ks → dlookup (ks.foldl ddel es) k = dlookup es k := by
  induction ks with
  | nil => intro es _; simp
  | cons k₀ t ih =>
    intro es h
    simp only [List.mem_cons, not_or] at h
    simp only [List.foldl_cons]
    rw [ih (ddel es k₀) h.2, dlookup_ddel_ne _ _ _ h.1]

/-- Deleting a list of keys: the deleted keys are gone. -/
theorem dlookup_foldl_ddel_mem (ks : List String) (k : String) :
    ∀ es, k ∈ ks → dlookup (ks.foldl ddel es) k = Option.none := by
  induction ks with
  | nil => intro es h; simp at h
  | cons k₀ t ih =>
    intro es h
    simp only [List.foldl_cons]
    by_cases ht : k ∈ t
    · exact ih _ ht
    · rcases List.mem_cons.1 h with h0 | h0
      · subst h0
        rw [dlookup_foldl_ddel_not_mem t k (ddel es k) ht, dlookup_ddel_self]
      · exact absurd h0 ht

/-! ### `validate` never raises a non-validation exception -/

/-- The outcome is not a raised non-validation exception (`TypeError`
and friends). -/
def NoTy {α : Type} : ERes α → Prop
  | .tyErr _ => False
  | _ => True

theorem noTy_ok {α : Type} (a : α) : NoTy (.ok a) := trivial

theorem noTy_vErr {α : Type} (e : VError) : NoTy (α := α) (.vErr e) := trivial

theorem seqFinish_noTy (adapt : Bool) (r : ERes (List Value)) (h : NoTy r) :
    NoTy (seqFinish adapt r) := by
  cases r with
  | ok ys => cases adapt <;> simp [seqFinish, NoTy]
  | vErr e => simp [seqFinish, NoTy]
  | tyErr m => exact h.elim

theorem mapFinish_noTy (adapt : Bool) (r : ERes (List (String × Value)))
    (h : NoTy r) : NoTy (mapFinish adapt r) := by
  cases r with
  | ok ps => cases adapt <;> simp [mapFinish, NoTy]
  | vErr e => simp [mapFinish, NoTy]
  | tyErr m => exact h.elim

theorem objRetRes_noTy (r : ERes (Option (List (String × Value)))) (h : NoTy r) :
    NoTy (objRetRes r) := by
  cases r <;> simp [objRetRes, NoTy] at h ⊢

theorem seqItems_noTy (iv : Validator)
    (ih : ∀ x a, NoTy (validate iv x a)) :
    ∀ (xs : List Value) (a : Bool) (i : Nat), NoTy (seqItems iv xs a i) := by
  intro xs
  induction xs with
  | nil => intro a i; simp [seqItems, NoTy]
  | cons x rest ihr =>
    intro a i
    simp only [seqItems]
    rcases h : validate iv x a with y | e | mm
    · rcases h2 : seqItems iv rest a (i + 1) with ys | e2 | m2
      · exact noTy_ok _
      · exact noTy_vErr _
      · have := ihr a (i + 1)
        rw [h2] at this
        exact this.elim
    · exact noTy_vErr _
    · have := ih x a
      rw [h] at this
      exact this.elim

theorem hetItems_noTy (ivs : List Validator)
    (ih : ∀ iv ∈ ivs, ∀ x a, NoTy (validate iv x a)) :
    ∀ (xs : List Value) (a : Bool) (i : Nat), NoTy (hetItems ivs xs a i) := by
  induction ivs with
  | nil => intro xs a i; cases xs <;> simp [hetItems, NoTy]
  | cons iv ivr ihr =>
    intro xs a i
    cases xs with
    | nil => simp [hetItems, NoTy]
    | cons x xr =>
      simp only [hetItems]
      rcases h : validate iv x a with y | e | mm
      · rcases h2 : hetItems ivr xr a (i + 1) with ys | e2 | m2
        · exact noTy_ok _
        · exact noTy_vErr _
        · have := ihr (fun w hw => ih w (List.mem_cons_of_mem _ hw)) xr a (i + 1)
          rw [h2] at this
          exact this.elim
      · exact noTy_vErr _
      · have := ih iv (List.mem_cons_self iv ivr) x a
        rw [h] at this
        exact this.elim

theorem consPair_noTy (k : String) (v : Value) (r : ERes (List (String × Value)))
    (h : NoTy r) : NoTy (consPair k v r) := by
  cases r <;> simp [consPair, NoTy] at h ⊢

mutual
theorem mapItems_noTy (kv vv : Option Validator)
    (ihk : ∀ w ∈ kv, ∀ x a, NoTy (validate w x a))
    (ihv : ∀ w ∈ vv, ∀ x a, NoTy (validate w x a)) :
    ∀ (es : List (String × Value)) (a : Bool), NoTy (mapItems kv vv es a) := by
  intro es a
  cases es with
  | nil => rw [mapItems.eq_def]; trivial
  | cons p rest =>
    obtain ⟨k, v⟩ := p
    rw [mapItems.eq_def]
    cases vv with
    | none => exact mapItemKey_noTy kv Option.none ihk (by simp) k v rest a
    | some vval =>
      dsimp only
      rcases h : validate vval v a with y | e | mm
      · exact mapItemKey_noTy kv (some vval) ihk ihv k y rest a
      · trivial
      · have := ihv vval (by simp) v a
        rw [h] at this
        exact this.elim
termination_by es _ => (es.length, 0)

theorem mapItemKey_noTy (kv vv : Option Validator)
    (ihk : ∀ w ∈ kv, ∀ x a, NoTy (validate w x a))
    (ihv : ∀ w ∈ vv, ∀ x a, NoTy (validate w x a)) :
    ∀ (k : String) (v' : Value) (rest : List (String × Value)) (a : Bool),
      NoTy (mapItemKey kv vv k v' rest a) := by
  intro k v' rest a
  cases kv with
  | none =>
    rw [mapItemKey.eq_def]
    exact consPair_noTy _ _ _ (mapItems_noTy Option.none vv (by simp) ihv rest a)
  | some kval =>
    rw [mapItemKey.eq_def]
    dsimp only
    rcases h : validate kval (.str k) a with y | e | mm
    · exact consPair_noTy _ _ _ (mapItems_noTy (some kval) vv ihk ihv rest a)
    · trivial
    · have := ihk kval (by simp) (.str k) a
      rw [h] at this
      exact this.elim
termination_by _ _ rest _ => (rest.length, 1)
end

theorem objNamed_noTy (named : List (String × Validator))
    (ih : ∀ p ∈ named, ∀ x a, NoTy (validate p.2 x a)) :
    ∀ (xs : List (String × Value)) (a : Bool) (r : Option (List (String × Value))),
      NoTy (objNamed named xs a r) := by
  induction named with
  | nil => intro xs a r; rw [objNamed.eq_def]; trivial
  | cons p rest ihr =>
    obtain ⟨name, v⟩ := p
    intro xs a r
    have ihrest := ihr (fun q hq => ih q (List.mem_cons_of_mem _ hq))
    rw [objNamed.eq_def]
    dsimp only
    rw [objNamedStep.eq_def]
    rcases h : dlookup xs name with _ | pv
    · dsimp only
      cases v <;> dsimp only <;>
        first
          | exact ihrest xs a r
          | (rename_i inner d
             rw [objNamedDefault.eq_def]
             rcases hd : resolveDefault d with _ | b | n | s0 | l | es2 <;>
               dsimp only <;> exact ihrest xs a _)
    · dsimp only
      rcases h2 : validate v pv a with y | e | mm
      · exact ihrest xs a _
      · trivial
      · have := ih (name, v) (List.mem_cons_self _ _) pv a
        rw [h2] at this
        exact this.elim

theorem objAdditional_noTy (s : Validator)
    (ih : ∀ x a, NoTy (validate s x a)) :
    ∀ (ks : List String) (xs : List (String × Value)) (a : Bool)
      (r : Option (List (String × Value))), NoTy (objAdditional s ks xs a r) := by
  intro ks
  induction ks with
  | nil => intro xs a r; rw [objAdditional.eq_def]; trivial
  | cons k rest ihr =>
    intro xs a r
    rw [objAdditional.eq_def]
    dsimp only
    rcases h : validate s ((dlookup xs k).getD .none) a with y | e | mm
    · exact ihr xs a _
    · trivial
    · have := ih ((dlookup xs k).getD .none) a
      rw [h] at this
      exact this.elim

theorem objStep2_noTy (add : Additional) (named : List (String × Validator))
    (xs : List (String × Value)) (x : Value) (adapt : Bool)
    (r1 : ERes (Option (List (String × Value)))) (h1 : NoTy r1)
    (hs : ∀ s, add = .schema s → ∀ z a, NoTy (validate s z a)) :
    NoTy (objStep2 add named xs x adapt r1) := by
  rcases r1 with result | e | m
  · cases add with
    | tru => rw [objStep2.eq_def]; trivial
    | fls =>
      rw [objStep2.eq_def]
      dsimp only
      split <;> trivial
    | remove =>
      rw [objStep2.eq_def]
      dsimp only
      split <;> trivial
    | schema s =>
      rw [objStep2.eq_def]
      dsimp only
      split
      · trivial
      · exact objRetRes_noTy _ (objAdditional_noTy s (hs s rfl) _ xs adapt result)
  · rw [objStep2.eq_def]; trivial
  · exact h1.elim

/-- Validators whose every `AdaptBy` adaptor raises only exceptions
covered by its `traps`: exactly the validators whose `validate` can
raise nothing but `ValidationError`.  An adaptor exception outside
`traps` (validators.py, lines 242-243 and 246-247) propagates uncaught,
and so does nothing else: the only other non-validation exception, the
unhashable-candidate membership probe in `Enum.validate`, is caught
internally. -/
inductive TrapsAll : Validator → Prop where
  | integer : TrapsAll .integer
  | boolean : TrapsAll .boolean
  | vstr (minL maxL : Option Nat) : TrapsAll (.vstr minL maxL)
  | enum (isSet : Bool) (vals : List Value) : TrapsAll (.enum isSet vals)
  | adaptBy (f : Value → AdaptorOutcome) :
      (∀ x m, f x ≠ .untrapped m) → TrapsAll (.adaptBy f)
  | nullable (inner : Validator) (d : NDefault) :
      TrapsAll inner → TrapsAll (.nullable inner d)
  | nonNullable (io : Option Validator) :
      (∀ i, io = some i → TrapsAll i) → TrapsAll (.nonNullable io)
  | homoSeq (item : Option Validator) (minL maxL : Option Nat) :
      (∀ iv, item = some iv → TrapsAll iv) → TrapsAll (.homoSeq item minL maxL)
  | heteroSeq (ivs : List Validator) :
      (∀ iv ∈ ivs, TrapsAll iv) → TrapsAll (.heteroSeq ivs)
  | mapping (kv vv : Option Validator) :
      (∀ w, kv = some w → TrapsAll w) → (∀ w, vv = some w → TrapsAll w) →
      TrapsAll (.mapping kv vv)
  | object (named : List (String × Validator)) (req : List String)
      (add : Additional) :
      (∀ q ∈ named, TrapsAll q.2) → (∀ s, add = .schema s → TrapsAll s) →
      TrapsAll (.object named req add)

/-- `validate` of a validator whose adaptors trap all their exceptions
never raises a non-validation exception. -/
theorem validate_noTy (v : Validator) (hT : TrapsAll v) :
    ∀ (x : Value) (a : Bool), NoTy (validate v x a) := by
  cases v with
  | integer => intro x a; rw [validate.eq_def]; cases x <;> trivial
  | boolean => intro x a; rw [validate.eq_def]; cases x <;> trivial
  | vstr minL maxL =>
    intro x a
    rw [validate.eq_def]
    cases x <;> try trivial
    dsimp only
    split_ifs <;> trivial
  | enum isSet vals =>
    intro x a
    rw [validate.eq_def]
    dsimp only
    rcases h : pyContains isSet vals x with m | b
    · trivial
    · cases b <;> trivial
  | adaptBy f =>
    intro x a
    have hf : ∀ x2 m, f x2 ≠ .untrapped m := by
      cases hT with
      | adaptBy _ h => exact h
    rw [validate.eq_def]
    dsimp only
    rcases h : f x with r | m | m
    · trivial
    · trivial
    · exact absurd h (hf x m)
  | nullable inner d =>
    have hTi : TrapsAll inner := by
      cases hT with
      | nullable _ _ h => exact h
    intro x a
    rw [validate.eq_def]
    cases x <;> first | trivial | exact validate_noTy inner hTi _ a
  | nonNullable io =>
    have hTi : ∀ i, io = some i → TrapsAll i := by
      cases hT with
      | nonNullable _ h => exact h
    intro x a
    rw [validate.eq_def]
    cases x <;> try trivial
    all_goals
      cases io with
      | none => trivial
      | some i => exact validate_noTy i (hTi i rfl) _ a
  | homoSeq item minL maxL =>
    have hTi : ∀ iv, item = some iv → TrapsAll iv := by
      cases hT with
      | homoSeq _ _ _ h => exact h
    intro x a
    rw [validate.eq_def]
    cases x <;> try trivial
    dsimp only
    split_ifs <;> try trivial
    cases item with
    | none => trivial
    | some iv =>
      exact seqFinish_noTy a _
        (seqItems_noTy iv (fun z b => validate_noTy iv (hTi iv rfl) z b) _ a 0)
  | heteroSeq ivs =>
    have hTl : ∀ iv ∈ ivs, TrapsAll iv := by
      cases hT with
      | heteroSeq _ h => exact h
    intro x a
    rw [validate.eq_def]
    cases x <;> try trivial
    dsimp only
    split_ifs <;> try trivial
    exact seqFinish_noTy a _
      (hetItems_noTy ivs (fun iv hiv z b => validate_noTy iv (hTl iv hiv) z b) _ a 0)
  | mapping kv vv =>
    have hTk : ∀ w, kv = some w → TrapsAll w := by
      cases hT with
      | mapping _ _ hk hv2 => exact hk
    have hTv : ∀ w, vv = some w → TrapsAll w := by
      cases hT with
      | mapping _ _ hk hv2 => exact hv2
    intro x a
    rw [validate.eq_def]
    cases x <;> try trivial
    exact mapFinish_noTy a _
      (mapItems_noTy kv vv (fun w hw z b => validate_noTy w (hTk w hw) z b)
        (fun w hw z b => validate_noTy w (hTv w hw) z b) _ a)
  | object named req add =>
    have hTn : ∀ q ∈ named, TrapsAll q.2 := by
      cases hT with
      | object _ _ _ hn hs2 => exact hn
    have hTs : ∀ s2, add = .schema s2 → TrapsAll s2 := by
      cases hT with
      | object _ _ _ hn hs2 => exact hs2
    intro x a
    rw [validate.eq_def]
    cases x <;> try trivial
    dsimp only
    split_ifs <;> try trivial
    all_goals
      exact objStep2_noTy add named _ _ a _
        (objNamed_noTy named (fun p hp z b => validate_noTy p.2 (hTn p hp) z b) _ a _)
        (fun s hs0 z b => validate_noTy s (hTs s hs0) z b)
termination_by sizeOf v
decreasing_by
  all_goals try subst v
  all_goals try subst_eqs
  all_goals simp_wf
  all_goals try omega
  all_goals try { have := List.sizeOf_lt_of_mem hiv; omega }
  all_goals try { have := List.sizeOf_lt_of_mem hp
                  have h2 : sizeOf p = 1 + sizeOf p.1 + sizeOf p.2 := by cases p; simp
                  omega }
  all_goals try { cases hw; simp; omega }

/-! ### Error-context lemmas for the `Object` loops -/

theorem addContext_ne_nil (e : VError) (c : Ctx) :
    (e.addContext c).context ≠ [] := by
  simp [VError.addContext]

/-- Every error raised inside the named-properties loop carries the
failing property's name as context. -/
theorem objNamed_err_context :
    ∀ (named : List (String × Validator)) (xs : List (String × Value)) (a : Bool)
      (r0 : Option (List (String × Value))) (e : VError),
      objNamed named xs a r0 = .vErr e → e.context ≠ [] := by
  intro named
  induction named with
  | nil =>
    intro xs a r0 e h
    rw [objNamed.eq_def] at h
    exact ERes.noConfusion h
  | cons p rest ihr =>
    obtain ⟨name, v⟩ := p
    intro xs a r0 e h
    rw [objNamed.eq_def] at h
    dsimp only at h
    rw [objNamedStep.eq_def] at h
    rcases hd : dlookup xs name with _ | pv
    · rw [hd] at h
      dsimp only at h
      cases v <;> dsimp only at h <;> try exact ihr xs a _ e h
      rename_i inner d
      rw [objNamedDefault.eq_def] at h
      rcases hrd : resolveDefault d with _ | b | n | s0 | l | es2 <;>
        rw [hrd] at h <;> dsimp only at h <;> exact ihr xs a _ e h
    · rw [hd] at h
      dsimp only at h
      rcases h2 : validate v pv a with y | e2 | mm <;> rw [h2] at h <;> dsimp only at h
      · exact ihr xs a _ e h
      · cases h
        exact addContext_ne_nil e2 _
      · exact ERes.noConfusion h

/-- Every error raised inside the additional-properties-schema loop
carries the failing key as context. -/
theorem objAdditional_err_context (s : Validator) :
    ∀ (ks : List String) (xs : List (String × Value)) (a : Bool)
      (r0 : Option (List (String × Value))) (e : VError),
      objAdditional s ks xs a r0 = .vErr e → e.context ≠ [] := by
  intro ks
  induction ks with
  | nil =>
    intro xs a r0 e h
    rw [objAdditional.eq_def] at h
    exact ERes.noConfusion h
  | cons k rest ihr =>
    intro xs a r0 e h
    rw [objAdditional.eq_def] at h
    dsimp only at h
    rcases h2 : validate s ((dlookup xs k).getD .none) a with y | e2 | mm <;>
      rw [h2] at h <;> dsimp only at h
    · exact ihr xs a _ e h
    · cases h
      exact addContext_ne_nil e2 _
    · exact ERes.noConfusion h

theorem unwrapOne_integer : unwrapOne .integer = .integer := rfl

theorem unwrapOne_nullable (i : Validator) (d : NDefault) :
    unwrapOne (.nullable i d) = i := rfl

theorem unwrapOne_nonNullable_some (i : Validator) :
    unwrapOne (.nonNullable (some i)) = i := rfl

/-! ### Claim C7: `is_valid` returns a boolean and never raises -/

/-- `int(s)` on the embedded strings, sign and whitespace handling
omitted: an all-digit string parses, anything else raises `ValueError`. -/
def strToIntPy (s : String) : Option Int :=
  if s.data ≠ [] ∧ s.data.all Char.isDigit
  then some (Int.ofNat (s.data.foldl (fun n c => 10 * n + (c.toNat - 48)) 0))
  else Option.none

/-- The Python builtin `int` as the adaptor of `AdaptBy(int, traps=())`:
the `ValueError`/`TypeError` it raises on unconvertible input matches
the empty `traps` tuple of no exception, so it propagates uncaught. -/
def intNoTraps : Value → AdaptorOutcome
  | .int n => .ok (.int n)
  | .bool b => .ok (.int (if b then 1 else 0))
  | .str s =>
    match strToIntPy s with
    | some n => .ok (.int n)
    | Option.none => .untrapped "ValueError"
  | _ => .untrapped "TypeError"

/-- C7 (counterexample): `is_valid` can raise.  For the compiled
validator `AdaptBy(int, traps=())` and the input `"x"`, the adaptor
raises `ValueError`; with falsy `traps`, `AdaptBy.validate` lets it
propagate (validators.py, lines 242-243), and `is_valid` catches only
`ValidationError` (base.py, lines 221-225), so `is_valid` raises the
`ValueError` instead of returning a boolean. -/
theorem C7_counterexample :
    is_valid (.adaptBy intNoTraps) (.str "x") = .error "ValueError"
    ∧ validate (.adaptBy intNoTraps) (.str "x") false = .tyErr "ValueError" := by
  constructor
  · simp only [is_valid]
    rw [validate.eq_def]
    rfl
  · rw [validate.eq_def]
    rfl

/-- C7 (amended): `is_valid` returns a boolean and never raises for
every compiled validator whose `AdaptBy` adaptors raise only exceptions
covered by their `traps` - in particular for every `AdaptBy`-free
validator: it returns `true` exactly when `validate` accepts the value
and converts any `ValidationError` raised by `validate` into `false`.
An untrapped adaptor exception propagates through `validate` and
`is_valid` alike. -/
theorem C7_is_valid_never_raises (v : Validator) (x : Value) (hT : TrapsAll v) :
    (is_valid v x = .ok true ∨ is_valid v x = .ok false)
    ∧ (is_valid v x = .ok true ↔ ∃ w, validate v x false = .ok w)
    ∧ (∀ e, validate v x false = .vErr e → is_valid v x = .ok false) := by
  have hn := validate_noTy v hT x false
  rcases h : validate v x false with w | e | m
  · exact ⟨Or.inl (by simp [is_valid, h]),
      ⟨fun _ => ⟨w, rfl⟩, fun _ => by simp [is_valid, h]⟩,
      fun e he => ERes.noConfusion he⟩
  · refine ⟨Or.inr (by simp [is_valid, h]),
      ⟨fun ht => by simp [is_valid, h] at ht, fun hw => ?_⟩,
      fun e2 he => by simp [is_valid, h]⟩
    obtain ⟨w, hw⟩ := hw
    exact ERes.noConfusion hw
  · rw [h] at hn
    exact hn.elim

/-- Witness for C7 (amended) at a concrete validator and value. -/
theorem C7_witness :
    is_valid Validator.integer (Value.str "a") = .ok false := by
  exact (C7_is_valid_never_raises .integer (.str "a") TrapsAll.integer).2.2
    ⟨.mustBe .integer, some (.str "a"), []⟩ (by simp [validate])

/-! ### Claim C10: `Enum` catches the unhashable-membership `TypeError` -/

/-- C10: for every `Enum` validator whose accepted values were stored as
a hash set, validating an unhashable candidate does not raise the
membership test's `TypeError` to the caller: it is caught internally and
the candidate is reported invalid through an ordinary `ValidationError`. -/
theorem C10_enum_unhashable_candidate (vals : List Value) (x : Value) (a : Bool)
    (h1 : vals.all hashable = true) (h2 : hashable x = false) :
    pyContains true vals x = .error "unhashable type"
    ∧ validate (enumInit vals) x a = .vErr ⟨.mustBe (.enum true vals), some x, []⟩
    ∧ is_valid (enumInit vals) x = .ok false := by
  have hset : enumInit vals = .enum true vals := by simp [enumInit, h1]
  have hpc : pyContains true vals x = .error "unhashable type" := by
    simp [pyContains, h2]
  have hv : ∀ b, validate (enumInit vals) x b
      = .vErr ⟨.mustBe (.enum true vals), some x, []⟩ := by
    intro b
    rw [hset, validate.eq_def]
    dsimp only
    rw [hpc]
  exact ⟨hpc, hv a, by simp [is_valid, hv false]⟩

/-- Witness for C10: `Enum([1])` stores a set; probing it with the
unhashable `[]` is rejected as invalid rather than raising. -/
theorem C10_witness :
    pyContains true [Value.int 1] (Value.list []) = .error "unhashable type"
    ∧ validate (enumInit [Value.int 1]) (Value.list []) true
        = .vErr ⟨.mustBe (.enum true [Value.int 1]), some (.list []), []⟩
    ∧ is_valid (enumInit [Value.int 1]) (Value.list []) = .ok false :=
  C10_enum_unhashable_candidate [Value.int 1] (Value.list []) true rfl rfl

/-! ### Claim C1: `full_validate` and the aggregate error machinery -/

/-- C1 (divergence witness): `MultipleValidationError`'s varargs
signature makes `add_errors` reject the iterable that `base.py` itself
passes, so `full_validate` raises `TypeError` instead of the documented
`MultipleValidationError`:
* the inherited `Validator.full_validate` hits it on any invalid value
  (here a homogeneous sequence with two invalid items), and
* `ContainerValidator._validate` in full mode hits it on every input,
  valid or not, because `MultipleValidationError(iter_errors)` is always
  constructed from a generator argument. -/
theorem C1_full_validate_raises_type_error :
    fullValidate (.homoSeq (some .integer) Option.none Option.none)
        (.list [.str "a", .str "b"]) true
      = .tyErr "error should be a BaseValidationError instance; list given"
    ∧ ∀ (reduce : List Value → Value) (stream : List (VError ⊕ Value))
        (adapt : Bool) (value : Value),
        containerFullValidate reduce stream adapt value
          = .tyErr "error should be a BaseValidationError instance; generator given" := by
  constructor
  · have hv : validate (.homoSeq (some .integer) Option.none Option.none)
        (.list [.str "a", .str "b"]) true
        = .vErr ⟨.mustBe .integer, some (.str "a"), [.idx 0]⟩ := by
      rw [validate.eq_def]
      dsimp only
      simp [belowMin, aboveMax, seqFinish, seqItems, validate, VError.addContext]
    simp [fullValidate, hv, mveInit, addErrors]
  · intro reduce stream adapt value
    simp [containerFullValidate, mveInit, addErrors]

/-! ### Claim C5: `Nullable` short-circuits `None` to its default -/

/-- C5: a `Nullable` validator maps `None` to its configured default
without ever consulting the wrapped validator (invoking a callable
default, using a plain one literally) and delegates every non-null value
to the wrapped validator; `Nullable("integer", default=0)` behaves as the
spec's example states. -/
theorem C5_nullable_default (inner inner' : Validator) (d : NDefault)
    (x : Value) (a : Bool) :
    (validate (.nullable inner d) .none a = .ok (resolveDefault d)
      ∧ validate (.nullable inner d) .none a = validate (.nullable inner' d) .none a)
    ∧ (∀ f : Unit → Value, validate (.nullable inner (.call f)) .none a = .ok (f ()))
    ∧ (∀ w : Value, validate (.nullable inner (.lit w)) .none a = .ok w)
    ∧ (x ≠ .none → validate (.nullable inner d) x a = validate inner x a)
    ∧ nullableInit 1 (.name "integer") (.lit (.int 0))
        = .ok (.nullable .integer (.lit (.int 0)))
    ∧ validate (.nullable .integer (.lit (.int 0))) .none true = .ok (.int 0)
    ∧ is_valid (.nullable .integer (.lit (.int 0))) .none = .ok true
    ∧ validate (.nullable .integer (.lit (.int 0))) (.int 5) true = .ok (.int 5)
    ∧ validate (.nullable .integer (.lit (.int 0))) (.str "5") true
        = .vErr ⟨.mustBe .integer, some (.str "5"), []⟩ := by
  refine ⟨⟨by simp [validate], by simp [validate]⟩, fun f => by simp [validate, resolveDefault],
    fun w => by simp [validate, resolveDefault], ?_, by simp [nullableInit, parse, namedValidator, unwrapOne_integer,
      show namedValidator "integer" = some .integer from rfl],
    by simp [validate, resolveDefault], by simp [is_valid, validate, resolveDefault],
    by simp [validate], by simp [validate]⟩
  intro hx
  cases x with
  | none => exact absurd rfl hx
  | bool b => conv_lhs => rw [validate.eq_def]
  | int n => conv_lhs => rw [validate.eq_def]
  | str s0 => conv_lhs => rw [validate.eq_def]
  | list l => conv_lhs => rw [validate.eq_def]
  | dict es => conv_lhs => rw [validate.eq_def]

/-- Witness for C5 at a concrete non-null input. -/
theorem C5_witness :
    validate (.nullable .integer (.lit (.int 0))) (.int 7) true
      = validate .integer (.int 7) true :=
  (C5_nullable_default .integer .boolean (.lit (.int 0)) (.int 7) true).2.2.2.1
    (by intro h; cases h)

/-! ### Claim C6: one-level unwrapping in `Nullable`/`NonNullable` -/

/-- C6 (counterexample): an already-compiled `Nullable` instance passed
to the `Nullable` or `NonNullable` constructor is stored whole - the
`isinstance(schema, Validator)` branch skips the unwrap - so the claimed
one-level unwrapping does not happen for compiled-validator descriptors. -/
theorem C6_counterexample :
    nullableInit 1 (.validator (.nullable .integer (.lit .none))) (.lit .none)
      = .ok (.nullable (.nullable .integer (.lit .none)) (.lit .none))
    ∧ Validator.nullable (.nullable .integer (.lit .none)) (.lit .none)
      ≠ .nullable .integer (.lit .none)
    ∧ nonNullableInit 1 (some (.validator (.nullable .integer (.lit .none))))
      = .ok (.nonNullable (some (.nullable .integer (.lit .none))))
    ∧ Validator.nonNullable (some (.nullable .integer (.lit .none)))
      ≠ .nonNullable (some .integer) := by
  refine ⟨by simp [nullableInit], ?_, by simp [nonNullableInit], ?_⟩
  · intro h
    injection h with h1 h2
    exact Validator.noConfusion h1
  · intro h
    injection h with h1
    injection h1 with h2
    exact Validator.noConfusion h2

/-- C6 (amended): the one-level unwrap happens exactly for descriptors
that are not already `Validator` instances - those go through `parse`,
and a parsed `Nullable`/`NonNullable` has its single inner validator
stored; an already-compiled instance is stored unchanged, without
unwrapping. -/
theorem C6_unwrap_one_level (fuel : Nat) (d : Descriptor) (default : NDefault)
    (w : Validator) (hnv : ∀ u, d ≠ .validator u) (hp : parse fuel d = .ok w) :
    (∀ i d0, w = .nullable i d0 →
      nullableInit fuel d default = .ok (.nullable i default)
      ∧ nonNullableInit fuel (some d) = .ok (.nonNullable (some i)))
    ∧ (∀ i, w = .nonNullable (some i) →
      nullableInit fuel d default = .ok (.nullable i default)
      ∧ nonNullableInit fuel (some d) = .ok (.nonNullable (some i)))
    ∧ (∀ u, nullableInit fuel (.validator u) default = .ok (.nullable u default)
      ∧ nonNullableInit fuel (some (.validator u)) = .ok (.nonNullable (some u))) := by
  cases d with
  | validator u => exact absurd rfl (hnv u)
  | name s =>
    have hnul : nullableInit fuel (.name s) default
        = .ok (.nullable (unwrapOne w) default) := by
      rw [nullableInit.eq_def]
      dsimp only
      rw [hp]
    have hnn : nonNullableInit fuel (some (.name s))
        = .ok (.nonNullable (some (unwrapOne w))) := by
      rw [nonNullableInit.eq_def]
      dsimp only
      rw [hp]
    refine ⟨?_, ?_, ?_⟩
    · rintro i d0 rfl
      simp [unwrapOne] at hnul hnn
      exact ⟨hnul, hnn⟩
    · rintro i rfl
      simp [unwrapOne] at hnul hnn
      exact ⟨hnul, hnn⟩
    · intro u
      exact ⟨by simp [nullableInit], by simp [nonNullableInit]⟩

/-- Witness for C6 (amended): `"?integer"` parses to a `Nullable`, and
wrapping that descriptor again stores only the inner `Integer`. -/
theorem C6_witness :
    nullableInit 2 (.name "?integer") (.lit (.int 5))
      = .ok (.nullable .integer (.lit (.int 5)))
    ∧ nonNullableInit 2 (some (.name "?integer"))
      = .ok (.nonNullable (some .integer)) := by
  have h := C6_unwrap_one_level 2 (.name "?integer") (.lit (.int 5))
    (.nullable .integer (.lit .none)) (fun u h => by cases h)
    (by simp [parse, nullableInit,
          show namedValidator "?integer" = Option.none from rfl,
          show namedValidator "integer" = some Validator.integer from rfl,
          show startsWithChar '?' "?integer" = true from rfl,
          show dropOne "?integer" = "integer" from rfl, unwrapOne_integer])
  exact h.1 .integer (.lit .none) rfl

/-! ### Claim C3: one aggregated missing-required error -/

/-- C3: for every compiled `Object` validator and mapping input, the
missing-required check raises exactly one `ValidationError` whose
message lists all of the missing required names (`missing = required -
present`); when every required key is present no missing-required error
is raised (any later error either carries a property context or has a
different message). -/
theorem C3_missing_required_aggregated (named : List (String × Validator))
    (req : List String) (add : Additional) (xs : List (String × Value)) (a : Bool) :
    (∀ k, k ∈ req.filter (fun k => !(dkeys xs).contains k) ↔ (k ∈ req ∧ k ∉ dkeys xs))
    ∧ (req.filter (fun k => !(dkeys xs).contains k) ≠ [] →
        validate (.object named req add) (.dict xs) a
          = .vErr ⟨.missingRequired (req.filter (fun k => !(dkeys xs).contains k)),
              some (.dict xs), []⟩)
    ∧ (req.filter (fun k => !(dkeys xs).contains k) = [] →
        ∀ (L : List String) (w : Option Value),
          validate (.object named req add) (.dict xs) a ≠ .vErr ⟨.missingRequired L, w, []⟩) := by
  refine ⟨?_, ?_, ?_⟩
  · intro k
    simp [List.mem_filter]
  · intro hm
    rw [validate.eq_def]
    dsimp only
    rw [if_pos hm]
  · intro h0 L w hcontra
    rw [validate.eq_def] at hcontra
    dsimp only at hcontra
    rw [h0] at hcontra
    rw [if_neg (by simp)] at hcontra
    rcases hn : objNamed named xs a (if a = true then some xs else Option.none) with
      res | e | m <;> rw [hn] at hcontra
    · cases add with
      | tru =>
        rw [objStep2.eq_def] at hcontra
        exact ERes.noConfusion hcontra
      | fls =>
        rw [objStep2.eq_def] at hcontra
        dsimp only at hcontra
        split at hcontra
        · exact ERes.noConfusion hcontra
        · injection hcontra with h1
          injection h1 with h2
          exact ErrMsg.noConfusion h2
      | remove =>
        rw [objStep2.eq_def] at hcontra
        dsimp only at hcontra
        split at hcontra <;> exact ERes.noConfusion hcontra
      | schema sch =>
        rw [objStep2.eq_def] at hcontra
        dsimp only at hcontra
        split at hcontra
        · exact ERes.noConfusion hcontra
        · rcases ha : objAdditional sch
              ((dkeys xs).filter (fun k => !(named.map Prod.fst).contains k)) xs a res with
            res2 | e2 | m2 <;> rw [ha] at hcontra <;> dsimp only [objRetRes] at hcontra
          · exact ERes.noConfusion hcontra
          · injection hcontra with h1
            have := objAdditional_err_context sch _ xs a res e2 ha
            rw [h1] at this
            exact this rfl
          · exact ERes.noConfusion hcontra
    · rw [objStep2.eq_def] at hcontra
      injection hcontra with h1
      have := objNamed_err_context named xs a _ e hn
      rw [h1] at this
      exact this rfl
    · rw [objStep2.eq_def] at hcontra
      exact ERes.noConfusion hcontra

/-- Witness for C3: `{"+id": "integer"}` on `{}` raises the single
missing-required error listing `["id"]`, and on `{"id": 1}` raises no
missing-required error. -/
theorem C3_witness :
    validate (.object [("id", .integer)] ["id"] .tru) (.dict []) true
      = .vErr ⟨.missingRequired ["id"], some (.dict []), []⟩
    ∧ ∀ (L : List String) (w : Option Value),
        validate (.object [("id", .integer)] ["id"] .tru)
          (.dict [("id", .int 1)]) true ≠ .vErr ⟨.missingRequired L, w, []⟩ := by
  constructor
  · exact (C3_missing_required_aggregated [("id", .integer)] ["id"] .tru [] true).2.1
      (by simp [dkeys])
  · exact (C3_missing_required_aggregated [("id", .integer)] ["id"] .tru
      [("id", .int 1)] true).2.2 (by simp [dkeys])

/-! ### Characterization of the `Object` loops -/

theorem dsetOpt_none (k : String) (v : Value) :
    dsetOpt Option.none k v = Option.none := rfl

theorem dsetOpt_some (r : List (String × Value)) (k : String) (v : Value) :
    dsetOpt (some r) k v = some (dset r k v) := rfl

/-- With `adapt=False` (`result = None`) the named-properties loop
returns `None`. -/
theorem objNamed_ok_none :
    ∀ (named : List (String × Validator)) (xs : List (String × Value)) (a : Bool)
      (res : Option (List (String × Value))),
      objNamed named xs a Option.none = .ok res → res = Option.none := by
  intro named
  induction named with
  | nil =>
    intro xs a res h
    rw [objNamed.eq_def] at h
    cases h
    rfl
  | cons p rest ihr =>
    obtain ⟨name, v⟩ := p
    intro xs a res h
    rw [objNamed.eq_def] at h
    dsimp only at h
    rw [objNamedStep.eq_def] at h
    rcases hd : dlookup xs name with _ | pv <;> rw [hd] at h <;> dsimp only at h
    · cases v <;> dsimp only at h <;> try exact ihr xs a res h
      rename_i inner d
      rw [objNamedDefault.eq_def] at h
      rcases hrd : resolveDefault d with _ | b | n | s0 | l | es2 <;> rw [hrd] at h <;>
        dsimp only at h <;> try simp only [dsetOpt_none] at h
      all_goals exact ihr xs a res h
    · rcases h2 : validate v pv a with y | e2 | mm <;> rw [h2] at h <;> dsimp only at h
      · simp only [dsetOpt_none] at h
        exact ihr xs a res h
      · exact ERes.noConfusion h
      · exact ERes.noConfusion h

/-- With `adapt=True` the named-properties loop returns an adapted dict. -/
theorem objNamed_ok_some :
    ∀ (named : List (String × Validator)) (xs : List (String × Value)) (a : Bool)
      (r0 : List (String × Value)) (res : Option (List (String × Value))),
      objNamed named xs a (some r0) = .ok res → ∃ r, res = some r := by
  intro named
  induction named with
  | nil =>
    intro xs a r0 res h
    rw [objNamed.eq_def] at h
    cases h
    exact ⟨r0, rfl⟩
  | cons p rest ihr =>
    obtain ⟨name, v⟩ := p
    intro xs a r0 res h
    rw [objNamed.eq_def] at h
    dsimp only at h
    rw [objNamedStep.eq_def] at h
    rcases hd : dlookup xs name with _ | pv <;> rw [hd] at h <;> dsimp only at h
    · cases v <;> dsimp only at h <;> try exact ihr xs a r0 res h
      rename_i inner d
      rw [objNamedDefault.eq_def] at h
      rcases hrd : resolveDefault d with _ | b | n | s0 | l | es2 <;> rw [hrd] at h <;>
        dsimp only at h <;> (try simp only [dsetOpt_some] at h) <;>
        first
          | exact ihr xs a r0 res h
          | exact ihr xs a _ res h
    · rcases h2 : validate v pv a with y | e2 | mm <;> rw [h2] at h <;> dsimp only at h
      · simp only [dsetOpt_some] at h
        exact ihr xs a _ res h
      · exact ERes.noConfusion h
      · exact ERes.noConfusion h

/-- The named-properties loop never touches keys outside the declared
names. -/
theorem objNamed_lookup_not_mem :
    ∀ (named : List (String × Validator)) (xs : List (String × Value)) (a : Bool)
      (r0 r : List (String × Value)),
      objNamed named xs a (some r0) = .ok (some r) →
      ∀ k, k ∉ named.map Prod.fst → dlookup r k = dlookup r0 k := by
  intro named
  induction named with
  | nil =>
    intro xs a r0 r h k hk
    rw [objNamed.eq_def] at h
    cases h
    rfl
  | cons p rest ihr =>
    obtain ⟨name, v⟩ := p
    intro xs a r0 r h k hk
    have hkname : k ≠ name := by
      intro hh
      exact hk (by simp [hh])
    have hkrest : k ∉ rest.map Prod.fst := by
      intro hh
      exact hk (by simp [hh])
    rw [objNamed.eq_def] at h
    dsimp only at h
    rw [objNamedStep.eq_def] at h
    rcases hd : dlookup xs name with _ | pv <;> rw [hd] at h <;> dsimp only at h
    · cases v <;> dsimp only at h <;> try exact ihr xs a r0 r h k hkrest
      rename_i inner d
      rw [objNamedDefault.eq_def] at h
      rcases hrd : resolveDefault d with _ | b | n | s0 | l | es2 <;> rw [hrd] at h <;>
        dsimp only at h <;> try simp only [dsetOpt_some] at h
      · exact ihr xs a r0 r h k hkrest
      all_goals
        rw [ihr xs a _ r h k hkrest, dlookup_dset_ne r0 name k _ hkname]
    · rcases h2 : validate v pv a with y | e2 | mm <;> rw [h2] at h <;> dsimp only at h
      · simp only [dsetOpt_some] at h
        rw [ihr xs a _ r h k hkrest, dlookup_dset_ne r0 name k _ hkname]
      · exact ERes.noConfusion h
      · exact ERes.noConfusion h

/-- Membership in the keys of `dset`: supersets. -/
theorem dkeys_dset_super (es : List (String × Value)) (k : String) (v : Value) :
    ∀ k', k' ∈ dkeys es → k' ∈ dkeys (dset es k v) := by
  intro k' hk
  by_cases hn : k ∈ dkeys es
  · rwa [dkeys_dset_mem es k v hn]
  · rw [dkeys_dset_not_mem es k v hn]
    exact List.mem_append.2 (Or.inl hk)

/-- Membership in the keys of `dset`: cases. -/
theorem dkeys_dset_cases (es : List (String × Value)) (k : String) (v : Value) :
    ∀ k', k' ∈ dkeys (dset es k v) → k' ∈ dkeys es ∨ k' = k := by
  intro k' hk
  by_cases hn : k ∈ dkeys es
  · rw [dkeys_dset_mem es k v hn] at hk
    exact Or.inl hk
  · rw [dkeys_dset_not_mem es k v hn] at hk
    rcases List.mem_append.1 hk with hk | hk
    · exact Or.inl hk
    · simp at hk
      exact Or.inr hk

/-- Keys present in the named-properties loop's output come from the
input result or the declared names, and no input key is lost. -/
theorem objNamed_keys :
    ∀ (named : List (String × Validator)) (xs : List (String × Value)) (a : Bool)
      (r0 r : List (String × Value)),
      objNamed named xs a (some r0) = .ok (some r) →
      (∀ k, k ∈ dkeys r0 → k ∈ dkeys r)
      ∧ (∀ k, k ∈ dkeys r → k ∈ dkeys r0 ∨ k ∈ named.map Prod.fst) := by
  intro named
  induction named with
  | nil =>
    intro xs a r0 r h
    rw [objNamed.eq_def] at h
    cases h
    exact ⟨fun k hk => hk, fun k hk => Or.inl hk⟩
  | cons p rest ihr =>
    obtain ⟨name, v⟩ := p
    intro xs a r0 r h
    rw [objNamed.eq_def] at h
    dsimp only at h
    rw [objNamedStep.eq_def] at h
    rcases hd : dlookup xs name with _ | pv <;> rw [hd] at h <;> dsimp only at h
    · cases v <;> dsimp only at h <;>
        try exact ⟨(ihr xs a r0 r h).1, fun k hk => ((ihr xs a r0 r h).2 k hk).elim
          Or.inl (fun hh => Or.inr (by simp [hh]))⟩
      rename_i inner d
      rw [objNamedDefault.eq_def] at h
      rcases hrd : resolveDefault d with _ | b | n | s0 | l | es2 <;> rw [hrd] at h <;>
        dsimp only at h <;> (try simp only [dsetOpt_some] at h) <;>
        first
          | exact ⟨(ihr xs a r0 r h).1, fun k hk => ((ihr xs a r0 r h).2 k hk).elim
              Or.inl (fun hh => Or.inr (by simp [hh]))⟩
          | (refine ⟨fun k hk => (ihr xs a _ r h).1 k (dkeys_dset_super r0 name _ k hk),
               fun k hk => ?_⟩
             rcases (ihr xs a _ r h).2 k hk with hk2 | hk2
             · rcases dkeys_dset_cases r0 name _ k hk2 with hk3 | hk3
               · exact Or.inl hk3
               · exact Or.inr (by simp [hk3])
             · exact Or.inr (by simp [hk2]))
    · rcases h2 : validate v pv a with y | e2 | mm <;> rw [h2] at h <;> dsimp only at h
      · simp only [dsetOpt_some] at h
        refine ⟨fun k hk => (ihr xs a _ r h).1 k (dkeys_dset_super r0 name _ k hk),
          fun k hk => ?_⟩
        rcases (ihr xs a _ r h).2 k hk with hk2 | hk2
        · rcases dkeys_dset_cases r0 name _ k hk2 with hk3 | hk3
          · exact Or.inl hk3
          · exact Or.inr (by simp [hk3])
        · exact Or.inr (by simp [hk2])
      · exact ERes.noConfusion h
      · exact ERes.noConfusion h

/-- The named-properties loop succeeds when every declared-and-present
property validates. -/
theorem objNamed_ok_of :
    ∀ (named : List (String × Validator)) (xs : List (String × Value)) (a : Bool)
      (r0 : Option (List (String × Value))),
      (∀ name v, (name, v) ∈ named → ∀ pv, dlookup xs name = some pv →
        ∃ y, validate v pv a = .ok y) →
      ∃ res, objNamed named xs a r0 = .ok res := by
  intro named
  induction named with
  | nil =>
    intro xs a r0 hall
    rw [objNamed.eq_def]
    exact ⟨r0, rfl⟩
  | cons p rest ihr =>
    obtain ⟨name, v⟩ := p
    intro xs a r0 hall
    have hallr : ∀ name' v', (name', v') ∈ rest → ∀ pv, dlookup xs name' = some pv →
        ∃ y, validate v' pv a = .ok y :=
      fun name' v' hm => hall name' v' (List.mem_cons_of_mem _ hm)
    rw [objNamed.eq_def]
    dsimp only
    rw [objNamedStep.eq_def]
    rcases hd : dlookup xs name with _ | pv
    · dsimp only
      cases v <;> dsimp only <;> try exact ihr xs a r0 hallr
      rename_i inner d
      rw [objNamedDefault.eq_def]
      rcases hrd : resolveDefault d with _ | b | n | s0 | l | es2 <;> dsimp only <;>
        exact ihr xs a _ hallr
    · dsimp only
      obtain ⟨y, hy⟩ := hall name v (List.mem_cons_self _ _) pv hd
      rw [hy]
      exact ihr xs a _ hallr

/-- The value stored by the named-properties loop for a declared name:
a present property is replaced by its adapted value, an absent `Nullable`
property with non-null resolved default is injected. -/
theorem objNamed_stored :
    ∀ (named : List (String × Validator)) (xs : List (String × Value)) (a : Bool)
      (r0 r : List (String × Value)),
      (named.map Prod.fst).Nodup →
      objNamed named xs a (some r0) = .ok (some r) →
      ∀ name v, (name, v) ∈ named →
        (∀ pv, dlookup xs name = some pv →
          ∃ y, validate v pv a = .ok y ∧ dlookup r name = some y)
        ∧ (dlookup xs name = Option.none →
            (∀ i d, v = .nullable i d → resolveDefault d ≠ .none →
              dlookup r name = some (resolveDefault d))
            ∧ ((∀ i d, v ≠ .nullable i d) → dlookup r name = dlookup r0 name)
            ∧ (∀ i d, v = .nullable i d → resolveDefault d = .none →
              dlookup r name = dlookup r0 name)) := by
  intro named
  induction named with
  | nil =>
    intro xs a r0 r hnd h name v hm
    exact absurd hm (List.not_mem_nil _)
  | cons p rest ihr =>
    obtain ⟨name0, v0⟩ := p
    intro xs a r0 r hnd h name v hm
    have hnd0 : name0 ∉ rest.map Prod.fst := by
      simp only [List.map_cons, List.nodup_cons] at hnd
      exact hnd.1
    have hndr : (rest.map Prod.fst).Nodup := by
      simp only [List.map_cons, List.nodup_cons] at hnd
      exact hnd.2
    rw [objNamed.eq_def] at h
    dsimp only at h
    rw [objNamedStep.eq_def] at h
    rcases List.mem_cons.1 hm with hm0 | hmr
    · -- the property under scrutiny is the head of the loop
      injection hm0 with he1 he2
      subst he1
      subst he2
      rcases hd : dlookup xs name with _ | pv <;> rw [hd] at h <;> dsimp only at h
      · refine ⟨fun pv hpv => Option.noConfusion hpv, fun _ => ?_⟩
        refine ⟨?_, ?_, ?_⟩
        · rintro i d rfl hdef
          dsimp only at h
          rw [objNamedDefault.eq_def] at h
          rcases hrd : resolveDefault d with _ | b | n | s0 | l | es2 <;>
            (try rw [hrd] at h) <;> dsimp only at h <;> try simp only [dsetOpt_some] at h
          · exact absurd hrd hdef
          all_goals
            rw [objNamed_lookup_not_mem rest xs a _ r h name hnd0, dlookup_dset_self]
        · intro hnn
          cases v <;> dsimp only at h <;>
            first
              | exact objNamed_lookup_not_mem rest xs a r0 r h name hnd0
              | (rename_i inner d; exact absurd rfl (hnn inner d))
        · rintro i d rfl hdef
          dsimp only at h
          rw [objNamedDefault.eq_def] at h
          rw [hdef] at h
          dsimp only at h
          exact objNamed_lookup_not_mem rest xs a r0 r h name hnd0
      · rcases h2 : validate v pv a with y | e2 | mm <;> rw [h2] at h <;> dsimp only at h
        · simp only [dsetOpt_some] at h
          refine ⟨fun pv' hpv' => ?_, fun habs => Option.noConfusion habs⟩
          cases hpv'
          exact ⟨y, h2, by
            rw [objNamed_lookup_not_mem rest xs a _ r h name hnd0, dlookup_dset_self]⟩
        · exact ERes.noConfusion h
        · exact ERes.noConfusion h
    · -- the property under scrutiny is handled later in the loop
      have hne : name ≠ name0 := by
        intro hh
        apply hnd0
        subst hh
        exact List.mem_map_of_mem Prod.fst hmr
      rcases hd : dlookup xs name0 with _ | pv <;> rw [hd] at h <;> dsimp only at h
      · cases v0 <;> dsimp only at h <;> try exact ihr xs a r0 r hndr h name v hmr
        rename_i inner d
        rw [objNamedDefault.eq_def] at h
        rcases hrd : resolveDefault d with _ | b | n | s0 | l | es2 <;>
          (try rw [hrd] at h) <;> dsimp only at h <;> try simp only [dsetOpt_some] at h
        · exact ihr xs a r0 r hndr h name v hmr
        all_goals {
          have hrec := ihr xs a _ r hndr h name v hmr
          refine ⟨hrec.1, fun habs => ?_⟩
          have h3 := hrec.2 habs
          rw [dlookup_dset_ne r0 name0 name _ hne] at h3
          exact h3 }
      · rcases h2 : validate v0 pv a with y | e2 | mm <;> rw [h2] at h <;> dsimp only at h
        · simp only [dsetOpt_some] at h
          have hrec := ihr xs a _ r hndr h name v hmr
          refine ⟨hrec.1, fun habs => ?_⟩
          have h3 := hrec.2 habs
          rw [dlookup_dset_ne r0 name0 name _ hne] at h3
          exact h3
        · exact ERes.noConfusion h
        · exact ERes.noConfusion h

/-- The additional-properties loop keeps the adapted dict shape. -/
theorem objAdditional_ok_some (s : Validator) :
    ∀ (ks : List String) (xs : List (String × Value)) (a : Bool)
      (r0 : List (String × Value)) (res : Option (List (String × Value))),
      objAdditional s ks xs a (some r0) = .ok res → ∃ r, res = some r := by
  intro ks
  induction ks with
  | nil =>
    intro xs a r0 res h
    rw [objAdditional.eq_def] at h
    cases h
    exact ⟨r0, rfl⟩
  | cons k rest ihr =>
    intro xs a r0 res h
    rw [objAdditional.eq_def] at h
    dsimp only at h
    rcases h2 : validate s ((dlookup xs k).getD .none) a with y | e2 | mm <;>
      rw [h2] at h <;> dsimp only at h
    · simp only [dsetOpt_some] at h
      exact ihr xs a _ res h
    · exact ERes.noConfusion h
    · exact ERes.noConfusion h

/-- The additional-properties loop never touches keys outside its list. -/
theorem objAdditional_lookup_not_mem (s : Validator) :
    ∀ (ks : List String) (xs : List (String × Value)) (a : Bool)
      (r0 r : List (String × Value)),
      objAdditional s ks xs a (some r0) = .ok (some r) →
      ∀ k, k ∉ ks → dlookup r k = dlookup r0 k := by
  intro ks
  induction ks with
  | nil =>
    intro xs a r0 r h k hk
    rw [objAdditional.eq_def] at h
    cases h
    rfl
  | cons k0 rest ihr =>
    intro xs a r0 r h k hk
    have hk0 : k ≠ k0 := fun hh => hk (by simp [hh])
    have hkr : k ∉ rest := fun hh => hk (by simp [hh])
    rw [objAdditional.eq_def] at h
    dsimp only at h
    rcases h2 : validate s ((dlookup xs k0).getD .none) a with y | e2 | mm <;>
      rw [h2] at h <;> dsimp only at h
    · simp only [dsetOpt_some] at h
      rw [ihr xs a _ r h k hkr, dlookup_dset_ne r0 k0 k _ hk0]
    · exact ERes.noConfusion h
    · exact ERes.noConfusion h

/-- The value stored by the additional-properties loop for each of its
keys is the schema-adapted value. -/
theorem objAdditional_stored (s : Validator) :
    ∀ (ks : List String) (xs : List (String × Value)) (a : Bool)
      (r0 r : List (String × Value)),
      ks.Nodup →
      objAdditional s ks xs a (some r0) = .ok (some r) →
      ∀ k ∈ ks, ∃ y, validate s ((dlookup xs k).getD .none) a = .ok y
        ∧ dlookup r k = some y := by
  intro ks
  induction ks with
  | nil =>
    intro xs a r0 r hnd h k hk
    exact absurd hk (List.not_mem_nil _)
  | cons k0 rest ihr =>
    intro xs a r0 r hnd h k hk
    have hnd0 : k0 ∉ rest := (List.nodup_cons.1 hnd).1
    have hndr : rest.Nodup := (List.nodup_cons.1 hnd).2
    rw [objAdditional.eq_def] at h
    dsimp only at h
    rcases h2 : validate s ((dlookup xs k0).getD .none) a with y | e2 | mm <;>
      rw [h2] at h <;> dsimp only at h
    · simp only [dsetOpt_some] at h
      rcases List.mem_cons.1 hk with hk0 | hkr
      · subst hk0
        exact ⟨y, h2, by
          rw [objAdditional_lookup_not_mem s rest xs a _ r h k hnd0, dlookup_dset_self]⟩
      · exact ihr xs a _ r hndr h k hkr
    · exact ERes.noConfusion h
    · exact ERes.noConfusion h

/-- The additional-properties loop succeeds when every listed key's
value satisfies the schema. -/
theorem objAdditional_ok_of (s : Validator) :
    ∀ (ks : List String) (xs : List (String × Value)) (a : Bool)
      (r0 : Option (List (String × Value))),
      (∀ k ∈ ks, ∃ y, validate s ((dlookup xs k).getD .none) a = .ok y) →
      ∃ res, objAdditional s ks xs a r0 = .ok res := by
  intro ks
  induction ks with
  | nil =>
    intro xs a r0 hall
    rw [objAdditional.eq_def]
    exact ⟨r0, rfl⟩
  | cons k0 rest ihr =>
    intro xs a r0 hall
    obtain ⟨y, hy⟩ := hall k0 (List.mem_cons_self _ _)
    rw [objAdditional.eq_def]
    dsimp only
    rw [hy]
    exact ihr xs a _ (fun k hk => hall k (List.mem_cons_of_mem _ hk))

/-- The additional-properties loop fails when some listed key's value
does not satisfy the schema. -/
theorem objAdditional_fail_of (s : Validator) :
    ∀ (ks : List String) (xs : List (String × Value)) (a : Bool)
      (r0 : Option (List (String × Value))),
      (∃ k ∈ ks, ∀ y, validate s ((dlookup xs k).getD .none) a ≠ .ok y) →
      ∀ res, objAdditional s ks xs a r0 ≠ .ok res := by
  intro ks
  induction ks with
  | nil =>
    intro xs a r0 hex res
    obtain ⟨k, hk, _⟩ := hex
    exact absurd hk (List.not_mem_nil _)
  | cons k0 rest ihr =>
    intro xs a r0 hex res h
    rw [objAdditional.eq_def] at h
    dsimp only at h
    rcases h2 : validate s ((dlookup xs k0).getD .none) a with y | e2 | mm <;>
      rw [h2] at h <;> dsimp only at h
    · obtain ⟨k, hk, hfail⟩ := hex
      rcases List.mem_cons.1 hk with hk0 | hkr
      · subst hk0
        exact hfail y h2
      · exact ihr xs a _ ⟨k, hkr, hfail⟩ res h
    · exact ERes.noConfusion h
    · exact ERes.noConfusion h

/-- Keys of the additional-properties loop's output. -/
theorem objAdditional_keys (s : Validator) :
    ∀ (ks : List String) (xs : List (String × Value)) (a : Bool)
      (r0 r : List (String × Value)),
      objAdditional s ks xs a (some r0) = .ok (some r) →
      (∀ k, k ∈ dkeys r0 → k ∈ dkeys r)
      ∧ (∀ k, k ∈ dkeys r → k ∈ dkeys r0 ∨ k ∈ ks) := by
  intro ks
  induction ks with
  | nil =>
    intro xs a r0 r h
    rw [objAdditional.eq_def] at h
    cases h
    exact ⟨fun k hk => hk, fun k hk => Or.inl hk⟩
  | cons k0 rest ihr =>
    intro xs a r0 r h
    rw [objAdditional.eq_def] at h
    dsimp only at h
    rcases h2 : validate s ((dlookup xs k0).getD .none) a with y | e2 | mm <;>
      rw [h2] at h <;> dsimp only at h
    · simp only [dsetOpt_some] at h
      refine ⟨fun k hk => (ihr xs a _ r h).1 k (dkeys_dset_super r0 k0 _ k hk),
        fun k hk => ?_⟩
      rcases (ihr xs a _ r h).2 k hk with hk2 | hk2
      · rcases dkeys_dset_cases r0 k0 _ k hk2 with hk3 | hk3
        · exact Or.inl hk3
        · exact Or.inr (by simp [hk3])
      · exact Or.inr (by simp [hk2])
    · exact ERes.noConfusion h
    · exact ERes.noConfusion h

/-- `[k for k in value if k not in all_keys]`: the undeclared input keys. -/
def extraKeys (named : List (String × Validator)) (xs : List (String × Value)) :
    List String :=
  (dkeys xs).filter (fun k => !(named.map Prod.fst).contains k)

theorem objStep2_vErr (add : Additional) (named : List (String × Validator))
    (xs : List (String × Value)) (x : Value) (adapt : Bool) (e : VError) :
    objStep2 add named xs x adapt (.vErr e) = .vErr e := by
  rw [objStep2.eq_def]

theorem objStep2_tyErr (add : Additional) (named : List (String × Validator))
    (xs : List (String × Value)) (x : Value) (adapt : Bool) (m : String) :
    objStep2 add named xs x adapt (.tyErr m) = .tyErr m := by
  rw [objStep2.eq_def]

theorem objStep2_tru (named : List (String × Validator))
    (xs : List (String × Value)) (x : Value) (adapt : Bool)
    (result : Option (List (String × Value))) :
    objStep2 .tru named xs x adapt (.ok result) = .ok (objRet result) := by
  rw [objStep2.eq_def]

theorem objStep2_fls (named : List (String × Validator))
    (xs : List (String × Value)) (x : Value) (adapt : Bool)
    (result : Option (List (String × Value))) :
    objStep2 .fls named xs x adapt (.ok result)
      = if extraKeys named xs = [] then .ok (objRet result)
        else .vErr ⟨.additionalProps (extraKeys named xs), some x, []⟩ := by
  rw [objStep2.eq_def]
  rfl

theorem objStep2_remove (named : List (String × Validator))
    (xs : List (String × Value)) (x : Value) (adapt : Bool)
    (result : Option (List (String × Value))) :
    objStep2 .remove named xs x adapt (.ok result)
      = if extraKeys named xs = [] then .ok (objRet result)
        else .ok (objRet (ddelOpt result (extraKeys named xs))) := by
  rw [objStep2.eq_def]
  rfl

theorem objStep2_schema (sch : Validator) (named : List (String × Validator))
    (xs : List (String × Value)) (x : Value) (adapt : Bool)
    (result : Option (List (String × Value))) :
    objStep2 (.schema sch) named xs x adapt (.ok result)
      = if extraKeys named xs = [] then .ok (objRet result)
        else objRetRes (objAdditional sch (extraKeys named xs) xs adapt result) := by
  rw [objStep2.eq_def]
  rfl

/-- `Object.validate` after the type and missing-required checks. -/
theorem validate_object_eq (named : List (String × Validator)) (req : List String)
    (add : Additional) (xs : List (String × Value)) (a : Bool)
    (hreq : req.filter (fun k => !(dkeys xs).contains k) = []) :
    validate (.object named req add) (.dict xs) a
      = objStep2 add named xs (.dict xs) a
          (objNamed named xs a (if a = true then some xs else Option.none)) := by
  rw [validate.eq_def]
  dsimp only
  rw [hreq, if_neg (by simp)]

/-- Distinct dict keys, as a `List.Nodup` fact. -/
theorem nodupKeys_nodup (es : List (String × Value)) (h : nodupKeys es = true) :
    (dkeys es).Nodup := by
  induction es with
  | nil => simp [dkeys]
  | cons p t ih =>
    obtain ⟨k, v⟩ := p
    simp only [nodupKeys, Bool.and_eq_true, Bool.not_eq_true'] at h
    have h1 : k ∉ dkeys t := by
      intro hk
      simp only [dkeys, List.mem_map] at hk
      obtain ⟨q, hq, hqk⟩ := hk
      have h2 : t.any (fun p => p.1 == k) = true :=
        List.any_eq_true.2 ⟨q, hq, by simp [hqk]⟩
      simp [h.1] at h2
    simp only [dkeys, List.map_cons, List.nodup_cons]
    exact ⟨fun hh => h1 (by simpa [dkeys] using hh), by simpa [dkeys] using ih h.2⟩

/-! ### Claim C2: the additional-properties policies -/

/-- C2: for a compiled `Object` validator whose required keys are present
and whose declared-and-present properties validate, the
additional-property policy handles every undeclared input key as
claimed: `True` copies it through unchanged into the adapted result,
`False` raises a single error listing all undeclared key names, `REMOVE`
silently omits them all from the adapted result, and a schema policy
demands that every undeclared value satisfy the schema, storing its
per-key adapted value. -/
theorem C2_additional_policies (named : List (String × Validator)) (req : List String)
    (xs : List (String × Value)) (s : Validator)
    (hreq : req.filter (fun k => !(dkeys xs).contains k) = [])
    (hall : ∀ name v, (name, v) ∈ named → ∀ pv, dlookup xs name = some pv →
      ∃ y, validate v pv true = .ok y)
    (hwf : nodupKeys xs = true) :
    (∀ k, k ∈ extraKeys named xs ↔ (k ∈ dkeys xs ∧ k ∉ named.map Prod.fst))
    ∧ (∃ r, validate (.object named req .tru) (.dict xs) true = .ok (.dict r)
        ∧ ∀ k, k ∉ named.map Prod.fst → dlookup r k = dlookup xs k)
    ∧ (extraKeys named xs ≠ [] →
        validate (.object named req .fls) (.dict xs) true
          = .vErr ⟨.additionalProps (extraKeys named xs), some (.dict xs), []⟩)
    ∧ (∃ r, validate (.object named req .remove) (.dict xs) true = .ok (.dict r)
        ∧ ∀ k, k ∉ named.map Prod.fst → dlookup r k = Option.none)
    ∧ ((∀ k ∈ extraKeys named xs, ∃ y, validate s ((dlookup xs k).getD .none) true = .ok y)
        ↔ ∃ y, validate (.object named req (.schema s)) (.dict xs) true = .ok y)
    ∧ (∀ r, validate (.object named req (.schema s)) (.dict xs) true = .ok (.dict r) →
        ∀ k ∈ extraKeys named xs, ∃ w, validate s ((dlookup xs k).getD .none) true = .ok w
          ∧ dlookup r k = some w) := by
  obtain ⟨res1, hres1⟩ := objNamed_ok_of named xs true (some xs) hall
  obtain ⟨r1, rfl⟩ := objNamed_ok_some named xs true xs res1 hres1
  have hlnm := objNamed_lookup_not_mem named xs true xs r1 hres1
  have hmem : ∀ k, k ∈ extraKeys named xs ↔ (k ∈ dkeys xs ∧ k ∉ named.map Prod.fst) := by
    intro k
    simp [extraKeys, List.mem_filter]
  have hnotin : ∀ k, k ∉ named.map Prod.fst → k ∉ extraKeys named xs → k ∉ dkeys xs := by
    intro k hk1 hk2 hk3
    exact hk2 ((hmem k).2 ⟨hk3, hk1⟩)
  have hndextra : (extraKeys named xs).Nodup :=
    List.Nodup.filter _ (nodupKeys_nodup xs hwf)
  refine ⟨hmem, ?_, ?_, ?_, ?_, ?_⟩
  · refine ⟨r1, ?_, fun k hk => hlnm k hk⟩
    rw [validate_object_eq named req .tru xs true hreq, if_pos rfl, hres1, objStep2_tru]
    rfl
  · intro hex
    rw [validate_object_eq named req .fls xs true hreq, if_pos rfl, hres1, objStep2_fls,
      if_neg hex]
  · by_cases hex : extraKeys named xs = []
    · refine ⟨r1, ?_, fun k hk => ?_⟩
      · rw [validate_object_eq named req .remove xs true hreq, if_pos rfl, hres1,
          objStep2_remove, if_pos hex]
        rfl
      · rw [hlnm k hk]
        exact dlookup_none_of_not_mem xs k (hnotin k hk (by simp [hex]))
    · refine ⟨(extraKeys named xs).foldl ddel r1, ?_, fun k hk => ?_⟩
      · rw [validate_object_eq named req .remove xs true hreq, if_pos rfl, hres1,
          objStep2_remove, if_neg hex]
        rfl
      · by_cases hkex : k ∈ extraKeys named xs
        · exact dlookup_foldl_ddel_mem (extraKeys named xs) k r1 hkex
        · rw [dlookup_foldl_ddel_not_mem (extraKeys named xs) k r1 hkex, hlnm k hk]
          exact dlookup_none_of_not_mem xs k (hnotin k hk hkex)
  · constructor
    · intro hadd
      obtain ⟨res2, hres2⟩ := objAdditional_ok_of s (extraKeys named xs) xs true (some r1) hadd
      rw [validate_object_eq named req (.schema s) xs true hreq, if_pos rfl, hres1,
        objStep2_schema]
      by_cases hex : extraKeys named xs = []
      · rw [if_pos hex]
        exact ⟨objRet (some r1), rfl⟩
      · rw [if_neg hex, hres2]
        exact ⟨objRet res2, rfl⟩
    · rintro ⟨y, hy⟩ k hk
      rw [validate_object_eq named req (.schema s) xs true hreq, if_pos rfl, hres1,
        objStep2_schema] at hy
      by_cases hex : extraKeys named xs = []
      · rw [hex] at hk
        exact absurd hk (List.not_mem_nil _)
      · rw [if_neg hex] at hy
        rcases ha : objAdditional s (extraKeys named xs) xs true (some r1) with res2 | e2 | m2 <;>
          rw [ha] at hy
        · obtain ⟨r2, rfl⟩ := objAdditional_ok_some s (extraKeys named xs) xs true r1 res2 ha
          obtain ⟨w, hw1, _⟩ :=
            objAdditional_stored s (extraKeys named xs) xs true r1 r2 hndextra ha k hk
          exact ⟨w, hw1⟩
        · exact ERes.noConfusion hy
        · exact ERes.noConfusion hy
  · intro r hy k hk
    rw [validate_object_eq named req (.schema s) xs true hreq, if_pos rfl, hres1,
      objStep2_schema] at hy
    by_cases hex : extraKeys named xs = []
    · rw [hex] at hk
      exact absurd hk (List.not_mem_nil _)
    · rw [if_neg hex] at hy
      rcases ha : objAdditional s (extraKeys named xs) xs true (some r1) with res2 | e2 | m2 <;>
        rw [ha] at hy
      · obtain ⟨r2, rfl⟩ := objAdditional_ok_some s (extraKeys named xs) xs true r1 res2 ha
        have hry : r2 = r := by
          simp only [objRetRes, objRet] at hy
          cases hy
          rfl
        subst hry
        exact objAdditional_stored s (extraKeys named xs) xs true r1 r2 hndextra ha k hk
      · exact ERes.noConfusion hy
      · exact ERes.noConfusion hy

/-- Witness for C2 at the spec's example: `Object(required={"id":
"integer"}, additional=...)` on `{"id": 1, "x": 2}` under each policy. -/
theorem C2_witness :
    validate (.object [("id", .integer)] ["id"] .fls)
        (.dict [("id", .int 1), ("x", .int 2)]) true
      = .vErr ⟨.additionalProps ["x"], some (.dict [("id", .int 1), ("x", .int 2)]), []⟩
    ∧ (∃ r, validate (.object [("id", .integer)] ["id"] .remove)
        (.dict [("id", .int 1), ("x", .int 2)]) true = .ok (.dict r)
        ∧ dlookup r "x" = Option.none)
    ∧ (∃ r, validate (.object [("id", .integer)] ["id"] .tru)
        (.dict [("id", .int 1), ("x", .int 2)]) true = .ok (.dict r)
        ∧ dlookup r "x" = some (.int 2)) := by
  have h := C2_additional_policies [("id", .integer)] ["id"]
    [("id", .int 1), ("x", .int 2)] .integer
    (by simp [dkeys]) ?hall (by simp [nodupKeys])
  case hall =>
    intro name v hm pv hpv
    simp only [List.mem_singleton] at hm
    injection hm with h1 h2
    subst h1
    subst h2
    simp only [dlookup] at hpv
    simp at hpv
    exact ⟨.int 1, by rw [← hpv]; simp [validate]⟩
  refine ⟨?_, ?_, ?_⟩
  · have hf := h.2.2.1 (by
      show extraKeys [("id", .integer)] [("id", .int 1), ("x", .int 2)] ≠ []
      simp [extraKeys, dkeys])
    rw [show extraKeys [("id", .integer)] [("id", .int 1), ("x", .int 2)] = ["x"] from by
      simp [extraKeys, dkeys]] at hf
    exact hf
  · obtain ⟨r, hr1, hr2⟩ := h.2.2.2.1
    exact ⟨r, hr1, hr2 "x" (by simp)⟩
  · obtain ⟨r, hr1, hr2⟩ := h.2.1
    refine ⟨r, hr1, ?_⟩
    rw [hr2 "x" (by simp)]
    simp [dlookup]

/-! ### Claim C4: absent-`Nullable` default injection -/

/-- C4: for every compiled `Object` validator and every declared key
absent from the input whose property validator is a `Nullable` with a
non-null resolved default, `validate` with `adapt=True` injects that
default into the adapted result under that key. -/
theorem C4_default_injection (named : List (String × Validator)) (req : List String)
    (add : Additional) (xs : List (String × Value)) (name : String)
    (i : Validator) (d : NDefault) (y : Value)
    (hnd : (named.map Prod.fst).Nodup)
    (hmem : (name, Validator.nullable i d) ∈ named)
    (habs : dlookup xs name = Option.none)
    (hdef : resolveDefault d ≠ .none)
    (h : validate (.object named req add) (.dict xs) true = .ok y) :
    ∃ r, y = .dict r ∧ dlookup r name = some (resolveDefault d) := by
  have hname : name ∈ named.map Prod.fst := List.mem_map_of_mem Prod.fst hmem
  have hnex : name ∉ extraKeys named xs := by
    simp [extraKeys, List.mem_filter, hname]
  by_cases hreq : req.filter (fun k => !(dkeys xs).contains k) = []
  · rw [validate_object_eq named req add xs true hreq, if_pos rfl] at h
    rcases hres : objNamed named xs true (some xs) with res | e | m <;> rw [hres] at h
    · obtain ⟨r1, rfl⟩ := objNamed_ok_some named xs true xs res hres
      have hstored := ((objNamed_stored named xs true xs r1 hnd hres name
        (.nullable i d) hmem).2 habs).1 i d rfl hdef
      cases add with
      | tru =>
        rw [objStep2_tru] at h
        cases h
        exact ⟨r1, rfl, hstored⟩
      | fls =>
        rw [objStep2_fls] at h
        split at h
        · cases h
          exact ⟨r1, rfl, hstored⟩
        · exact ERes.noConfusion h
      | remove =>
        rw [objStep2_remove] at h
        split at h
        · cases h
          exact ⟨r1, rfl, hstored⟩
        · cases h
          refine ⟨(extraKeys named xs).foldl ddel r1, rfl, ?_⟩
          rw [dlookup_foldl_ddel_not_mem (extraKeys named xs) name r1 hnex]
          exact hstored
      | schema sch =>
        rw [objStep2_schema] at h
        split at h
        · cases h
          exact ⟨r1, rfl, hstored⟩
        · rcases ha : objAdditional sch (extraKeys named xs) xs true (some r1) with
            res2 | e2 | m2 <;> rw [ha] at h
          · obtain ⟨r2, rfl⟩ :=
              objAdditional_ok_some sch (extraKeys named xs) xs true r1 res2 ha
            simp only [objRetRes, objRet] at h
            cases h
            refine ⟨r2, rfl, ?_⟩
            rw [objAdditional_lookup_not_mem sch (extraKeys named xs) xs true r1 r2 ha
              name hnex]
            exact hstored
          · exact ERes.noConfusion h
          · exact ERes.noConfusion h
    · rw [objStep2_vErr] at h
      exact ERes.noConfusion h
    · rw [objStep2_tyErr] at h
      exact ERes.noConfusion h
  · rw [validate.eq_def] at h
    dsimp only at h
    rw [if_pos hreq] at h
    exact ERes.noConfusion h

/-- Witness for C4: an absent optional `Nullable("integer", 7)` property
is injected into the adapted result. -/
theorem C4_witness :
    ∃ r, Value.dict [("a", .int 7)] = Value.dict r ∧ dlookup r "a" = some (.int 7) := by
  have hv : validate (.object [("a", .nullable .integer (.lit (.int 7)))] [] .tru)
      (.dict []) true = .ok (.dict [("a", .int 7)]) := by
    simp [validate, objNamed, objNamedStep, objNamedDefault, objStep2, objRet,
      dlookup, dsetOpt, dset, resolveDefault, dkeys]
  exact C4_default_injection [("a", .nullable .integer (.lit (.int 7)))] [] .tru []
    "a" .integer (.lit (.int 7)) (.dict [("a", .int 7)])
    (by simp) (by simp) (by simp [dlookup]) (by simp [resolveDefault]) hv

/-! ### Infrastructure for idempotence (claim C9) -/

theorem dlookup_mem (es : List (String × Value)) (k : String) (w : Value)
    (h : dlookup es k = some w) : (k, w) ∈ es := by
  induction es with
  | nil => simp [dlookup] at h
  | cons p t ih =>
    obtain ⟨k0, v0⟩ := p
    by_cases h0 : k0 = k
    · subst h0
      simp [dlookup] at h
      simp [h]
    · simp only [dlookup, if_neg h0] at h
      exact List.mem_cons_of_mem _ (ih h)

theorem wfV_list_elem (xs : List Value) (h : wfV (.list xs) = true) :
    ∀ z ∈ xs, wfV z = true := by
  intro z hz
  rw [wfV] at h
  simp only [List.all_eq_true] at h
  exact h ⟨z, hz⟩ (List.mem_attach _ _)

theorem wfV_dict_nodup (es : List (String × Value)) (h : wfV (.dict es) = true) :
    nodupKeys es = true := by
  rw [wfV, Bool.and_eq_true] at h
  exact h.1

theorem wfV_dict_elem (es : List (String × Value)) (h : wfV (.dict es) = true) :
    ∀ p ∈ es, wfV p.2 = true := by
  intro p hp
  rw [wfV, Bool.and_eq_true] at h
  have h2 := h.2
  simp only [List.all_eq_true] at h2
  exact h2 ⟨p, hp⟩ (List.mem_attach _ _)

/-- Elements of `dset es k v` are elements of `es` or the new pair. -/
theorem dset_mem (es : List (String × Value)) (k : String) (v : Value) :
    ∀ p ∈ dset es k v, p ∈ es ∨ p = (k, v) := by
  induction es with
  | nil =>
    intro p hp
    rw [dset] at hp
    simp at hp
    exact Or.inr hp
  | cons q t ih =>
    obtain ⟨k0, v0⟩ := q
    intro p hp
    rw [dset] at hp
    by_cases h0 : k0 = k
    · rw [if_pos h0] at hp
      rcases List.mem_cons.1 hp with hp | hp
      · exact Or.inr hp
      · exact Or.inl (List.mem_cons_of_mem _ hp)
    · rw [if_neg h0] at hp
      rcases List.mem_cons.1 hp with hp | hp
      · exact Or.inl (by simp [hp])
      · rcases ih p hp with hh | hh
        · exact Or.inl (List.mem_cons_of_mem _ hh)
        · exact Or.inr hh

/-- Elements of `dict(pairs)` are among the given pairs. -/
theorem fromPairs_mem (ps : List (String × Value)) :
    ∀ p ∈ fromPairs ps, p ∈ ps := by
  have hgen : ∀ (l acc : List (String × Value)),
      (∀ p ∈ acc, p ∈ ps) → (∀ p ∈ l, p ∈ ps) →
      ∀ p ∈ l.foldl (fun a q => dset a q.1 q.2) acc, p ∈ ps := by
    intro l
    induction l with
    | nil => intro acc hacc _ p hp; exact hacc p hp
    | cons q t ih =>
      intro acc hacc hl p hp
      simp only [List.foldl_cons] at hp
      refine ih (dset acc q.1 q.2) ?_ (fun w hw => hl w (List.mem_cons_of_mem _ hw)) p hp
      intro w hw
      rcases dset_mem acc q.1 q.2 w hw with hh | hh
      · exact hacc w hh
      · subst hh
        exact hl (q.1, q.2) (by simp)
  intro p hp
  exact hgen ps [] (by simp) (fun q hq => hq) p hp

theorem nodupKeys_iff_nodup (es : List (String × Value)) :
    nodupKeys es = true ↔ (dkeys es).Nodup := by
  constructor
  · exact nodupKeys_nodup es
  · intro h
    induction es with
    | nil => simp [nodupKeys]
    | cons p t ih =>
      obtain ⟨k, v⟩ := p
      simp only [dkeys, List.map_cons, List.nodup_cons] at h
      simp only [nodupKeys, Bool.and_eq_true, Bool.not_eq_true']
      refine ⟨?_, ih (by simpa [dkeys] using h.2)⟩
      by_contra hany
      simp only [Bool.not_eq_false, List.any_eq_true] at hany
      obtain ⟨q, hq, hqk⟩ := hany
      simp only [beq_iff_eq] at hqk
      exact absurd (by
        rw [← hqk]
        exact List.mem_map_of_mem Prod.fst hq) h.1

/-- Keys of `dset` preserve distinctness. -/
theorem nodupKeys_dset (es : List (String × Value)) (k : String) (v : Value)
    (h : nodupKeys es = true) : nodupKeys (dset es k v) = true := by
  rw [nodupKeys_iff_nodup] at h ⊢
  by_cases hm : k ∈ dkeys es
  · rwa [dkeys_dset_mem es k v hm]
  · rw [dkeys_dset_not_mem es k v hm]
    simpa using List.Nodup.append h (by simp) (by simpa using hm)

/-- `dict(pairs)` has distinct keys. -/
theorem fromPairs_nodupKeys (ps : List (String × Value)) :
    nodupKeys (fromPairs ps) = true := by
  have hgen : ∀ (l acc : List (String × Value)), nodupKeys acc = true →
      nodupKeys (l.foldl (fun a q => dset a q.1 q.2) acc) = true := by
    intro l
    induction l with
    | nil => intro acc h; exact h
    | cons q t ih =>
      intro acc h
      simp only [List.foldl_cons]
      exact ih _ (nodupKeys_dset acc q.1 q.2 h)
  exact hgen ps [] rfl

/-- `dict(d) == d` for a dict with distinct keys: rebuilding from its own
pairs is the identity. -/
theorem fromPairs_self (es : List (String × Value)) (h : nodupKeys es = true) :
    fromPairs es = es := by
  have hgen : ∀ (l acc : List (String × Value)),
      (∀ k, k ∈ dkeys acc → k ∉ dkeys l) → (dkeys l).Nodup →
      l.foldl (fun a q => dset a q.1 q.2) acc = acc ++ l := by
    intro l
    induction l with
    | nil => intro acc _ _; simp
    | cons q t ih =>
      obtain ⟨k, v⟩ := q
      intro acc hdisj hnd
      simp only [dkeys, List.map_cons, List.nodup_cons] at hnd
      have hknotin : k ∉ dkeys acc := fun hk => hdisj k hk (by simp [dkeys])
      have hset : dset acc k v = acc ++ [(k, v)] := by
        clear hdisj ih
        induction acc with
        | nil => simp [dset]
        | cons p t2 ih2 =>
          obtain ⟨k0, v0⟩ := p
          simp only [dkeys, List.map_cons, List.mem_cons] at hknotin
          push_neg at hknotin
          simp only [dset, if_neg (Ne.symm hknotin.1), List.cons_append]
          rw [ih2 (by simpa [dkeys] using hknotin.2)]
      simp only [List.foldl_cons]
      rw [hset, ih (acc ++ [(k, v)]) ?_ (by simpa [dkeys] using hnd.2)]
      · simp
      · intro k2 hk2 hk2t
        simp only [dkeys, List.map_append, List.mem_append] at hk2
        rcases hk2 with hk2 | hk2
        · exact hdisj k2 hk2 (List.mem_cons_of_mem _ hk2t)
        · simp [dkeys] at hk2
          subst hk2
          exact hnd.1 (by simpa [dkeys] using hk2t)
  have := hgen es [] (by simp [dkeys]) (nodupKeys_nodup es h)
  simpa [fromPairs] using this

/-! ### Idempotence of adaptation (claim C9) -/

/-- `dset` keeps present keys present. -/
theorem dlookup_dset_isSome (es : List (String × Value)) (k k2 : String) (v : Value)
    (h : (dlookup es k2).isSome = true) : (dlookup (dset es k v) k2).isSome = true := by
  by_cases h0 : k2 = k
  · subst h0
    rw [dlookup_dset_self]
    rfl
  · rw [dlookup_dset_ne es k k2 v h0]
    exact h

/-- Introduction rule for well-formedness of a list value. -/
theorem wfV_list_intro (xs : List Value) (h : ∀ z ∈ xs, wfV z = true) :
    wfV (.list xs) = true := by
  rw [wfV]
  simp only [List.all_eq_true]
  intro p _
  exact h p.1 p.2

/-- Introduction rule for well-formedness of a dict value. -/
theorem wfV_dict_intro (es : List (String × Value)) (hnd : nodupKeys es = true)
    (h : ∀ p ∈ es, wfV p.2 = true) : wfV (.dict es) = true := by
  rw [wfV, Bool.and_eq_true]
  refine ⟨hnd, ?_⟩
  simp only [List.all_eq_true]
  intro p _
  exact h p.1 p.2

/-- Entries of `del d[k]` are entries of `d`. -/
theorem ddel_mem (es : List (String × Value)) (k : String) :
    ∀ p ∈ ddel es k, p ∈ es := by
  intro p hp
  exact List.mem_of_mem_filter hp

/-- `del d[k]` preserves key distinctness. -/
theorem nodupKeys_ddel (es : List (String × Value)) (k : String)
    (h : nodupKeys es = true) : nodupKeys (ddel es k) = true := by
  rw [nodupKeys_iff_nodup] at h ⊢
  have hsub : dkeys (ddel es k) ⊆ dkeys es := by
    intro k2 hk2
    simp only [dkeys, List.mem_map] at hk2 ⊢
    obtain ⟨p, hp, hpk⟩ := hk2
    exact ⟨p, ddel_mem es k p hp, hpk⟩
  have hsl : (dkeys (ddel es k)).Sublist (dkeys es) := by
    simp only [dkeys, ddel]
    exact List.Sublist.map Prod.fst (List.filter_sublist es)
  exact h.sublist hsl

/-- Entries after deleting a list of keys are original entries. -/
theorem foldl_ddel_mem (ks : List String) :
    ∀ (es : List (String × Value)) (p : String × Value),
      p ∈ ks.foldl ddel es → p ∈ es := by
  induction ks with
  | nil => intro es p hp; exact hp
  | cons k rest ih =>
    intro es p hp
    simp only [List.foldl_cons] at hp
    exact ddel_mem es k p (ih (ddel es k) p hp)

/-- Deleting a list of keys preserves key distinctness. -/
theorem nodupKeys_foldl_ddel (ks : List String) :
    ∀ (es : List (String × Value)), nodupKeys es = true →
      nodupKeys (ks.foldl ddel es) = true := by
  induction ks with
  | nil => intro es h; exact h
  | cons k rest ih =>
    intro es h
    simp only [List.foldl_cons]
    exact ih (ddel es k) (nodupKeys_ddel es k h)

/-- Membership in the undeclared-keys list. -/
theorem mem_extraKeys (named : List (String × Validator))
    (xs : List (String × Value)) (k : String) :
    k ∈ extraKeys named xs ↔ (k ∈ dkeys xs ∧ k ∉ named.map Prod.fst) := by
  simp [extraKeys, List.mem_filter]

/-- The conditions under which re-adaptation is claimed (and proved) to
be a no-op: the validator contains no `AdaptBy`, every `Nullable` default
is null or a well-formed fixed point of the wrapped validator, and every
`Object` satisfies the structural invariants its Python constructor
guarantees (distinct declared names, required keys all declared). -/
inductive IdemOK : Validator → Prop where
  | integer : IdemOK .integer
  | boolean : IdemOK .boolean
  | vstr (minL maxL : Option Nat) : IdemOK (.vstr minL maxL)
  | enum (isSet : Bool) (vals : List Value) : IdemOK (.enum isSet vals)
  | nullableNone (inner : Validator) (d : NDefault) :
      IdemOK inner → resolveDefault d = .none → IdemOK (.nullable inner d)
  | nullableFix (inner : Validator) (d : NDefault) :
      IdemOK inner → wfV (resolveDefault d) = true →
      validate inner (resolveDefault d) true = .ok (resolveDefault d) →
      IdemOK (.nullable inner d)
  | nonNullableNone : IdemOK (.nonNullable Option.none)
  | nonNullableSome (i : Validator) :
      IdemOK i → IdemOK (.nonNullable (some i))
  | homoSeqNone (minL maxL : Option Nat) :
      IdemOK (.homoSeq Option.none minL maxL)
  | homoSeqSome (iv : Validator) (minL maxL : Option Nat) :
      IdemOK iv → IdemOK (.homoSeq (some iv) minL maxL)
  | heteroSeq (ivs : List Validator) :
      (∀ iv ∈ ivs, IdemOK iv) → IdemOK (.heteroSeq ivs)
  | mapping (kv vv : Option Validator) :
      (∀ k, kv = some k → IdemOK k) → (∀ w, vv = some w → IdemOK w) →
      IdemOK (.mapping kv vv)
  | object (named : List (String × Validator)) (req : List String)
      (add : Additional) :
      (∀ q ∈ named, IdemOK q.2) →
      (named.map Prod.fst).Nodup →
      (∀ k ∈ req, k ∈ named.map Prod.fst) →
      (∀ s, add = .schema s → IdemOK s) →
      IdemOK (.object named req add)

/-- The inductive core of the idempotence proof for one validator:
adapted values are well-formed, non-null whenever the input was non-null,
unchanged string inputs, and fixed points of a second adaptation. -/
def IdemP (v : Validator) : Prop :=
  ∀ x y, wfV x = true → validate v x true = .ok y →
    wfV y = true ∧ (x ≠ .none → y ≠ .none) ∧ (∀ s, x = .str s → y = .str s)
    ∧ validate v y true = .ok y

/-- The state of one declared property in an adapted `Object` result
that makes the named-properties loop a no-op on it: a present key holds
a fixed point of its validator, an absent key's validator injects no
default. -/
def NamedCond (q : String × Validator) (r : List (String × Value)) : Prop :=
  (∀ w, dlookup r q.1 = some w → validate q.2 w true = .ok w)
  ∧ (dlookup r q.1 = Option.none →
      ∀ i d, q.2 = .nullable i d → resolveDefault d = .none)

theorem wfV_none : wfV .none = true := by rw [wfV]

theorem wfV_bool (b : Bool) : wfV (.bool b) = true := by rw [wfV]

theorem wfV_int (n : Int) : wfV (.int n) = true := by rw [wfV]

theorem wfV_str (s : String) : wfV (.str s) = true := by rw [wfV]

/-- The named-properties loop is a no-op on a result each of whose
declared properties is already in its adapted state. -/
theorem objNamed_noop :
    ∀ (named : List (String × Validator)) (r : List (String × Value)),
      (∀ q ∈ named, NamedCond q r) →
      objNamed named r true (some r) = .ok (some r) := by
  intro named
  induction named with
  | nil =>
    intro r hall
    rw [objNamed.eq_def]
  | cons p rest ihr =>
    obtain ⟨name, v⟩ := p
    intro r hall
    have hhead := hall (name, v) (List.mem_cons_self _ _)
    have hrest : ∀ q ∈ rest, NamedCond q r :=
      fun q hq => hall q (List.mem_cons_of_mem _ hq)
    rw [objNamed.eq_def]
    dsimp only
    rw [objNamedStep.eq_def]
    rcases hd : dlookup r name with _ | w <;> dsimp only
    · cases v <;> dsimp only <;> try exact ihr r hrest
      rename_i inner d
      rw [objNamedDefault.eq_def]
      have hdef : resolveDefault d = .none := hhead.2 hd inner d rfl
      rw [hdef]
      dsimp only
      exact ihr r hrest
    · rw [hhead.1 w hd]
      dsimp only
      rw [dsetOpt_some, dset_self r name w hd]
      exact ihr r hrest

/-- The additional-properties loop is a no-op on a result each of whose
listed keys already holds a fixed point of the schema. -/
theorem objAdditional_noop (s : Validator) :
    ∀ (ks : List String) (r : List (String × Value)),
      (∀ k ∈ ks, ∃ w, dlookup r k = some w ∧ validate s w true = .ok w) →
      objAdditional s ks r true (some r) = .ok (some r) := by
  intro ks
  induction ks with
  | nil =>
    intro r hall
    rw [objAdditional.eq_def]
  | cons k0 rest ihr =>
    intro r hall
    obtain ⟨w, hw, hfix⟩ := hall k0 (List.mem_cons_self _ _)
    rw [objAdditional.eq_def]
    dsimp only
    rw [hw]
    simp only [Option.getD_some]
    rw [hfix]
    dsimp only
    rw [dsetOpt_some, dset_self r k0 w hw]
    exact ihr r (fun k hk => hall k (List.mem_cons_of_mem _ hk))

/-- Re-running the homogeneous-sequence loop on its own adapted output
returns that output unchanged. -/
theorem seqItems_idem (iv : Validator) (ih : IdemP iv) :
    ∀ (xs : List Value) (i : Nat) (ys : List Value),
      (∀ z ∈ xs, wfV z = true) →
      seqItems iv xs true i = .ok ys →
      ys.length = xs.length ∧ (∀ z ∈ ys, wfV z = true)
      ∧ seqItems iv ys true i = .ok ys := by
  intro xs
  induction xs with
  | nil =>
    intro i ys hwf h
    simp only [seqItems] at h
    cases h
    exact ⟨rfl, fun z hz => absurd hz (List.not_mem_nil _), by simp [seqItems]⟩
  | cons x rest ihr =>
    intro i ys hwf h
    simp only [seqItems] at h
    rcases h1 : validate iv x true with y | e | mm <;> rw [h1] at h <;> dsimp only at h
    · rcases h2 : seqItems iv rest true (i + 1) with ys0 | e2 | m2 <;>
        rw [h2] at h <;> dsimp only at h
      · injection h with hy
        subst hy
        obtain ⟨hwy, _, _, hfix⟩ := ih x y (hwf x (List.mem_cons_self _ _)) h1
        obtain ⟨hlen, hwys, hre⟩ :=
          ihr (i + 1) ys0 (fun z hz => hwf z (List.mem_cons_of_mem _ hz)) h2
        refine ⟨by simp [hlen], ?_, ?_⟩
        · intro z hz
          rcases List.mem_cons.1 hz with hz | hz
          · rw [hz]; exact hwy
          · exact hwys z hz
        · simp only [seqItems]
          rw [hfix]
          dsimp only
          rw [hre]
      · exact ERes.noConfusion h
      · exact ERes.noConfusion h
    · exact ERes.noConfusion h
    · exact ERes.noConfusion h

/-- Re-running the heterogeneous-sequence loop on its own adapted output
returns that output unchanged. -/
theorem hetItems_idem (ivs : List Validator) :
    ∀ (xs : List Value) (i : Nat) (ys : List Value),
      (∀ iv ∈ ivs, IdemP iv) →
      xs.length = ivs.length →
      (∀ z ∈ xs, wfV z = true) →
      hetItems ivs xs true i = .ok ys →
      ys.length = xs.length ∧ (∀ z ∈ ys, wfV z = true)
      ∧ hetItems ivs ys true i = .ok ys := by
  induction ivs with
  | nil =>
    intro xs i ys ih hlen hwf h
    have hx : xs = [] := List.length_eq_zero.1 hlen
    subst hx
    simp only [hetItems] at h
    cases h
    exact ⟨rfl, fun z hz => absurd hz (List.not_mem_nil _), by simp [hetItems]⟩
  | cons iv ivr ihr =>
    intro xs i ys ih hlen hwf h
    cases xs with
    | nil => exact absurd hlen (by simp)
    | cons x xr =>
      simp only [hetItems] at h
      rcases h1 : validate iv x true with y | e | mm <;> rw [h1] at h <;> dsimp only at h
      · rcases h2 : hetItems ivr xr true (i + 1) with ys0 | e2 | m2 <;>
          rw [h2] at h <;> dsimp only at h
        · injection h with hy
          subst hy
          obtain ⟨hwy, _, _, hfix⟩ := ih iv (List.mem_cons_self _ _) x y
            (hwf x (List.mem_cons_self _ _)) h1
          obtain ⟨hlen0, hwys, hre⟩ := ihr xr (i + 1) ys0
            (fun w hw => ih w (List.mem_cons_of_mem _ hw))
            (by simpa using hlen)
            (fun z hz => hwf z (List.mem_cons_of_mem _ hz)) h2
          refine ⟨by simp [hlen0], ?_, ?_⟩
          · intro z hz
            rcases List.mem_cons.1 hz with hz | hz
            · rw [hz]; exact hwy
            · exact hwys z hz
          · simp only [hetItems]
            rw [hfix]
            dsimp only
            rw [hre]
        · exact ERes.noConfusion h
        · exact ERes.noConfusion h
      · exact ERes.noConfusion h
      · exact ERes.noConfusion h

mutual
/-- Re-running the mapping-entries loop on its own adapted output
returns that output unchanged: adapted keys are the original keys (a
key validator free of `AdaptBy` maps a string to itself) and adapted
values are fixed points. -/
theorem mapItems_idem (kv vv : Option Validator)
    (ihk : ∀ w ∈ kv, IdemP w) (ihv : ∀ w ∈ vv, IdemP w) :
    ∀ (es ps : List (String × Value)),
      (∀ p ∈ es, wfV p.2 = true) →
      mapItems kv vv es true = .ok ps →
      dkeys ps = dkeys es ∧ (∀ p ∈ ps, wfV p.2 = true)
      ∧ mapItems kv vv ps true = .ok ps := by
  intro es ps hwf h
  cases es with
  | nil =>
    rw [mapItems.eq_def] at h
    cases h
    exact ⟨rfl, fun p hp => absurd hp (List.not_mem_nil _), by rw [mapItems.eq_def]⟩
  | cons p rest =>
    obtain ⟨k, v⟩ := p
    rw [mapItems.eq_def] at h
    cases hv : vv with
    | none =>
      rw [hv] at h
      dsimp only at h
      obtain ⟨ps0, hps, hkeys0, hwf0, hre0, hstep⟩ :=
        mapItemKey_idem kv Option.none ihk (fun w hw => Option.noConfusion hw)
          k v rest ps (hwf (k, v) (List.mem_cons_self _ _))
          (fun w hw => Option.noConfusion hw)
          (fun q hq => hwf q (List.mem_cons_of_mem _ hq)) h
      subst hps
      refine ⟨by simpa [dkeys] using congrArg (List.cons k) hkeys0, ?_, ?_⟩
      · intro q hq
        rcases List.mem_cons.1 hq with hq | hq
        · rw [hq]; exact hwf (k, v) (List.mem_cons_self _ _)
        · exact hwf0 q hq
      · rw [mapItems.eq_def]
        dsimp only
        exact hstep
    | some vval =>
      rw [hv] at h
      dsimp only at h
      rcases h1 : validate vval v true with v1 | e | mm <;> rw [h1] at h <;> dsimp only at h
      · obtain ⟨hwv1, _, _, hfix⟩ := ihv vval (by rw [hv]; rfl) v v1
          (hwf (k, v) (List.mem_cons_self _ _)) h1
        obtain ⟨ps0, hps, hkeys0, hwf0, hre0, hstep⟩ :=
          mapItemKey_idem kv (some vval) ihk (by rw [← hv]; exact ihv)
            k v1 rest ps hwv1
            (fun w hw => by cases hw; exact hfix)
            (fun q hq => hwf q (List.mem_cons_of_mem _ hq)) h
        subst hps
        refine ⟨by simpa [dkeys] using congrArg (List.cons k) hkeys0, ?_, ?_⟩
        · intro q hq
          rcases List.mem_cons.1 hq with hq | hq
          · rw [hq]; exact hwv1
          · exact hwf0 q hq
        · rw [mapItems.eq_def]
          dsimp only
          rw [hfix]
          dsimp only
          exact hstep
      · exact ERes.noConfusion h
      · exact ERes.noConfusion h
termination_by es _ => (es.length, 0)

/-- One adapted mapping entry, characterized: its key is the original
key, its value the given adapted value, and revalidating the entry is a
no-op. -/
theorem mapItemKey_idem (kv vv : Option Validator)
    (ihk : ∀ w ∈ kv, IdemP w) (ihv : ∀ w ∈ vv, IdemP w) :
    ∀ (k : String) (v' : Value) (rest ps : List (String × Value)),
      wfV v' = true →
      (∀ w, vv = some w → validate w v' true = .ok v') →
      (∀ p ∈ rest, wfV p.2 = true) →
      mapItemKey kv vv k v' rest true = .ok ps →
      ∃ ps0, ps = (k, v') :: ps0 ∧ dkeys ps0 = dkeys rest
        ∧ (∀ p ∈ ps0, wfV p.2 = true)
        ∧ mapItems kv vv ps0 true = .ok ps0
        ∧ mapItemKey kv vv k v' ps0 true = .ok ps := by
  intro k v' rest ps hwv hfixv hwf h
  cases hk : kv with
  | none =>
    rw [hk] at h
    rw [mapItemKey.eq_def] at h
    dsimp only at h
    rcases h2 : mapItems Option.none vv rest true with ps1 | e | mm <;>
      rw [h2] at h <;> dsimp only [consPair] at h
    · injection h with hps
      obtain ⟨hkeys, hwf1, hre⟩ := mapItems_idem Option.none vv
        (fun w hw => Option.noConfusion hw) ihv rest ps1 hwf h2
      refine ⟨ps1, hps.symm, hkeys, hwf1, hre, ?_⟩
      rw [mapItemKey.eq_def]
      dsimp only
      rw [hre]
      dsimp only [consPair]
      rw [hps]
    · exact ERes.noConfusion h
    · exact ERes.noConfusion h
  | some kval =>
    rw [hk] at h
    rw [mapItemKey.eq_def] at h
    dsimp only at h
    rcases h1 : validate kval (.str k) true with kv1 | e | mm <;>
      rw [h1] at h <;> dsimp only at h
    · have hstr : kv1 = .str k :=
        ((ihk kval (by rw [hk]; rfl)) (.str k) kv1 (wfV_str k) h1).2.2.1 k rfl
      subst hstr
      rcases h2 : mapItems (some kval) vv rest true with ps1 | e | mm <;>
        rw [h2] at h <;> dsimp only [consPair] at h
      · injection h with hps
        obtain ⟨hkeys, hwf1, hre⟩ := mapItems_idem (some kval) vv
          (by rw [← hk]; exact ihk) ihv rest ps1 hwf h2
        have hkey : keyOf k (.str k) = k := rfl
        rw [hkey] at hps
        refine ⟨ps1, hps.symm, hkeys, hwf1, hre, ?_⟩
        rw [mapItemKey.eq_def]
        dsimp only
        rw [h1]
        dsimp only
        rw [hre]
        dsimp only [consPair]
        rw [hkey, hps]
      · exact ERes.noConfusion h
      · exact ERes.noConfusion h
    · exact ERes.noConfusion h
    · exact ERes.noConfusion h
termination_by _ _ rest _ => (rest.length, 1)
end

/-- Assembling one skipped iteration (absent non-`Nullable` property) of
the named-properties loop in the first-pass characterization. -/
theorem objNamed_pass_step (name : String) (v : Validator)
    (rest : List (String × Validator)) (xs r0 r : List (String × Value))
    (hnd0 : name ∉ rest.map Prod.fst)
    (habs : dlookup xs name = Option.none → dlookup r0 name = Option.none)
    (hpres : dlookup xs name = Option.none)
    (hnn : ∀ i d, v ≠ .nullable i d)
    (h : objNamed rest xs true (some r0) = .ok (some r))
    (hrec : (∀ p ∈ r, wfV p.2 = true) ∧ nodupKeys r = true
      ∧ (∀ q ∈ rest, NamedCond q r)
      ∧ (∀ k, (dlookup r0 k).isSome = true → (dlookup r k).isSome = true)) :
    (∀ p ∈ r, wfV p.2 = true) ∧ nodupKeys r = true
    ∧ (∀ q ∈ (name, v) :: rest, NamedCond q r)
    ∧ (∀ k, (dlookup r0 k).isSome = true → (dlookup r k).isSome = true) := by
  obtain ⟨hwfr, hndr2, hconds, hsome⟩ := hrec
  have hlk : dlookup r name = Option.none := by
    rw [objNamed_lookup_not_mem rest xs true r0 r h name hnd0]
    exact habs hpres
  refine ⟨hwfr, hndr2, ?_, hsome⟩
  intro q hq
  rcases List.mem_cons.1 hq with hq | hq
  · subst hq
    refine ⟨fun w hw => ?_, fun _ i d heq => ?_⟩
    · rw [hlk] at hw
      exact Option.noConfusion hw
    · exact absurd heq (hnn i d)
  · exact hconds q hq

/-- First pass of the named-properties loop, characterized for the
idempotence proof: starting from a well-formed accumulator that omits
the absent declared names, the loop produces a well-formed accumulator
with distinct keys in which every declared property is in its adapted
state, and no key is lost. -/
theorem objNamed_pass :
    ∀ (named : List (String × Validator)) (xs r0 r : List (String × Value)),
      (∀ q ∈ named, IdemP q.2) →
      (∀ q ∈ named, IdemOK q.2) →
      (named.map Prod.fst).Nodup →
      (∀ p ∈ xs, wfV p.2 = true) →
      (∀ q ∈ named, dlookup xs q.1 = Option.none → dlookup r0 q.1 = Option.none) →
      (∀ p ∈ r0, wfV p.2 = true) →
      nodupKeys r0 = true →
      objNamed named xs true (some r0) = .ok (some r) →
      (∀ p ∈ r, wfV p.2 = true) ∧ nodupKeys r = true
      ∧ (∀ q ∈ named, NamedCond q r)
      ∧ (∀ k, (dlookup r0 k).isSome = true → (dlookup r k).isSome = true) := by
  intro named
  induction named with
  | nil =>
    intro xs r0 r hP hOK hnd hwfxs habs hwf0 hnd0 h
    rw [objNamed.eq_def] at h
    cases h
    exact ⟨hwf0, hnd0, fun q hq => absurd hq (List.not_mem_nil _), fun k hk => hk⟩
  | cons p rest ihr =>
    obtain ⟨name, v⟩ := p
    intro xs r0 r hP hOK hnd hwfxs habs hwf0 hnd0 h
    have hnd0m : name ∉ rest.map Prod.fst := by
      simp only [List.map_cons, List.nodup_cons] at hnd
      exact hnd.1
    have hndr : (rest.map Prod.fst).Nodup := by
      simp only [List.map_cons, List.nodup_cons] at hnd
      exact hnd.2
    have hPr : ∀ q ∈ rest, IdemP q.2 := fun q hq => hP q (List.mem_cons_of_mem _ hq)
    have hOKr : ∀ q ∈ rest, IdemOK q.2 := fun q hq => hOK q (List.mem_cons_of_mem _ hq)
    have habsr : ∀ q ∈ rest, dlookup xs q.1 = Option.none →
        dlookup r0 q.1 = Option.none :=
      fun q hq => habs q (List.mem_cons_of_mem _ hq)
    rw [objNamed.eq_def] at h
    dsimp only at h
    rw [objNamedStep.eq_def] at h
    rcases hd : dlookup xs name with _ | pv <;> rw [hd] at h <;> dsimp only at h
    · cases v <;> dsimp only at h <;>
        try exact objNamed_pass_step name _ rest xs r0 r hnd0m (habs _ (List.mem_cons_self _ _)) hd (fun i d hh => Validator.noConfusion hh) h (ihr xs r0 r hPr hOKr hndr hwfxs habsr hwf0 hnd0 h)
      rename_i inner d
      rw [objNamedDefault.eq_def] at h
      rcases hrd : resolveDefault d with _ | b | n | s0 | l | es2 <;>
        (try rw [hrd] at h) <;> dsimp only at h <;> try simp only [dsetOpt_some] at h
      · obtain ⟨hwfr, hndr2, hconds, hsome⟩ :=
          ihr xs r0 r hPr hOKr hndr hwfxs habsr hwf0 hnd0 h
        have hlk : dlookup r name = Option.none := by
          rw [objNamed_lookup_not_mem rest xs true r0 r h name hnd0m]
          exact habs _ (List.mem_cons_self _ _) hd
        refine ⟨hwfr, hndr2, ?_, hsome⟩
        intro q hq
        rcases List.mem_cons.1 hq with hq | hq
        · subst hq
          refine ⟨fun w hw => ?_, fun _ i d' heq => ?_⟩
          · rw [hlk] at hw
            exact Option.noConfusion hw
          · injection heq with he1 he2
            subst he2
            exact hrd
        · exact hconds q hq
      all_goals {
        have hOKv := hOK (name, .nullable inner d) (List.mem_cons_self _ _)
        cases hOKv with
        | nullableNone _ _ hok hdef =>
          rw [hdef] at hrd
          exact Value.noConfusion hrd
        | nullableFix _ _ hok hwfd hfixd =>
          rw [hrd] at hwfd hfixd
          obtain ⟨hwfr, hndr2, hconds, hsome⟩ := ihr xs _ r hPr hOKr hndr hwfxs
            (fun q hq hqn => by
              rw [dlookup_dset_ne r0 name q.1 _
                (fun hh => hnd0m (hh ▸ List.mem_map_of_mem Prod.fst hq))]
              exact habsr q hq hqn)
            (fun p hp => (dset_mem r0 name _ p hp).elim (hwf0 p)
              (fun hh => by rw [hh]; exact hwfd))
            (nodupKeys_dset r0 name _ hnd0) h
          have hlkr := objNamed_lookup_not_mem rest xs true _ r h name hnd0m
          rw [dlookup_dset_self] at hlkr
          refine ⟨hwfr, hndr2, ?_,
            fun k hk => hsome k (dlookup_dset_isSome r0 name k _ hk)⟩
          intro q hq
          rcases List.mem_cons.1 hq with hq | hq
          · subst hq
            refine ⟨fun w hw => ?_, fun hnone => ?_⟩
            · rw [hlkr] at hw
              injection hw with hw
              subst hw
              rw [validate.eq_def]
              dsimp only
              exact hfixd
            · rw [hlkr] at hnone
              exact Option.noConfusion hnone
          · exact hconds q hq }
    · rcases h1 : validate v pv true with ad | e | mm <;> rw [h1] at h <;> dsimp only at h
      · simp only [dsetOpt_some] at h
        have hwfpv : wfV pv = true := hwfxs (name, pv) (dlookup_mem xs name pv hd)
        obtain ⟨hwfad, _, _, hfix⟩ := hP (name, v) (List.mem_cons_self _ _) pv ad hwfpv h1
        obtain ⟨hwfr, hndr2, hconds, hsome⟩ := ihr xs (dset r0 name ad) r hPr hOKr hndr
          hwfxs
          (fun q hq hqn => by
            rw [dlookup_dset_ne r0 name q.1 ad
              (fun hh => hnd0m (hh ▸ List.mem_map_of_mem Prod.fst hq))]
            exact habsr q hq hqn)
          (fun p hp => (dset_mem r0 name ad p hp).elim (hwf0 p)
            (fun hh => by rw [hh]; exact hwfad))
          (nodupKeys_dset r0 name ad hnd0) h
        have hlkr : dlookup r name = some ad := by
          rw [objNamed_lookup_not_mem rest xs true _ r h name hnd0m, dlookup_dset_self]
        refine ⟨hwfr, hndr2, ?_,
          fun k hk => hsome k (dlookup_dset_isSome r0 name k ad hk)⟩
        intro q hq
        rcases List.mem_cons.1 hq with hq | hq
        · subst hq
          refine ⟨fun w hw => ?_, fun hnone => ?_⟩
          · rw [hlkr] at hw
            injection hw with hw
            subst hw
            exact hfix
          · rw [hlkr] at hnone
            exact Option.noConfusion hnone
        · exact hconds q hq
      · exact ERes.noConfusion h
      · exact ERes.noConfusion h

/-- First pass of the additional-properties-schema loop, characterized
for the idempotence proof: the accumulator stays well-formed with
distinct keys and no key is lost. -/
theorem objAdditional_pass (s : Validator) (hs : IdemP s) :
    ∀ (ks : List String) (xs r0 r : List (String × Value)),
      (∀ k ∈ ks, ∃ w, dlookup xs k = some w ∧ wfV w = true) →
      (∀ p ∈ r0, wfV p.2 = true) →
      nodupKeys r0 = true →
      objAdditional s ks xs true (some r0) = .ok (some r) →
      (∀ p ∈ r, wfV p.2 = true) ∧ nodupKeys r = true
      ∧ (∀ k, (dlookup r0 k).isSome = true → (dlookup r k).isSome = true) := by
  intro ks
  induction ks with
  | nil =>
    intro xs r0 r hks hwf0 hnd0 h
    rw [objAdditional.eq_def] at h
    cases h
    exact ⟨hwf0, hnd0, fun k hk => hk⟩
  | cons k0 rest ihr =>
    intro xs r0 r hks hwf0 hnd0 h
    rw [objAdditional.eq_def] at h
    dsimp only at h
    obtain ⟨w, hw, hwfw⟩ := hks k0 (List.mem_cons_self _ _)
    rw [hw] at h
    simp only [Option.getD_some] at h
    rcases h1 : validate s w true with ad | e | mm <;> rw [h1] at h <;> dsimp only at h
    · simp only [dsetOpt_some] at h
      obtain ⟨hwfad, _, _, _⟩ := hs w ad hwfw h1
      have hrec := ihr xs (dset r0 k0 ad) r
        (fun k hk => hks k (List.mem_cons_of_mem _ hk))
        (fun p hp => (dset_mem r0 k0 ad p hp).elim (hwf0 p)
          (fun hh => by rw [hh]; exact hwfad))
        (nodupKeys_dset r0 k0 ad hnd0) h
      exact ⟨hrec.1, hrec.2.1,
        fun k hk => hrec.2.2 k (dlookup_dset_isSome r0 k0 k ad hk)⟩
    · exact ERes.noConfusion h
    · exact ERes.noConfusion h

theorem objRet_some (r : List (String × Value)) : objRet (some r) = .dict r := rfl

theorem seqFinish_true_ok (ys : List Value) :
    seqFinish true (.ok ys) = .ok (.list ys) := rfl

theorem seqFinish_vErr (a : Bool) (e : VError) :
    seqFinish a (.vErr e) = .vErr e := rfl

theorem seqFinish_tyErr (a : Bool) (m : String) :
    seqFinish a (.tyErr m) = .tyErr m := rfl

theorem mapFinish_true_ok (ps : List (String × Value)) :
    mapFinish true (.ok ps) = .ok (.dict (fromPairs ps)) := rfl

theorem mapFinish_vErr (a : Bool) (e : VError) :
    mapFinish a (.vErr e) = .vErr e := rfl

theorem mapFinish_tyErr (a : Bool) (m : String) :
    mapFinish a (.tyErr m) = .tyErr m := rfl

/-- A dict all of whose keys are declared has no additional keys. -/
theorem extraKeys_eq_nil (named : List (String × Validator))
    (xs : List (String × Value))
    (h : ∀ k ∈ dkeys xs, k ∈ named.map Prod.fst) : extraKeys named xs = [] := by
  have h2 : ∀ k ∈ dkeys xs, ¬(!(named.map Prod.fst).contains k = true) := by
    intro k hk
    simp [h k hk]
  simpa [extraKeys] using List.filter_eq_nil_iff.2 h2

/-- The idempotence property for a compiled `Object` validator, given
the property for its parts. -/
theorem object_idem (named : List (String × Validator)) (req : List String)
    (add : Additional)
    (hP : ∀ q ∈ named, IdemP q.2)
    (hPs : ∀ s, add = .schema s → IdemP s)
    (hOKn : ∀ q ∈ named, IdemOK q.2)
    (hndn : (named.map Prod.fst).Nodup)
    (hreqn : ∀ k ∈ req, k ∈ named.map Prod.fst) :
    IdemP (.object named req add) := by
  intro x y hwfx h
  rw [validate.eq_def] at h
  cases x <;> dsimp only at h <;> try exact ERes.noConfusion h
  rename_i xs
  by_cases hmiss : req.filter (fun k => !(dkeys xs).contains k) = []
  · rw [if_neg (not_not_intro hmiss), if_pos rfl] at h
    have hndxs : nodupKeys xs = true := wfV_dict_nodup xs hwfx
    have hwfexs : ∀ p ∈ xs, wfV p.2 = true := wfV_dict_elem xs hwfx
    rcases hn : objNamed named xs true (some xs) with r1 | e | mm <;> rw [hn] at h
    · obtain ⟨r, rfl⟩ := objNamed_ok_some named xs true xs r1 hn
      obtain ⟨hwfr, hndr, hconds, hsome⟩ := objNamed_pass named xs xs r hP hOKn hndn
        hwfexs (fun q hq hqn => hqn) hwfexs hndxs hn
      have hreqpres : ∀ k ∈ req, (dlookup r k).isSome = true := by
        intro k hk
        have hkx : k ∈ dkeys xs := by
          by_contra hnx
          have hmem : k ∈ req.filter (fun k2 => !(dkeys xs).contains k2) := by
            simp [List.mem_filter, hnx, hk]
          rw [hmiss] at hmem
          exact absurd hmem (List.not_mem_nil _)
        obtain ⟨w, hw⟩ := (mem_dkeys_iff xs k).1 hkx
        exact hsome k (by rw [hw]; rfl)
      have hmiss2 : ∀ r2 : List (String × Value),
          (∀ k ∈ req, (dlookup r2 k).isSome = true) →
          req.filter (fun k => !(dkeys r2).contains k) = [] := by
        intro r2 hpres
        rw [List.filter_eq_nil_iff]
        intro k hk
        have hkin : k ∈ dkeys r2 := by
          rcases ho : dlookup r2 k with _ | w
          · have h3 := hpres k hk
            rw [ho] at h3
            exact absurd h3 (by simp)
          · exact (mem_dkeys_iff r2 k).2 ⟨w, ho⟩
        simp [hkin]
      have hrkeys := objNamed_keys named xs true xs r hn
      cases add with
      | tru =>
        rw [objStep2_tru] at h
        injection h with h
        subst h
        rw [objRet_some]
        refine ⟨wfV_dict_intro r hndr hwfr, fun _ hh => Value.noConfusion hh,
          fun s hs => Value.noConfusion hs, ?_⟩
        rw [validate.eq_def]
        dsimp only
        rw [if_neg (not_not_intro (hmiss2 r hreqpres)), if_pos rfl,
          objNamed_noop named r hconds, objStep2_tru, objRet_some]
      | fls =>
        rw [objStep2_fls] at h
        by_cases hex : extraKeys named xs = []
        · rw [if_pos hex] at h
          injection h with h
          subst h
          rw [objRet_some]
          have hallr : extraKeys named r = [] := by
            apply extraKeys_eq_nil
            intro k hk
            rcases hrkeys.2 k hk with hkx | hkn
            · by_contra hknd
              have hkex : k ∈ extraKeys named xs := (mem_extraKeys named xs k).2 ⟨hkx, hknd⟩
              rw [hex] at hkex
              exact absurd hkex (List.not_mem_nil _)
            · exact hkn
          refine ⟨wfV_dict_intro r hndr hwfr, fun _ hh => Value.noConfusion hh,
            fun s hs => Value.noConfusion hs, ?_⟩
          rw [validate.eq_def]
          dsimp only
          rw [if_neg (not_not_intro (hmiss2 r hreqpres)), if_pos rfl,
            objNamed_noop named r hconds, objStep2_fls, if_pos hallr, objRet_some]
        · rw [if_neg hex] at h
          exact ERes.noConfusion h
      | remove =>
        rw [objStep2_remove] at h
        by_cases hex : extraKeys named xs = []
        · rw [if_pos hex] at h
          injection h with h
          subst h
          rw [objRet_some]
          have hallr : extraKeys named r = [] := by
            apply extraKeys_eq_nil
            intro k hk
            rcases hrkeys.2 k hk with hkx | hkn
            · by_contra hknd
              have hkex : k ∈ extraKeys named xs := (mem_extraKeys named xs k).2 ⟨hkx, hknd⟩
              rw [hex] at hkex
              exact absurd hkex (List.not_mem_nil _)
            · exact hkn
          refine ⟨wfV_dict_intro r hndr hwfr, fun _ hh => Value.noConfusion hh,
            fun s hs => Value.noConfusion hs, ?_⟩
          rw [validate.eq_def]
          dsimp only
          rw [if_neg (not_not_intro (hmiss2 r hreqpres)), if_pos rfl,
            objNamed_noop named r hconds, objStep2_remove, if_pos hallr, objRet_some]
        · rw [if_neg hex] at h
          rw [show ddelOpt (some r) (extraKeys named xs)
              = some ((extraKeys named xs).foldl ddel r) from rfl, objRet_some] at h
          injection h with h
          subst h
          have hwfr2 : ∀ p ∈ (extraKeys named xs).foldl ddel r, wfV p.2 = true :=
            fun p hp => hwfr p (foldl_ddel_mem _ r p hp)
          have hndr2 : nodupKeys ((extraKeys named xs).foldl ddel r) = true :=
            nodupKeys_foldl_ddel _ r hndr
          have hlk2 : ∀ k, k ∉ extraKeys named xs →
              dlookup ((extraKeys named xs).foldl ddel r) k = dlookup r k :=
            fun k hk => dlookup_foldl_ddel_not_mem _ k r hk
          have hpres2 : ∀ k ∈ req,
              (dlookup ((extraKeys named xs).foldl ddel r) k).isSome = true := by
            intro k hk
            rw [hlk2 k (fun hm => ((mem_extraKeys named xs k).1 hm).2 (hreqn k hk))]
            exact hreqpres k hk
          have hcond2 : ∀ q ∈ named, NamedCond q ((extraKeys named xs).foldl ddel r) := by
            intro q hq
            have hqe : q.1 ∉ extraKeys named xs :=
              fun hm => ((mem_extraKeys named xs q.1).1 hm).2
                (List.mem_map_of_mem Prod.fst hq)
            obtain ⟨c1, c2⟩ := hconds q hq
            refine ⟨fun w hw => c1 w ?_, fun hn2 => c2 ?_⟩
            · rw [← hlk2 q.1 hqe]; exact hw
            · rw [← hlk2 q.1 hqe]; exact hn2
          have hex2 : extraKeys named ((extraKeys named xs).foldl ddel r) = [] := by
            apply extraKeys_eq_nil
            intro k hk
            by_contra hknd
            obtain ⟨w, hw⟩ := (mem_dkeys_iff _ k).1 hk
            by_cases hkex : k ∈ extraKeys named xs
            · rw [dlookup_foldl_ddel_mem _ k r hkex] at hw
              exact Option.noConfusion hw
            · have hw2 : dlookup r k = some w := by rw [← hlk2 k hkex]; exact hw
              have hkr : k ∈ dkeys r := (mem_dkeys_iff r k).2 ⟨w, hw2⟩
              rcases hrkeys.2 k hkr with hkx | hkn2
              · exact hkex ((mem_extraKeys named xs k).2 ⟨hkx, hknd⟩)
              · exact hknd hkn2
          refine ⟨wfV_dict_intro _ hndr2 hwfr2, fun _ hh => Value.noConfusion hh,
            fun s hs => Value.noConfusion hs, ?_⟩
          rw [validate.eq_def]
          dsimp only
          rw [if_neg (not_not_intro (hmiss2 _ hpres2)), if_pos rfl,
            objNamed_noop named _ hcond2, objStep2_remove, if_pos hex2, objRet_some]
      | schema s =>
        rw [objStep2_schema] at h
        by_cases hex : extraKeys named xs = []
        · rw [if_pos hex] at h
          injection h with h
          subst h
          rw [objRet_some]
          have hallr : extraKeys named r = [] := by
            apply extraKeys_eq_nil
            intro k hk
            rcases hrkeys.2 k hk with hkx | hkn
            · by_contra hknd
              have hkex : k ∈ extraKeys named xs := (mem_extraKeys named xs k).2 ⟨hkx, hknd⟩
              rw [hex] at hkex
              exact absurd hkex (List.not_mem_nil _)
            · exact hkn
          refine ⟨wfV_dict_intro r hndr hwfr, fun _ hh => Value.noConfusion hh,
            fun s2 hs => Value.noConfusion hs, ?_⟩
          rw [validate.eq_def]
          dsimp only
          rw [if_neg (not_not_intro (hmiss2 r hreqpres)), if_pos rfl,
            objNamed_noop named r hconds, objStep2_schema, if_pos hallr, objRet_some]
        · rw [if_neg hex] at h
          rcases ha : objAdditional s (extraKeys named xs) xs true (some r) with
            r2o | e2 | m2 <;> rw [ha] at h <;> dsimp only [objRetRes] at h
          · obtain ⟨r2, rfl⟩ := objAdditional_ok_some s (extraKeys named xs) xs true r r2o ha
            rw [objRet_some] at h
            injection h with h
            subst h
            have hexwf : ∀ k ∈ extraKeys named xs,
                ∃ w, dlookup xs k = some w ∧ wfV w = true := by
              intro k hk
              obtain ⟨w, hw⟩ := (mem_dkeys_iff xs k).1 ((mem_extraKeys named xs k).1 hk).1
              exact ⟨w, hw, hwfexs (k, w) (dlookup_mem xs k w hw)⟩
            obtain ⟨hwfr2, hndr2, hsome2⟩ := objAdditional_pass s (hPs s rfl)
              (extraKeys named xs) xs r r2 hexwf hwfr hndr ha
            have hexnd : (extraKeys named xs).Nodup :=
              (nodupKeys_nodup xs hndxs).filter _
            have hstored := objAdditional_stored s (extraKeys named xs) xs true r r2 hexnd ha
            have hlk2 : ∀ k, k ∉ extraKeys named xs → dlookup r2 k = dlookup r k :=
              objAdditional_lookup_not_mem s (extraKeys named xs) xs true r r2 ha
            have hpres2 : ∀ k ∈ req, (dlookup r2 k).isSome = true :=
              fun k hk => hsome2 k (hreqpres k hk)
            have hcond2 : ∀ q ∈ named, NamedCond q r2 := by
              intro q hq
              have hqe : q.1 ∉ extraKeys named xs :=
                fun hm => ((mem_extraKeys named xs q.1).1 hm).2
                  (List.mem_map_of_mem Prod.fst hq)
              obtain ⟨c1, c2⟩ := hconds q hq
              refine ⟨fun w hw => c1 w ?_, fun hn2 => c2 ?_⟩
              · rw [← hlk2 q.1 hqe]; exact hw
              · rw [← hlk2 q.1 hqe]; exact hn2
            have hfix2 : ∀ k ∈ extraKeys named r2,
                ∃ w, dlookup r2 k = some w ∧ validate s w true = .ok w := by
              intro k hk
              obtain ⟨hkd, hknd⟩ := (mem_extraKeys named r2 k).1 hk
              have hkex : k ∈ extraKeys named xs := by
                by_contra hkex
                obtain ⟨w, hw⟩ := (mem_dkeys_iff r2 k).1 hkd
                have hw2 : dlookup r k = some w := by rw [← hlk2 k hkex]; exact hw
                have hkr : k ∈ dkeys r := (mem_dkeys_iff r k).2 ⟨w, hw2⟩
                rcases hrkeys.2 k hkr with hkx | hkn2
                · exact hkex ((mem_extraKeys named xs k).2 ⟨hkx, hknd⟩)
                · exact hknd hkn2
              obtain ⟨ad, hval, hlkad⟩ := hstored k hkex
              obtain ⟨w, hw, hwfw⟩ := hexwf k hkex
              rw [hw] at hval
              simp only [Option.getD_some] at hval
              obtain ⟨hwfad, h5, h6, hfixa⟩ := hPs s rfl w ad hwfw hval
              exact ⟨ad, hlkad, hfixa⟩
            refine ⟨wfV_dict_intro r2 hndr2 hwfr2, fun _ hh => Value.noConfusion hh,
              fun s2 hs => Value.noConfusion hs, ?_⟩
            rw [validate.eq_def]
            dsimp only
            rw [if_neg (not_not_intro (hmiss2 r2 hpres2)), if_pos rfl,
              objNamed_noop named r2 hcond2, objStep2_schema]
            by_cases hex2 : extraKeys named r2 = []
            · rw [if_pos hex2, objRet_some]
            · rw [if_neg hex2, objAdditional_noop s (extraKeys named r2) r2 hfix2]
              dsimp only [objRetRes]
              rw [objRet_some]
          · exact ERes.noConfusion h
          · exact ERes.noConfusion h
    · rw [objStep2_vErr] at h
      exact ERes.noConfusion h
    · rw [objStep2_tyErr] at h
      exact ERes.noConfusion h
  · rw [if_pos hmiss] at h
    exact ERes.noConfusion h

/-- Adaptation is idempotent for every validator satisfying the
conditions of `IdemOK`: an adapted value is well formed, non-null for
non-null inputs, equal to a string input, and a fixed point of a second
adaptation. -/
theorem validate_idem (v : Validator) (hOK : IdemOK v) : IdemP v := by
  cases v with
  | integer =>
    intro x y hwfx h
    rw [validate.eq_def] at h
    cases x <;> dsimp only at h <;> try exact ERes.noConfusion h
    rename_i n
    injection h with h
    subst h
    exact ⟨wfV_int n, fun _ hh => Value.noConfusion hh, fun s hs => Value.noConfusion hs,
      by rw [validate.eq_def]⟩
  | boolean =>
    intro x y hwfx h
    rw [validate.eq_def] at h
    cases x <;> dsimp only at h <;> try exact ERes.noConfusion h
    rename_i b
    injection h with h
    subst h
    exact ⟨wfV_bool b, fun _ hh => Value.noConfusion hh, fun s hs => Value.noConfusion hs,
      by rw [validate.eq_def]⟩
  | vstr minL maxL =>
    intro x y hwfx h
    rw [validate.eq_def] at h
    cases x <;> dsimp only at h <;> try exact ERes.noConfusion h
    rename_i s
    split_ifs at h with h1 h2
    all_goals
      (injection h with h
       subst h
       refine ⟨wfV_str s, fun _ hh => Value.noConfusion hh, fun s2 hs => hs, ?_⟩
       rw [validate.eq_def]
       dsimp only
       rw [if_neg h1, if_neg h2])
  | enum isSet vals =>
    intro x y hwfx h
    rw [validate.eq_def] at h
    dsimp only at h
    rcases hp : pyContains isSet vals x with m | b
    · rw [hp] at h
      dsimp only at h
      exact ERes.noConfusion h
    · cases b
      · rw [hp] at h
        dsimp only at h
        exact ERes.noConfusion h
      · rw [hp] at h
        dsimp only at h
        injection h with h
        subst h
        refine ⟨hwfx, fun hx => hx, fun s hs => hs, ?_⟩
        rw [validate.eq_def]
        dsimp only
        rw [hp]
  | adaptBy f => cases hOK
  | nullable inner d =>
    intro x y hwfx h
    have hOKi : IdemOK inner := by
      cases hOK with
      | nullableNone _ _ hok _ => exact hok
      | nullableFix _ _ hok _ _ => exact hok
    by_cases hxn : x = .none
    · subst hxn
      rw [validate.eq_def] at h
      dsimp only at h
      injection h with h
      subst h
      cases hOK with
      | nullableNone _ _ hok hdef =>
        rw [hdef]
        exact ⟨wfV_none, fun hx => absurd rfl hx, fun s hs => Value.noConfusion hs,
          by rw [validate.eq_def]; dsimp only; rw [hdef]⟩
      | nullableFix _ _ hok hwfd hfixd =>
        refine ⟨hwfd, fun hx => absurd rfl hx, fun s hs => Value.noConfusion hs, ?_⟩
        rcases hdv : resolveDefault d with _ | b | n | s0 | l | es3 <;>
          rw [hdv] at hfixd <;> rw [validate.eq_def] <;> dsimp only
        · rw [hdv]
        all_goals exact hfixd
    · have hdeleg : ∀ z : Value, z ≠ .none →
          validate (.nullable inner d) z true = validate inner z true := by
        intro z hz
        rw [validate.eq_def]
        cases z <;> first | exact absurd rfl hz | rfl
      rw [hdeleg x hxn] at h
      obtain ⟨hwfy, hnn, hstr, hfix⟩ := validate_idem inner hOKi x y hwfx h
      have hyn : y ≠ .none := hnn hxn
      exact ⟨hwfy, fun _ => hyn, hstr, by rw [hdeleg y hyn]; exact hfix⟩
  | nonNullable io =>
    intro x y hwfx h
    by_cases hxn : x = .none
    · subst hxn
      rw [validate.eq_def] at h
      dsimp only at h
      exact ERes.noConfusion h
    · cases io with
      | none =>
        have hdeleg : ∀ z : Value, z ≠ .none →
            validate (.nonNullable Option.none) z true = .ok z := by
          intro z hz
          rw [validate.eq_def]
          cases z <;> first | exact absurd rfl hz | rfl
        rw [hdeleg x hxn] at h
        injection h with h
        subst h
        exact ⟨hwfx, fun _ => hxn, fun s hs => hs, hdeleg x hxn⟩
      | some i =>
        have hdeleg : ∀ z : Value, z ≠ .none →
            validate (.nonNullable (some i)) z true = validate i z true := by
          intro z hz
          rw [validate.eq_def]
          cases z <;> first | exact absurd rfl hz | rfl
        rw [hdeleg x hxn] at h
        have hOKi : IdemOK i := by
          cases hOK with
          | nonNullableSome _ hok => exact hok
        obtain ⟨hwfy, hnn, hstr, hfix⟩ := validate_idem i hOKi x y hwfx h
        have hyn : y ≠ .none := hnn hxn
        refine ⟨hwfy, fun _ => hyn, hstr, ?_⟩
        rw [hdeleg y hyn]
        exact hfix
  | homoSeq item minL maxL =>
    intro x y hwfx h
    rw [validate.eq_def] at h
    cases x <;> dsimp only at h <;> try exact ERes.noConfusion h
    rename_i xs
    split_ifs at h with h1 h2
    · cases item with
      | none =>
        dsimp only at h
        injection h with h
        subst h
        refine ⟨hwfx, fun _ hh => Value.noConfusion hh, fun s hs => Value.noConfusion hs, ?_⟩
        rw [validate.eq_def]
        dsimp only
        rw [if_neg h1, if_neg h2]
      | some iv =>
        dsimp only at h
        have hOKi : IdemOK iv := by
          cases hOK with
          | homoSeqSome _ _ _ hok => exact hok
        rcases hsi : seqItems iv xs true 0 with ys | e | mm <;> rw [hsi] at h
        · rw [seqFinish_true_ok] at h
          injection h with h
          subst h
          obtain ⟨hlen, hwys, hre⟩ := seqItems_idem iv (validate_idem iv hOKi) xs 0 ys
            (wfV_list_elem xs hwfx) hsi
          refine ⟨wfV_list_intro ys hwys, fun _ hh => Value.noConfusion hh,
            fun s hs => Value.noConfusion hs, ?_⟩
          rw [validate.eq_def]
          dsimp only
          rw [hlen, if_neg h1, if_neg h2, hre, seqFinish_true_ok]
        · rw [seqFinish_vErr] at h
          exact ERes.noConfusion h
        · rw [seqFinish_tyErr] at h
          exact ERes.noConfusion h
  | heteroSeq ivs =>
    intro x y hwfx h
    rw [validate.eq_def] at h
    cases x <;> dsimp only at h <;> try exact ERes.noConfusion h
    rename_i xs
    split_ifs at h with h1
    · have hOKl : ∀ iv ∈ ivs, IdemOK iv := by
        cases hOK with
        | heteroSeq _ hok => exact hok
      rcases hsi : hetItems ivs xs true 0 with ys | e | mm <;> rw [hsi] at h
      · rw [seqFinish_true_ok] at h
        injection h with h
        subst h
        obtain ⟨hlen, hwys, hre⟩ := hetItems_idem ivs xs 0 ys
          (fun iv hiv => validate_idem iv (hOKl iv hiv))
          (not_ne_iff.1 h1) (wfV_list_elem xs hwfx) hsi
        have hlen2 : ¬(ys.length ≠ ivs.length) := by
          rw [hlen]
          exact h1
        refine ⟨wfV_list_intro ys hwys, fun _ hh => Value.noConfusion hh,
          fun s hs => Value.noConfusion hs, ?_⟩
        rw [validate.eq_def]
        dsimp only
        rw [if_neg hlen2, hre, seqFinish_true_ok]
      · rw [seqFinish_vErr] at h
        exact ERes.noConfusion h
      · rw [seqFinish_tyErr] at h
        exact ERes.noConfusion h
  | mapping kv vv =>
    intro x y hwfx h
    rw [validate.eq_def] at h
    cases x <;> dsimp only at h <;> try exact ERes.noConfusion h
    rename_i es
    obtain ⟨hOKk, hOKv2⟩ : (∀ w, kv = some w → IdemOK w)
        ∧ (∀ w, vv = some w → IdemOK w) := by
      cases hOK with
      | mapping _ _ hk hv2 => exact ⟨hk, hv2⟩
    rcases hm : mapItems kv vv es true with ps | e | mm <;> rw [hm] at h
    · rw [mapFinish_true_ok] at h
      injection h with h
      subst h
      have hnd : nodupKeys es = true := wfV_dict_nodup es hwfx
      obtain ⟨hkeys, hwfps, hre⟩ := mapItems_idem kv vv
        (fun w hw => validate_idem w (hOKk w hw))
        (fun w hw => validate_idem w (hOKv2 w hw)) es ps (wfV_dict_elem es hwfx) hm
      have hndps : nodupKeys ps = true := by
        rw [nodupKeys_iff_nodup, show dkeys ps = dkeys es from hkeys]
        exact nodupKeys_nodup es hnd
      have hfp : fromPairs ps = ps := fromPairs_self ps hndps
      rw [hfp]
      refine ⟨wfV_dict_intro ps hndps hwfps, fun _ hh => Value.noConfusion hh,
        fun s hs => Value.noConfusion hs, ?_⟩
      rw [validate.eq_def]
      dsimp only
      rw [hre, mapFinish_true_ok, hfp]
    · rw [mapFinish_vErr] at h
      exact ERes.noConfusion h
    · rw [mapFinish_tyErr] at h
      exact ERes.noConfusion h
  | object named req add =>
    obtain ⟨hOKn, hndn, hreqn, hOKadd⟩ :
        (∀ q ∈ named, IdemOK q.2) ∧ (named.map Prod.fst).Nodup
        ∧ (∀ k ∈ req, k ∈ named.map Prod.fst)
        ∧ (∀ s, add = .schema s → IdemOK s) := by
      cases hOK with
      | object _ _ _ h1 h2 h3 h4 => exact ⟨h1, h2, h3, h4⟩
    exact object_idem named req add
      (fun q hq => validate_idem q.2 (hOKn q hq))
      (fun s hs0 => validate_idem s (hOKadd s hs0))
      hOKn hndn hreqn
termination_by sizeOf v
decreasing_by
  all_goals try subst v
  all_goals try subst_eqs
  all_goals simp_wf
  all_goals try omega
  all_goals try { have := List.sizeOf_lt_of_mem hiv; omega }
  all_goals try { have := List.sizeOf_lt_of_mem hq
                  have h2 : sizeOf q = 1 + sizeOf q.1 + sizeOf q.2 := by cases q; simp
                  omega }
  all_goals try { cases hw; simp; omega }

/-! ### Claim C9: idempotence of adaptation -/

/-- The Python adaptor `lambda n: n + 1`, as wrapped by `AdaptBy` (it
raises nothing on the embedded values). -/
def incr : Value → AdaptorOutcome
  | .int n => .ok (.int (n + 1))
  | v => .ok v

/-- C9 (counterexample): adaptation is not idempotent for every compiled
validator and accepted input.  `AdaptBy(lambda n: n + 1)` accepts `1`
and adapts it to `2`, but re-adapting the adapted value yields `3`; and
`Nullable("integer", default="oops")` adapts `None` to `"oops"`, which a
second validation rejects outright. -/
theorem C9_counterexample :
    (validate (.adaptBy incr) (.int 1) true = .ok (.int 2)
      ∧ validate (.adaptBy incr) (.int 2) true = .ok (.int 3)
      ∧ (ERes.ok (Value.int 3) : VResult) ≠ .ok (.int 2))
    ∧ (validate (.nullable .integer (.lit (.str "oops"))) .none true = .ok (.str "oops")
      ∧ validate (.nullable .integer (.lit (.str "oops"))) (.str "oops") true
          = .vErr ⟨.mustBe .integer, some (.str "oops"), []⟩) := by
  refine ⟨⟨by simp [validate, incr], by simp [validate, incr], by simp⟩,
    by simp [validate, resolveDefault], by simp [validate]⟩

/-- C9 (amended): idempotence holds for every compiled validator that
contains no `AdaptBy`, whose every `Nullable` default is null or a
well-formed fixed point of its wrapped validator, and whose every
`Object` part satisfies the structural invariants the Python constructor
guarantees (declared names distinct, required names declared): for every
well-formed value `x` it accepts, re-adapting the adapted value changes
nothing further. -/
theorem C9_idempotent_adapt (v : Validator) (x y : Value)
    (hOK : IdemOK v) (hwf : wfV x = true)
    (h : validate v x true = .ok y) :
    validate v y true = .ok y :=
  (validate_idem v hOK x y hwf h).2.2.2

/-- Witness for C9 (amended): `Nullable("integer", default=0)` adapts
`None` to `0`, and re-adapting `0` returns `0` unchanged. -/
theorem C9_witness :
    validate (.nullable .integer (.lit (.int 0))) (.int 0) true = .ok (.int 0) :=
  C9_idempotent_adapt (.nullable .integer (.lit (.int 0))) .none (.int 0)
    (IdemOK.nullableFix .integer (.lit (.int 0)) IdemOK.integer
      (by simp [resolveDefault, wfV]) (by simp [validate, resolveDefault]))
    wfV_none (by simp [validate, resolveDefault])

/-! ### Claim C8: `validate` never mutates its input

Mutation is invisible in the pure embedding above, so the frame claim is
settled over a store model: the heap maps addresses to cells, compound
Python objects hold the addresses of their parts, and the validator
operations are reads, fresh allocations, and in-place writes.  The model
mirrors the validators cited by the claim (`Object.validate`,
`HomogeneousSequence.validate`, `Mapping.validate`) together with the
scalar leaves and `Nullable`: every write the source performs targets
the `result` object, which is freshly allocated by the call itself
(`dict(value)` when `adapt` is true, the Python `None` otherwise). -/

namespace Heap

/-- One heap cell: a Python object.  Compound objects hold the addresses
of their elements; dict keys are immutable strings and are stored
inline. -/
inductive Cell where
  | noneC
  | boolC (b : Bool)
  | intC (n : Int)
  | strC (s : String)
  | listC (elems : List Nat)
  | dictC (entries : List (String × Nat))

/-- The heap: address `i` holds the `i`-th cell. -/
abbrev Store := List Cell

/-- Reading the object at an address. -/
def readCell (σ : Store) (a : Nat) : Option Cell := σ[a]?

/-- Allocating a fresh object at the next free address. -/
def alloc (σ : Store) (c : Cell) : Store × Nat := (σ ++ [c], σ.length)

/-- In-place mutation of the object at an address (`result[name] =
adapted`, `del result[name]`). -/
def writeCell (σ : Store) (a : Nat) (c : Cell) : Store := σ.set a c

/-- `d[k]` on an address-valued dict. -/
def hlookup : List (String × Nat) → String → Option Nat
  | [], _ => Option.none
  | (k2, v) :: t, k => if k2 = k then some v else hlookup t k

/-- `d[k] = v` on an address-valued dict. -/
def hdset : List (String × Nat) → String → Nat → List (String × Nat)
  | [], k, v => [(k, v)]
  | (k2, v2) :: t, k, v => if k2 = k then (k, v) :: t else (k2, v2) :: hdset t k v

/-- `del d[k]` on an address-valued dict. -/
def hddel (es : List (String × Nat)) (k : String) : List (String × Nat) :=
  es.filter (fun p => p.1 ≠ k)

mutual
/-- The store-model validators: the containers cited by the claim, their
scalar leaves, and `Nullable` (its default modelled as a zero-argument
producer of a fresh cell, `Option.none` for the default `None`). -/
inductive HValidator where
  | integer
  | boolean
  | nullableH (inner : HValidator) (default : Option Cell)
  | homoSeqH (item : Option HValidator)
  | mappingH (keyV valueV : Option HValidator)
  | objectH (named : List (String × HValidator)) (required : List String)
      (additional : HAdditional)

/-- The `additional` policy of the store-model `Object`. -/
inductive HAdditional where
  | tru
  | fls
  | remove
  | schema (v : HValidator)
end

/-- Outcome of a store-level validation: the address of the adapted
object (`Option.none` stands for the Python `None` returned when `adapt`
is false), or a raised error (whose payload is irrelevant to the frame
claim). -/
inductive HRes where
  | ok (addr : Option Nat)
  | err

/-- `if result is not None: result[name] = adapted`: an in-place write
to the result dict, skipped entirely when there is no result object or
the step produced no adapted object. -/
def dsetResult (σ : Store) (result : Option Nat) (name : String)
    (r : Option Nat) : Store :=
  match result, r with
  | some ra, some addr =>
    match readCell σ ra with
    | some (.dictC es) => writeCell σ ra (.dictC (hdset es name addr))
    | _ => σ
  | _, _ => σ

/-- `adapted = validator.default` for an absent `Nullable` property: the
producer makes a fresh object, and a non-`None` default is written into
the result. -/
def injectDefault (σ : Store) (result : Option Nat) (name : String)
    (c : Cell) : Store :=
  match c with
  | .noneC => σ
  | c => dsetResult (alloc σ c).1 result name (some (alloc σ c).2)

/-- `for name in additional_properties: del result[name]`: one in-place
write replacing the result dict entries. -/
def ddelResult (σ : Store) (result : Option Nat) (ks : List String) : Store :=
  match result with
  | some ra =>
    match readCell σ ra with
    | some (.dictC es) => writeCell σ ra (.dictC (ks.foldl hddel es))
    | _ => σ
  | Option.none => σ

/-- The undeclared keys of the input dict. -/
def extraKeysH (named : List (String × HValidator))
    (xs : List (String × Nat)) : List String :=
  (xs.map Prod.fst).filter (fun k => !(named.map Prod.fst).contains k)

/-- `Nullable.validate` on the `None` singleton: produce the default (a
fresh object from the producer, or the `None` input itself). -/
def nullableNoneS (σ : Store) (a : Nat) (d : Option Cell) : HRes × Store :=
  match d with
  | some c => (.ok (some (alloc σ c).2), (alloc σ c).1)
  | Option.none => (.ok (some a), σ)

/-- `value.__class__(validated_items)` when adapting (a fresh list), the
Python `None` otherwise. -/
def seqFinishS (adapt : Bool) : Option (List Nat) × Store → HRes × Store
  | (some ys, σ) =>
    if adapt then (.ok (some (alloc σ (.listC ys)).2), (alloc σ (.listC ys)).1)
    else (.ok Option.none, σ)
  | (Option.none, σ) => (.err, σ)

/-- `dict(validated_items)` when adapting (a fresh dict), the Python
`None` otherwise. -/
def mapFinishS (adapt : Bool) : Option (List (String × Nat)) × Store → HRes × Store
  | (some ps, σ) =>
    if adapt then (.ok (some (alloc σ (.dictC ps)).2), (alloc σ (.dictC ps)).1)
    else (.ok Option.none, σ)
  | (Option.none, σ) => (.err, σ)

mutual
/-- `Validator.validate(value, adapt)` over the store: reads of the
input, fresh allocations for adapted containers, and writes only through
`dsetResult`/`injectDefault`/`ddelResult` on the freshly made result. -/
def validateS : HValidator → Store → Nat → Bool → HRes × Store
  | .integer, σ, a, _ =>
    match readCell σ a with
    | some (.intC _) => (.ok (some a), σ)
    | _ => (.err, σ)
  | .boolean, σ, a, _ =>
    match readCell σ a with
    | some (.boolC _) => (.ok (some a), σ)
    | _ => (.err, σ)
  | .nullableH inner d, σ, a, adapt =>
    match readCell σ a with
    | some .noneC => nullableNoneS σ a d
    | _ => validateS inner σ a adapt
  | .homoSeqH item, σ, a, adapt =>
    match readCell σ a with
    | some (.listC elems) =>
      match item with
      | Option.none => (.ok (some a), σ)
      | some iv => seqFinishS adapt (seqItemsS iv elems σ adapt)
    | _ => (.err, σ)
  | .mappingH kv vv, σ, a, adapt =>
    match readCell σ a with
    | some (.dictC es) => mapFinishS adapt (mapItemsS kv vv es σ adapt)
    | _ => (.err, σ)
  | .objectH named req add, σ, a, adapt =>
    match readCell σ a with
    | some (.dictC xs) =>
      if req.filter (fun k => !(xs.map Prod.fst).contains k) ≠ [] then (.err, σ)
      else
        if adapt then
          objAfterNamed add named xs adapt (some (alloc σ (.dictC xs)).2)
            (objNamedS named xs ((alloc σ (.dictC xs)).1) adapt
              (some (alloc σ (.dictC xs)).2))
        else objAfterNamed add named xs adapt Option.none
          (objNamedS named xs σ adapt Option.none)
    | _ => (.err, σ)
termination_by v _ _ _ => (sizeOf v, 0)

/-- `HomogeneousSequence._iter_validated_items` over the store. -/
def seqItemsS (iv : HValidator) (elems : List Nat) (σ : Store)
    (adapt : Bool) : Option (List Nat) × Store :=
  match elems with
  | [] => (some [], σ)
  | e :: rest =>
    match validateS iv σ e adapt with
    | (.ok r, σ2) =>
      match seqItemsS iv rest σ2 adapt with
      | (some ys, σ3) => (some (r.getD e :: ys), σ3)
      | (Option.none, σ3) => (Option.none, σ3)
    | (.err, σ2) => (Option.none, σ2)
termination_by (sizeOf iv, elems.length + 1)

/-- `Mapping._iter_validated_items` over the store: each entry value is
validated, then its key (materialized as a fresh string object). -/
def mapItemsS (kv vv : Option HValidator) (es : List (String × Nat))
    (σ : Store) (adapt : Bool) : Option (List (String × Nat)) × Store :=
  match es with
  | [] => (some [], σ)
  | (k, v) :: rest =>
    match vv with
    | Option.none => mapItemKeyS kv Option.none k v rest σ adapt
    | some vval =>
      match validateS vval σ v adapt with
      | (.ok r, σ2) => mapItemKeyS kv (some vval) k (r.getD v) rest σ2 adapt
      | (.err, σ2) => (Option.none, σ2)
termination_by (sizeOf kv + sizeOf vv, 2 * es.length + 2)

/-- Key half of one `Mapping` entry.  The adapted entry keeps the
original key string (key objects are immutable, so the choice of stored
key cannot affect the mutation claim). -/
def mapItemKeyS (kv vv : Option HValidator) (k : String) (v2 : Nat)
    (rest : List (String × Nat)) (σ : Store) (adapt : Bool) :
    Option (List (String × Nat)) × Store :=
  match kv with
  | Option.none =>
    match mapItemsS Option.none vv rest σ adapt with
    | (some ps, σ2) => (some ((k, v2) :: ps), σ2)
    | (Option.none, σ2) => (Option.none, σ2)
  | some kval =>
    match validateS kval ((alloc σ (.strC k)).1) ((alloc σ (.strC k)).2) adapt with
    | (.ok _, σ2) =>
      match mapItemsS (some kval) vv rest σ2 adapt with
      | (some ps, σ3) => (some ((k, v2) :: ps), σ3)
      | (Option.none, σ3) => (Option.none, σ3)
    | (.err, σ2) => (Option.none, σ2)
termination_by (sizeOf kv + sizeOf vv, 2 * rest.length + 3)

/-- The named-properties loop of `Object.validate` over the store:
present declared properties are validated and written into the result,
absent `Nullable` defaults are produced and injected. -/
def objNamedS : List (String × HValidator) → List (String × Nat) → Store →
    Bool → Option Nat → Bool × Store
  | [], _, σ, _, _ => (true, σ)
  | (name, v) :: rest, xs, σ, adapt, result =>
    objNamedStepS name v rest xs σ adapt result (hlookup xs name)
termination_by named _ _ _ _ => (sizeOf named, 0)

/-- One iteration of the store-level named-properties loop, given
`value[name]` when present. -/
def objNamedStepS (name : String) (v : HValidator)
    (rest : List (String × HValidator)) (xs : List (String × Nat))
    (σ : Store) (adapt : Bool) (result : Option Nat) (pres : Option Nat) :
    Bool × Store :=
  match pres with
  | some pv =>
    match validateS v σ pv adapt with
    | (.ok r, σ2) => objNamedS rest xs (dsetResult σ2 result name r) adapt result
    | (.err, σ2) => (false, σ2)
  | Option.none =>
    match v with
    | .nullableH _ (some c) =>
      objNamedS rest xs (injectDefault σ result name c) adapt result
    | _ => objNamedS rest xs σ adapt result
termination_by (sizeOf v + sizeOf rest + 1, 0)

/-- The additional-properties step ending `Object.validate` over the
store. -/
def objAfterNamed (add : HAdditional) (named : List (String × HValidator))
    (xs : List (String × Nat)) (adapt : Bool) (result : Option Nat)
    (st : Bool × Store) : HRes × Store :=
  match st with
  | (false, σ2) => (.err, σ2)
  | (true, σ2) =>
    match add with
    | .tru => (.ok result, σ2)
    | .fls =>
      if extraKeysH named xs = [] then (.ok result, σ2) else (.err, σ2)
    | .remove =>
      if extraKeysH named xs = [] then (.ok result, σ2)
      else (.ok result, ddelResult σ2 result (extraKeysH named xs))
    | .schema s =>
      if extraKeysH named xs = [] then (.ok result, σ2)
      else objAdditionalS s (extraKeysH named xs) xs σ2 adapt result
termination_by (sizeOf add, 1)

/-- The additional-properties-as-schema loop over the store. -/
def objAdditionalS (s : HValidator) (ks : List String)
    (xs : List (String × Nat)) (σ : Store) (adapt : Bool)
    (result : Option Nat) : HRes × Store :=
  match ks with
  | [] => (.ok result, σ)
  | k :: rest =>
    match validateS s σ ((hlookup xs k).getD 0) adapt with
    | (.ok r, σ2) => objAdditionalS s rest xs (dsetResult σ2 result k r) adapt result
    | (.err, σ2) => (.err, σ2)
termination_by (sizeOf s, ks.length + 1)
end

/-- The frame relation of one call: the store only grows, and every
cell below the protected bound `n0` is untouched. -/
def FrameOn (n0 : Nat) (σ σ2 : Store) : Prop :=
  σ.length ≤ σ2.length ∧ ∀ i, i < n0 → σ2[i]? = σ[i]?

theorem frameOn_refl (n0 : Nat) (σ : Store) : FrameOn n0 σ σ :=
  ⟨le_refl _, fun _ _ => rfl⟩

theorem frameOn_trans {n0 : Nat} {σ σ2 σ3 : Store} (h1 : FrameOn n0 σ σ2)
    (h2 : FrameOn n0 σ2 σ3) : FrameOn n0 σ σ3 :=
  ⟨le_trans h1.1 h2.1, fun i hi => (h2.2 i hi).trans (h1.2 i hi)⟩

theorem frameOn_mono {n0 n1 : Nat} {σ σ2 : Store} (h : n1 ≤ n0)
    (hf : FrameOn n0 σ σ2) : FrameOn n1 σ σ2 :=
  ⟨hf.1, fun i hi => hf.2 i (lt_of_lt_of_le hi h)⟩

/-- Allocation only appends: nothing below the old length changes. -/
theorem frameOn_alloc (n0 : Nat) (σ : Store) (c : Cell) (h : n0 ≤ σ.length) :
    FrameOn n0 σ (alloc σ c).1 :=
  ⟨by simp [alloc], fun i hi => List.getElem?_append_left (lt_of_lt_of_le hi h)⟩

/-- A write above the protected bound touches no protected cell. -/
theorem frameOn_write (n0 : Nat) (σ : Store) (a : Nat) (c : Cell)
    (h : n0 ≤ a) : FrameOn n0 σ (writeCell σ a c) :=
  ⟨by simp [writeCell], fun i hi => List.getElem?_set_ne (by omega)⟩

/-- `result[name] = adapted` writes only to the result object, whose
address lies above the protected bound. -/
theorem dsetResult_frame (n0 : Nat) (σ : Store) (result : Option Nat)
    (name : String) (r : Option Nat)
    (hres : ∀ ra, result = some ra → n0 ≤ ra) :
    FrameOn n0 σ (dsetResult σ result name r) := by
  cases result with
  | none => exact frameOn_refl n0 σ
  | some ra =>
    cases r with
    | none => exact frameOn_refl n0 σ
    | some addr =>
      dsimp only [dsetResult]
      rcases hc : readCell σ ra with _ | c
      · exact frameOn_refl n0 σ
      · cases c <;> try exact frameOn_refl n0 σ
        exact frameOn_write n0 σ ra _ (hres ra rfl)

/-- Producing and injecting an absent `Nullable` default allocates and
writes only to the result object. -/
theorem injectDefault_frame (n0 : Nat) (σ : Store) (result : Option Nat)
    (name : String) (c : Cell)
    (hres : ∀ ra, result = some ra → n0 ≤ ra) (hn : n0 ≤ σ.length) :
    FrameOn n0 σ (injectDefault σ result name c) := by
  cases c <;> dsimp only [injectDefault] <;> first | exact frameOn_refl n0 σ | exact frameOn_trans (frameOn_alloc n0 σ _ hn) (dsetResult_frame n0 _ result name _ hres)

/-- `del result[name]` writes only to the result object. -/
theorem ddelResult_frame (n0 : Nat) (σ : Store) (result : Option Nat)
    (ks : List String) (hres : ∀ ra, result = some ra → n0 ≤ ra) :
    FrameOn n0 σ (ddelResult σ result ks) := by
  cases result with
  | none => exact frameOn_refl n0 σ
  | some ra =>
    dsimp only [ddelResult]
    rcases hc : readCell σ ra with _ | c
    · exact frameOn_refl n0 σ
    · cases c <;> try exact frameOn_refl n0 σ
      exact frameOn_write n0 σ ra _ (hres ra rfl)

/-- The sequence loop preserves every cell of its input store. -/
theorem seqItemsS_frame (iv : HValidator)
    (ih : ∀ σ a adapt, FrameOn σ.length σ (validateS iv σ a adapt).2) :
    ∀ (elems : List Nat) (σ : Store) (adapt : Bool),
      FrameOn σ.length σ (seqItemsS iv elems σ adapt).2 := by
  intro elems
  induction elems with
  | nil =>
    intro σ adapt
    rw [seqItemsS.eq_def]
    exact frameOn_refl _ _
  | cons e rest ihr =>
    intro σ adapt
    rw [seqItemsS.eq_def]
    dsimp only
    rcases hv1 : validateS iv σ e adapt with ⟨r1, σ2⟩
    have h1 : FrameOn σ.length σ σ2 := by
      have h0 := ih σ e adapt
      rw [hv1] at h0
      exact h0
    cases r1 with
    | err => exact h1
    | ok r =>
      dsimp only
      rcases hv2 : seqItemsS iv rest σ2 adapt with ⟨ys, σ3⟩
      have h2 : FrameOn σ.length σ2 σ3 := by
        have h0 := frameOn_mono h1.1 (ihr σ2 adapt)
        rw [hv2] at h0
        exact h0
      cases ys <;> exact frameOn_trans h1 h2

theorem seqFinishS_frame (adapt : Bool) (st : Option (List Nat) × Store) :
    FrameOn st.2.length st.2 (seqFinishS adapt st).2 := by
  obtain ⟨ys, σ⟩ := st
  cases ys with
  | none => exact frameOn_refl _ _
  | some ys2 =>
    dsimp only [seqFinishS]
    cases adapt
    · exact frameOn_refl _ _
    · exact frameOn_alloc _ _ _ (le_refl _)

theorem mapFinishS_frame (adapt : Bool) (st : Option (List (String × Nat)) × Store) :
    FrameOn st.2.length st.2 (mapFinishS adapt st).2 := by
  obtain ⟨ps, σ⟩ := st
  cases ps with
  | none => exact frameOn_refl _ _
  | some ps2 =>
    dsimp only [mapFinishS]
    cases adapt
    · exact frameOn_refl _ _
    · exact frameOn_alloc _ _ _ (le_refl _)

mutual
/-- The mapping loop preserves every cell of its input store. -/
theorem mapItemsS_frame (kv vv : Option HValidator)
    (ihk : ∀ w ∈ kv, ∀ σ a adapt, FrameOn σ.length σ (validateS w σ a adapt).2)
    (ihv : ∀ w ∈ vv, ∀ σ a adapt, FrameOn σ.length σ (validateS w σ a adapt).2) :
    ∀ (es : List (String × Nat)) (σ : Store) (adapt : Bool),
      FrameOn σ.length σ (mapItemsS kv vv es σ adapt).2 := by
  intro es σ adapt
  cases es with
  | nil =>
    rw [mapItemsS.eq_def]
    exact frameOn_refl _ _
  | cons p rest =>
    obtain ⟨k, v⟩ := p
    rw [mapItemsS.eq_def]
    cases vv with
    | none =>
      dsimp only
      exact mapItemKeyS_frame kv Option.none ihk (fun w hw => Option.noConfusion hw)
        k v rest σ adapt
    | some vval =>
      dsimp only
      rcases hv1 : validateS vval σ v adapt with ⟨r1, σ2⟩
      have h1 : FrameOn σ.length σ σ2 := by
        have h0 := ihv vval rfl σ v adapt
        rw [hv1] at h0
        exact h0
      cases r1 with
      | err => exact h1
      | ok r =>
        dsimp only
        exact frameOn_trans h1 (frameOn_mono h1.1
          (mapItemKeyS_frame kv (some vval) ihk ihv k _ rest σ2 adapt))
termination_by es _ _ => (es.length, 0)

/-- The key half of one mapping entry preserves every cell of its input
store. -/
theorem mapItemKeyS_frame (kv vv : Option HValidator)
    (ihk : ∀ w ∈ kv, ∀ σ a adapt, FrameOn σ.length σ (validateS w σ a adapt).2)
    (ihv : ∀ w ∈ vv, ∀ σ a adapt, FrameOn σ.length σ (validateS w σ a adapt).2) :
    ∀ (k : String) (v2 : Nat) (rest : List (String × Nat)) (σ : Store)
      (adapt : Bool),
      FrameOn σ.length σ (mapItemKeyS kv vv k v2 rest σ adapt).2 := by
  intro k v2 rest σ adapt
  cases kv with
  | none =>
    rw [mapItemKeyS.eq_def]
    dsimp only
    rcases hv2 : mapItemsS Option.none vv rest σ adapt with ⟨ps, σ2⟩
    have h2 : FrameOn σ.length σ σ2 := by
      have h0 := mapItemsS_frame Option.none vv (fun w hw => Option.noConfusion hw)
        ihv rest σ adapt
      rw [hv2] at h0
      exact h0
    cases ps <;> exact h2
  | some kval =>
    rw [mapItemKeyS.eq_def]
    dsimp only
    have hall : FrameOn σ.length σ (alloc σ (.strC k)).1 :=
      frameOn_alloc _ _ _ (le_refl _)
    rcases hv1 : validateS kval ((alloc σ (.strC k)).1) ((alloc σ (.strC k)).2)
        adapt with ⟨r1, σ2⟩
    have h1 : FrameOn σ.length σ σ2 := by
      have h0 := frameOn_mono hall.1
        (ihk kval rfl ((alloc σ (.strC k)).1) ((alloc σ (.strC k)).2) adapt)
      rw [hv1] at h0
      exact frameOn_trans hall h0
    cases r1 with
    | err => exact h1
    | ok r =>
      dsimp only
      rcases hv2 : mapItemsS (some kval) vv rest σ2 adapt with ⟨ps, σ3⟩
      have h2 : FrameOn σ.length σ2 σ3 := by
        have h0 := frameOn_mono h1.1 (mapItemsS_frame (some kval) vv ihk ihv rest σ2 adapt)
        rw [hv2] at h0
        exact h0
      cases ps <;> exact frameOn_trans h1 h2
termination_by _ _ rest _ _ => (rest.length, 1)
end

/-- The named-properties loop writes only to the result object and
freshly allocated cells. -/
theorem objNamedS_frame (named : List (String × HValidator))
    (ih : ∀ q ∈ named, ∀ σ a adapt, FrameOn σ.length σ (validateS q.2 σ a adapt).2) :
    ∀ (xs : List (String × Nat)) (σ : Store) (adapt : Bool)
      (result : Option Nat) (n0 : Nat), n0 ≤ σ.length →
      (∀ ra, result = some ra → n0 ≤ ra) →
      FrameOn n0 σ (objNamedS named xs σ adapt result).2 := by
  induction named with
  | nil =>
    intro xs σ adapt result n0 hn hres
    rw [objNamedS.eq_def]
    exact frameOn_refl _ _
  | cons q rest ihr =>
    obtain ⟨name, v⟩ := q
    intro xs σ adapt result n0 hn hres
    have ihrest : ∀ q2 ∈ rest, ∀ σ2 a2 adapt2,
        FrameOn σ2.length σ2 (validateS q2.2 σ2 a2 adapt2).2 :=
      fun q2 hq2 => ih q2 (List.mem_cons_of_mem _ hq2)
    rw [objNamedS.eq_def]
    dsimp only
    rw [objNamedStepS.eq_def]
    rcases hlk : hlookup xs name with _ | pv <;> dsimp only
    · cases v <;> try dsimp only
      all_goals try exact ihr ihrest xs σ adapt result n0 hn hres
      rename_i inner d
      cases d with
      | none =>
        dsimp only
        exact ihr ihrest xs σ adapt result n0 hn hres
      | some c =>
        dsimp only
        have h1 : FrameOn n0 σ (injectDefault σ result name c) :=
          injectDefault_frame n0 σ result name c hres hn
        exact frameOn_trans h1 (ihr ihrest xs _ adapt result n0
          (le_trans hn h1.1) hres)
    · rcases hv1 : validateS v σ pv adapt with ⟨r1, σ2⟩
      have h1 : FrameOn n0 σ σ2 := by
        have h0 := frameOn_mono hn (ih (name, v) (List.mem_cons_self _ _) σ pv adapt)
        rw [hv1] at h0
        exact h0
      cases r1 with
      | err =>
        dsimp only
        exact h1
      | ok r =>
        dsimp only
        have h2 : FrameOn n0 σ2 (dsetResult σ2 result name r) :=
          dsetResult_frame n0 σ2 result name r hres
        exact frameOn_trans h1 (frameOn_trans h2 (ihr ihrest xs _ adapt result n0
          (le_trans hn (le_trans h1.1 h2.1)) hres))

/-- The additional-properties-schema loop writes only to the result
object and freshly allocated cells. -/
theorem objAdditionalS_frame (s : HValidator)
    (ih : ∀ σ a adapt, FrameOn σ.length σ (validateS s σ a adapt).2) :
    ∀ (ks : List String) (xs : List (String × Nat)) (σ : Store)
      (adapt : Bool) (result : Option Nat) (n0 : Nat), n0 ≤ σ.length →
      (∀ ra, result = some ra → n0 ≤ ra) →
      FrameOn n0 σ (objAdditionalS s ks xs σ adapt result).2 := by
  intro ks
  induction ks with
  | nil =>
    intro xs σ adapt result n0 hn hres
    rw [objAdditionalS.eq_def]
    exact frameOn_refl _ _
  | cons k rest ihr =>
    intro xs σ adapt result n0 hn hres
    rw [objAdditionalS.eq_def]
    dsimp only
    rcases hv1 : validateS s σ ((hlookup xs k).getD 0) adapt with ⟨r1, σ2⟩
    have h1 : FrameOn n0 σ σ2 := by
      have h0 := frameOn_mono hn (ih σ ((hlookup xs k).getD 0) adapt)
      rw [hv1] at h0
      exact h0
    cases r1 with
    | err => exact h1
    | ok r =>
      dsimp only
      have h2 : FrameOn n0 σ2 (dsetResult σ2 result k r) :=
        dsetResult_frame n0 σ2 result k r hres
      exact frameOn_trans h1 (frameOn_trans h2 (ihr xs _ adapt result n0
        (le_trans hn (le_trans h1.1 h2.1)) hres))

/-- The additional-properties step writes only to the result object and
freshly allocated cells. -/
theorem objAfterNamed_frame (add : HAdditional)
    (ihs : ∀ s, add = .schema s →
      ∀ σ a adapt, FrameOn σ.length σ (validateS s σ a adapt).2) :
    ∀ (named : List (String × HValidator)) (xs : List (String × Nat))
      (adapt : Bool) (result : Option Nat) (st : Bool × Store) (n0 : Nat),
      n0 ≤ st.2.length → (∀ ra, result = some ra → n0 ≤ ra) →
      FrameOn n0 st.2 (objAfterNamed add named xs adapt result st).2 := by
  intro named xs adapt result st n0 hn hres
  obtain ⟨ok1, σ2⟩ := st
  rw [objAfterNamed.eq_def]
  cases ok1
  · exact frameOn_refl _ _
  · cases add with
    | tru => exact frameOn_refl _ _
    | fls =>
      dsimp only
      split <;> exact frameOn_refl _ _
    | remove =>
      dsimp only
      split
      · exact frameOn_refl _ _
      · exact ddelResult_frame n0 σ2 result _ hres
    | schema s =>
      dsimp only
      split
      · exact frameOn_refl _ _
      · exact objAdditionalS_frame s (ihs s rfl) _ xs σ2 adapt result n0 hn hres

/-- The frame theorem: a store-level validation, with or without
adaptation, succeeding or failing, only grows the store and leaves every
pre-existing cell unchanged — in particular the input object graph. -/
theorem validateS_frame (hv : HValidator) :
    ∀ (σ : Store) (a : Nat) (adapt : Bool),
      FrameOn σ.length σ (validateS hv σ a adapt).2 := by
  cases hv with
  | integer =>
    intro σ a adapt
    rw [validateS.eq_def]
    dsimp only
    rcases hc : readCell σ a with _ | c
    · exact frameOn_refl _ _
    · cases c <;> exact frameOn_refl _ _
  | boolean =>
    intro σ a adapt
    rw [validateS.eq_def]
    dsimp only
    rcases hc : readCell σ a with _ | c
    · exact frameOn_refl _ _
    · cases c <;> exact frameOn_refl _ _
  | nullableH inner d =>
    intro σ a adapt
    rw [validateS.eq_def]
    dsimp only
    rcases hc : readCell σ a with _ | c
    · exact validateS_frame inner σ a adapt
    · cases c <;> try exact validateS_frame inner σ a adapt
      cases d
      · exact frameOn_refl _ _
      · exact frameOn_alloc _ _ _ (le_refl _)

  | homoSeqH item =>
    intro σ a adapt
    rw [validateS.eq_def]
    dsimp only
    rcases hc : readCell σ a with _ | c
    · exact frameOn_refl _ _
    · cases c <;> try exact frameOn_refl _ _
      rename_i elems
      cases item with
      | none => exact frameOn_refl _ _
      | some iv =>
        dsimp only
        have h1 := seqItemsS_frame iv (fun σ2 a2 ad2 => validateS_frame iv σ2 a2 ad2)
          elems σ adapt
        exact frameOn_trans h1 (frameOn_mono h1.1
          (seqFinishS_frame adapt (seqItemsS iv elems σ adapt)))
  | mappingH kv vv =>
    intro σ a adapt
    rw [validateS.eq_def]
    dsimp only
    rcases hc : readCell σ a with _ | c
    · exact frameOn_refl _ _
    · cases c <;> try exact frameOn_refl _ _
      rename_i es
      dsimp only
      have h1 := mapItemsS_frame kv vv
        (fun w hw σ2 a2 ad2 => validateS_frame w σ2 a2 ad2)
        (fun w hw σ2 a2 ad2 => validateS_frame w σ2 a2 ad2) es σ adapt
      exact frameOn_trans h1 (frameOn_mono h1.1
        (mapFinishS_frame adapt (mapItemsS kv vv es σ adapt)))
  | objectH named req add =>
    intro σ a adapt
    rw [validateS.eq_def]
    dsimp only
    rcases hc : readCell σ a with _ | c
    · exact frameOn_refl _ _
    · cases c <;> try exact frameOn_refl _ _
      rename_i xs
      dsimp only
      split
      · exact frameOn_refl _ _
      · split
        · have h0 : FrameOn σ.length σ (alloc σ (.dictC xs)).1 :=
            frameOn_alloc _ _ _ (le_refl _)
          have hres : ∀ ra, (some (alloc σ (.dictC xs)).2 : Option Nat) = some ra →
              σ.length ≤ ra := by
            intro ra hra
            injection hra with hra
            rw [← hra]
            exact Nat.le_of_eq rfl
          have h1 := objNamedS_frame named
            (fun q hq σ2 a2 ad2 => validateS_frame q.2 σ2 a2 ad2) xs
            ((alloc σ (.dictC xs)).1) adapt (some (alloc σ (.dictC xs)).2)
            σ.length h0.1 hres
          have h2 := objAfterNamed_frame add
            (fun s2 hs0 σ2 a2 ad2 => validateS_frame s2 σ2 a2 ad2) named xs adapt
            (some (alloc σ (.dictC xs)).2)
            (objNamedS named xs ((alloc σ (.dictC xs)).1) adapt
              (some (alloc σ (.dictC xs)).2))
            σ.length (le_trans h0.1 h1.1) hres
          exact frameOn_trans h0 (frameOn_trans h1 h2)
        · have h1 := objNamedS_frame named
            (fun q hq σ2 a2 ad2 => validateS_frame q.2 σ2 a2 ad2) xs σ adapt
            Option.none σ.length (le_refl _) (fun ra hra => Option.noConfusion hra)
          have h2 := objAfterNamed_frame add
            (fun s2 hs0 σ2 a2 ad2 => validateS_frame s2 σ2 a2 ad2) named xs adapt
            Option.none (objNamedS named xs σ adapt Option.none)
            σ.length h1.1 (fun ra hra => Option.noConfusion hra)
          exact frameOn_trans h1 h2
termination_by sizeOf hv
decreasing_by
  all_goals try subst hv
  all_goals try subst_eqs
  all_goals simp_wf
  all_goals try omega
  all_goals try { cases hw; simp; omega }
  all_goals try { have := List.sizeOf_lt_of_mem hq
                  have h2 : sizeOf q = 1 + sizeOf q.1 + sizeOf q.2 := by cases q; simp
                  omega }

/-- C8: for every store-model validator, store, and input address,
`validate` with `adapt=False` never mutates the input: every
pre-existing cell — the entire input object graph included — is
unchanged after the call, whether validation succeeds or fails. -/
theorem C8_no_input_mutation (hv : HValidator) (σ : Store) (a : Nat)
    (i : Nat) (hi : i < σ.length) :
    ((validateS hv σ a false).2)[i]? = σ[i]? :=
  (validateS_frame hv σ a false).2 i hi

/-- Witness for C8: validating the dict `{"id": 5}` (cell 1, its value
at cell 0) against `Object(required={"id": "integer"})` with `adapt`
off leaves the input dict cell unchanged. -/
theorem C8_witness :
    1 < ([Cell.intC 5, Cell.dictC [("id", 0)]] : Store).length
    ∧ ((validateS (.objectH [("id", .integer)] ["id"] .tru)
          [Cell.intC 5, Cell.dictC [("id", 0)]] 1 false).2)[1]?
        = ([Cell.intC 5, Cell.dictC [("id", 0)]] : Store)[1]? :=
  ⟨by decide, C8_no_input_mutation (.objectH [("id", .integer)] ["id"] .tru)
    [Cell.intC 5, Cell.dictC [("id", 0)]] 1 1 (by decide)⟩

end Heap

end Valideer
